import Mathlib

/-!
# Closable blocking work queue and the quicksort worker pool

A shallow embedding of `Queue<T>`, `quick_sort` and the worker loop of
`Quick_Sort_with_Simple_Thread_Pool.cpp` / `Simple_Thread_Pool.cpp`, and of
`quickSortMThread` and its pool in `Course Notes/Parallelism/quick_sort.cpp`.

Conventions of the embedding

* `std::deque<T>` and `std::vector<T>` are lists; the front of the deque is the
  head of the list.
* Every `Queue` member function runs under the queue's mutex (or is a single
  atomic store), so each one is a single atomic transition of the queue state.
  Only the section on `WaitandDequeue` against `Close` goes below that, to the
  single statements of the two functions.
* `cv.wait(uk, pred)` returns only when `pred` holds.  A call whose predicate is
  false does not return: it is modelled by the result `none`.
* `int` indices are natural numbers: every index the sort computes lies between
  the `start` and the `end` it was called with, and the size of the vector is
  taken to fit in an `int`.  The counters `ct` and `remains` are integers.
* Indexing a vector outside its bounds is undefined behaviour in the source; the
  embedding reports it as `Fault.outOfBounds`.
* No call throws, except in the section on exceptions in the worker thread,
  where `Jobs.Enqueue` may end by an exception.
-/

namespace Pool

/-! ## Definitions -/

/-- The data members of `template<typename T> class Queue` that carry state:
the deque `dq_` and the flag `closed` (initially `false`). -/
structure Queue (T : Type) where
  dq_ : List T
  closed : Bool
deriving DecidableEq, Repr

/-- A default-constructed `Queue<T>`: empty deque, `closed{false}`. -/
def Queue.empty {T : Type} : Queue T :=
  { dq_ := [], closed := false }

/-- `void Enqueue(T val)`: `dq_.push_back(val)` under the lock. -/
def Queue.Enqueue {T : Type} (q : Queue T) (val : T) : Queue T :=
  { q with dq_ := q.dq_ ++ [val] }

/-- The predicate handed to `cv.wait`: `!dq_.empty() || closed.load()`. -/
def Queue.waitPredicate {T : Type} (q : Queue T) : Bool :=
  !q.dq_.isEmpty || q.closed

/-- `bool WaitandDequeue(T& value)`.  The argument `value` is the content of the
out-parameter before the call.  `none`: the wait predicate is false and the
caller stays blocked.  `some (r, value', q')`: the call returns `r`, the
out-parameter holds `value'` and the queue is `q'`. -/
def Queue.WaitandDequeue {T : Type} (q : Queue T) (value : T) : Option (Bool × T × Queue T) :=
  if q.waitPredicate then
    match q.dq_ with
    | [] => some (false, value, q)
    | front :: rest => some (true, front, { q with dq_ := rest })
  else none

/-- `void Close()`: `closed.store(true)`. -/
def Queue.Close {T : Type} (q : Queue T) : Queue T :=
  { q with closed := true }

/-- `struct Event { int from; int to; }` (`struct Job` in the course notes). -/
structure Event where
  «from» : Nat
  «to» : Nat
deriving DecidableEq, Repr, Inhabited

/-- Calls `WaitandDequeue` `n` times in a row on the same out-parameter and
records, per call, the returned flag and the out-parameter after the call.
`none` when one of the calls blocks. -/
def dequeueMany {T : Type} : Nat → Queue T → T → Option (List (Bool × T) × Queue T)
  | 0, q, _ => some ([], q)
  | n + 1, q, value =>
    match q.WaitandDequeue value with
    | none => none
    | some (r, value', q') =>
      match dequeueMany n q' value' with
      | none => none
      | some (rs, q'') => some ((r, value') :: rs, q'')

/-- One queue operation of a linearised history. -/
inductive QueueOp (T : Type) where
  | enqueue (val : T)
  | dequeue
  | close
deriving DecidableEq, Repr

/-- A queue together with the history of what was enqueued and what the
successful dequeues returned; `value` is the consumer's out-parameter. -/
structure History (T : Type) where
  q : Queue T
  enqueued : List T
  delivered : List T
  value : T
deriving DecidableEq, Repr

/-- Applies one operation.  A `WaitandDequeue` whose wait predicate is false
has not returned, so it leaves the history as it is. -/
def History.apply {T : Type} (h : History T) : QueueOp T → History T
  | .enqueue val => { h with q := h.q.Enqueue val, enqueued := h.enqueued ++ [val] }
  | .dequeue =>
    match h.q.WaitandDequeue h.value with
    | none => h
    | some (true, value', q') => { h with q := q', delivered := h.delivered ++ [value'], value := value' }
    | some (false, value', q') => { h with q := q', value := value' }
  | .close => { h with q := h.q.Close }

/-- Runs a sequence of operations from the empty open queue. -/
def History.run {T : Type} (ops : List (QueueOp T)) (value : T) : History T :=
  ops.foldl History.apply { q := Queue.empty, enqueued := [], delivered := [], value := value }

/-! ### The quicksort pool of `Quick_Sort_with_Simple_Thread_Pool.cpp` -/

/-- Why a run of the embedding does not produce a result. -/
inductive Fault where
  | outOfBounds
  | outOfFuel
deriving DecidableEq, Repr

/-- Reading `arr[k]`. -/
def readAt (arr : List Int) (k : Nat) : Except Fault Int :=
  match arr[k]? with
  | some v => .ok v
  | none => .error .outOfBounds

/-- `std::swap(arr[i], arr[j])`. -/
def swapAt (arr : List Int) (i j : Nat) : Except Fault (List Int) :=
  match arr[i]?, arr[j]? with
  | some a, some b => .ok ((arr.set i b).set j a)
  | _, _ => .error .outOfBounds

/-- The classification loop
`for(int j = i; j < end; j++){ if(arr[j] < arr[start]){ std::swap(arr[i], arr[j]); i++; } }`.
The first argument counts the iterations that are left, `end - j`. -/
def classify (start : Nat) : Nat → Nat → Nat → List Int → Except Fault (List Int × Nat)
  | 0, _, i, arr => .ok (arr, i)
  | n + 1, j, i, arr =>
    match readAt arr j, readAt arr start with
    | .ok aj, .ok pivot =>
      if aj < pivot then
        match swapAt arr i j with
        | .ok arr' => classify start n (j + 1) (i + 1) arr'
        | .error e => .error e
      else classify start n (j + 1) i arr
    | _, _ => .error .outOfBounds

/-- Classification and substitution of one pass over `[start, end)`:
`int i = start+1; for ...; int mid = i-1; std::swap(arr[mid], arr[start]);`.
Returns the vector and `mid`. -/
def partitionPass (arr : List Int) (start end_ : Nat) : Except Fault (List Int × Nat) :=
  match classify start (end_ - (start + 1)) (start + 1) (start + 1) arr with
  | .error e => .error e
  | .ok (arr', i) =>
    let mid := i - 1
    match swapAt arr' mid start with
    | .ok arr'' => .ok (arr'', mid)
    | .error e => .error e

/-- An effect on the shared queue or counter, in the order it takes place. -/
inductive Effect where
  | enqueue (job : Event)
  | increment
  | dequeue (job : Event)
  | decrement
deriving DecidableEq, Repr

/-- What the workers share: the vector `vec`, the queue `Jobs` and the counter
`ct`.  `log` is a ghost record of the effects on `Jobs` and `ct` so far. -/
structure Shared where
  arr : List Int
  Jobs : Queue Event
  ct : Int
  log : List Effect
deriving DecidableEq, Repr

/-- `Jobs.Enqueue(job)`. -/
def Shared.enqueue (s : Shared) (job : Event) : Shared :=
  { s with Jobs := s.Jobs.Enqueue job, log := s.log ++ [.enqueue job] }

/-- `ct++`. -/
def Shared.increment (s : Shared) : Shared :=
  { s with ct := s.ct + 1, log := s.log ++ [.increment] }

/-- `ct--`. -/
def Shared.decrement (s : Shared) : Shared :=
  { s with ct := s.ct - 1, log := s.log ++ [.decrement] }

/-- `quick_sort(arr, start, end, Jobs, ct)`.  Each pass of the `while(true)` loop
and each recursive call uses one unit of fuel. -/
def quick_sort : Nat → Shared → Nat → Nat → Except Fault Shared
  | 0, _, _, _ => .error .outOfFuel
  | fuel + 1, s, start, end_ =>
    if start = end_ then .ok s
    else
      match partitionPass s.arr start end_ with
      | .error e => .error e
      | .ok (arr, mid) =>
        if mid - start > 10 then
          quick_sort fuel (({ s with arr := arr }.enqueue ⟨start, mid⟩).increment) (mid + 1) end_
        else
          match quick_sort fuel { s with arr := arr } start mid with
          | .error e => .error e
          | .ok s' => quick_sort fuel s' (mid + 1) end_

/-- One iteration of the worker loop
`while(Jobs.WaitandDequeue(event)){ quick_sort(vec, event.from, event.to, Jobs, ct); ct--; }`.
`none`: the loop does not iterate, because the call blocks on the empty open
queue or returns `false`. -/
def workerIteration (s : Shared) (event : Event) : Except Fault (Option (Shared × Event)) :=
  match s.Jobs.WaitandDequeue event with
  | none => .ok none
  | some (false, _, _) => .ok none
  | some (true, job, rest) =>
    match quick_sort (job.«to» - job.«from» + 1)
        { s with Jobs := rest, log := s.log ++ [.dequeue job] } job.«from» job.«to» with
    | .error e => .error e
    | .ok s' => .ok (some (s'.decrement, job))

/-- The state after exactly `k` iterations of the worker loop, `none` when the
loop stops earlier. -/
def workerIterations : Nat → Shared → Event → Except Fault (Option (Shared × Event))
  | 0, s, event => .ok (some (s, event))
  | k + 1, s, event =>
    match workerIteration s event with
    | .error e => .error e
    | .ok none => .ok none
    | .ok (some (s', event')) => workerIterations k s' event'

/-- The worker loop run by a single worker until it no longer iterates. -/
def workerLoop : Nat → Shared → Event → Except Fault Shared
  | 0, _, _ => .error .outOfFuel
  | fuel + 1, s, event =>
    match workerIteration s event with
    | .error e => .error e
    | .ok none => .ok s
    | .ok (some (s', event')) => workerLoop fuel s' event'

/-- The shared state `main` sets up before it starts the workers:
`std::atomic<int> ct{0}; Queue<Event> Jobs; Jobs.Enqueue({0, (int)vec.size()}); ct++;`. -/
def seed (vec : List Int) : Shared :=
  (({ arr := vec, Jobs := Queue.empty, ct := 0, log := [] } : Shared).enqueue ⟨0, vec.length⟩).increment

/-- The vector `main` builds: `vec[i] = num - i` for `i < num`. -/
def descending (num : Nat) : List Int :=
  List.map (fun (i : Nat) => (num : Int) - (i : Int)) (List.range num)

/-- The vector `1, 2, ..., num`. -/
def ascending (num : Nat) : List Int :=
  List.map (fun (i : Nat) => (i : Int) + 1) (List.range num)

/-! ### Specification vocabulary for the sort -/

/-- The effects of handing the jobs over to the queue one after the other, as
`quick_sort` does it: `Jobs.Enqueue(job); ct++;` for each job. -/
def handovers : List Event → List Effect
  | [] => []
  | job :: rest => .enqueue job :: .increment :: handovers rest

/-- The vector `arr'` arises from `arr` by rearranging the entries at the indices in
`[lo, hi)`: same length, a permutation, equal outside `[lo, hi)`, and every entry
of `arr'` in `[lo, hi)` is an entry of `arr` in `[lo, hi)`. -/
def Rearranged (arr arr' : List Int) (lo hi : Nat) : Prop :=
  arr'.length = arr.length ∧ arr'.Perm arr
    ∧ (∀ k, k < lo ∨ hi ≤ k → arr'.getD k 0 = arr.getD k 0)
    ∧ (∀ k, lo ≤ k → k < hi → ∃ k', lo ≤ k' ∧ k' < hi ∧ arr'.getD k 0 = arr.getD k' 0)

/-- Some job of the list has both indices `i` and `j` in its range `[from, to)`. -/
def Covered (jobs : List Event) (i j : Nat) : Prop :=
  ∃ job ∈ jobs, job.«from» ≤ i ∧ j < job.«to»

/-- Within `[lo, hi)` the vector is in ascending order except inside the ranges
of the jobs that are still to be done. -/
def SortedUpTo (arr : List Int) (jobs : List Event) (lo hi : Nat) : Prop :=
  ∀ i j, lo ≤ i → i < j → j < hi → arr.getD i 0 ≤ arr.getD j 0 ∨ Covered jobs i j

/-- The ranges of two jobs do not overlap. -/
def Apart (a b : Event) : Prop :=
  a.«to» ≤ b.«from» ∨ b.«to» ≤ a.«from»

/-- The number of indices of the jobs, plus one per job. -/
def workload (jobs : List Event) : Nat :=
  (jobs.map fun job => job.«to» - job.«from» + 1).sum

/-- The jobs have ranges inside `[lo, hi)` that do not overlap each other. -/
def JobsIn (jobs : List Event) (lo hi : Nat) : Prop :=
  (∀ job ∈ jobs, lo ≤ job.«from» ∧ job.«from» ≤ job.«to» ∧ job.«to» ≤ hi)
    ∧ jobs.Pairwise Apart

/-- The invariant of the run of one worker on the vector `vec`, at the top of the
worker loop: the vector is a rearrangement of `vec`, the queued jobs have
ranges inside the vector that do not overlap, the vector is in order except
inside the queued ranges, the counter equals the number of queued jobs, and the
queue is open. -/
def PoolInv (vec : List Int) (s : Shared) : Prop :=
  s.arr.Perm vec ∧ s.arr.length = vec.length
    ∧ JobsIn s.Jobs.dq_ 0 vec.length
    ∧ SortedUpTo s.arr s.Jobs.dq_ 0 vec.length
    ∧ s.ct = s.Jobs.dq_.length
    ∧ s.Jobs.closed = false

/-- Every `Enqueue` in a sequence of effects has its own increment of the counter
before it: scanning from the left, each `increment` adds one to the number of
increments not yet used, and each `enqueue` needs one and uses it up. -/
def incrementsLead : Nat → List Effect → Bool
  | _, [] => true
  | unused, .increment :: rest => incrementsLead (unused + 1) rest
  | unused, .enqueue _ :: rest => decide (0 < unused) && incrementsLead (unused - 1) rest
  | unused, _ :: rest => incrementsLead unused rest

/-! ### Interleaved execution of `Quick_Sort_with_Simple_Thread_Pool.cpp`

The threads take turns; a turn of a worker runs its thread-local code up to and
including its next access to `Jobs` or `ct`.  The call stack of `quick_sort` is
the list of the ranges `(start, end)` its loops still have to work on,
innermost call first. -/

/-- Where a worker thread is. -/
inductive Worker where
  /-- At `Jobs.WaitandDequeue(event)`, the loop head. -/
  | waiting (event : Event)
  /-- Inside `quick_sort`; with the empty stack the call has returned and `ct--`
  is next. -/
  | sorting (event : Event) (stack : List (Nat × Nat))
  /-- After `Jobs.Enqueue({start, mid})` and before the `ct++` that follows it. -/
  | enqueued (event : Event) (stack : List (Nat × Nat))
  /-- After `WaitandDequeue` returned `false`. -/
  | exited
deriving DecidableEq, Repr

/-- The shared state and the place of every worker. -/
structure System where
  arr : List Int
  Jobs : Queue Event
  ct : Int
  workers : List Worker
deriving DecidableEq, Repr

/-- A thread of the program. -/
inductive Thread where
  | main
  | worker (i : Nat)
deriving DecidableEq, Repr

/-- The state in which `main` starts `n` workers: `ct` is `1` and the seed job
is queued. -/
def System.init (vec : List Int) (n : Nat) : System :=
  { arr := vec, Jobs := Queue.empty.Enqueue ⟨0, vec.length⟩, ct := 0 + 1,
    workers := List.replicate n (.waiting default) }

/-- One turn of `main` in `while(ct!=0){ std::this_thread::yield(); } Jobs.Close();`
followed by the joins: it yields while `ct` is not `0`, closes the queue
otherwise, and takes no turn after that. -/
def System.stepMain (s : System) : Option System :=
  if s.Jobs.closed then none
  else if s.ct ≠ 0 then some s
  else some { s with Jobs := s.Jobs.Close }

/-- One turn of worker `i`. -/
def System.stepWorker (s : System) (i : Nat) : Option System :=
  match s.workers[i]? with
  | none => none
  | some (.waiting event) =>
    match s.Jobs.WaitandDequeue event with
    | none => some s
    | some (false, _, _) => some { s with workers := s.workers.set i .exited }
    | some (true, job, rest) =>
      some { s with Jobs := rest,
                    workers := s.workers.set i (.sorting job [(job.«from», job.«to»)]) }
  | some (.sorting event []) =>
    some { s with ct := s.ct - 1, workers := s.workers.set i (.waiting event) }
  | some (.sorting event ((start, end_) :: stack)) =>
    if start = end_ then some { s with workers := s.workers.set i (.sorting event stack) }
    else
      match partitionPass s.arr start end_ with
      | .error _ => none
      | .ok (arr, mid) =>
        if mid - start > 10 then
          some { s with arr := arr, Jobs := s.Jobs.Enqueue ⟨start, mid⟩,
                        workers := s.workers.set i (.enqueued event ((mid + 1, end_) :: stack)) }
        else
          some { s with arr := arr,
                        workers := s.workers.set i
                          (.sorting event ((start, mid) :: (mid + 1, end_) :: stack)) }
  | some (.enqueued event stack) =>
    some { s with ct := s.ct + 1, workers := s.workers.set i (.sorting event stack) }
  | some .exited => none

/-- One turn of a thread. -/
def System.step (s : System) : Thread → Option System
  | .main => s.stepMain
  | .worker i => s.stepWorker i

/-- The state after the threads have taken their turns in the order of the
schedule; `none` if some thread of the schedule cannot take its turn. -/
def System.run : System → List Thread → Option System
  | s, [] => some s
  | s, t :: schedule =>
    match s.step t with
    | none => none
    | some s' => System.run s' schedule

/-- The work a worker accounts for in `ct`: `1` while it is inside `quick_sort`
or about to decrement, but `0` between an `Enqueue` and its `ct++`, where the
job it has just enqueued is counted in the queue and not yet in `ct`. -/
def Worker.credit : Worker → Int
  | .sorting _ _ => 1
  | _ => 0

/-- The worker is between a successful dequeue and its decrement. -/
def Worker.inFlight : Worker → Bool
  | .sorting _ _ => true
  | .enqueued _ _ => true
  | _ => false

/-! ### Interleaved execution of the pool of `Course Notes/Parallelism/quick_sort.cpp`

The queue of the course notes has the members of `Queue` under the names `d_`,
`is_closed_`, `Enqueue`, `Close` and `WaitAndDequeue`, and `struct Job` has the
fields of `Event`.  The partition code of `quickSortMThread` is the one of
`quickSort`, which computes what `partitionPass` computes (`notesPartition_eq`). -/

/-- Where a worker thread of the course notes pool is. -/
inductive NotesWorker where
  /-- At `jobs.WaitAndDequeue(job)`, the loop head. -/
  | waiting (job : Event)
  /-- Inside `quickSortMThread`; with the empty stack the call has returned and
  `remains -= 1` is next. -/
  | sorting (job : Event) (stack : List (Nat × Nat))
  /-- After `remains += 1` and before the `jobs.Enqueue({first, mid})` that
  follows it. -/
  | counted (job : Event) (handover : Event) (stack : List (Nat × Nat))
  /-- After `WaitAndDequeue` returned `false`. -/
  | exited
deriving DecidableEq, Repr

/-- The shared state of the course notes pool and the place of every worker. -/
structure NotesSystem where
  nums : List Int
  jobs : Queue Event
  remains : Int
  workers : List NotesWorker
deriving DecidableEq, Repr

/-- The state in which `main` starts `n` workers:
`std::atomic<int> remains{1}; jobs.Enqueue({0, (int)v3.size()});`. -/
def NotesSystem.init (v3 : List Int) (n : Nat) : NotesSystem :=
  { nums := v3, jobs := Queue.empty.Enqueue ⟨0, v3.length⟩, remains := 1,
    workers := List.replicate n (.waiting default) }

/-- One turn of `main` in `while(remains != 0){ std::this_thread::yield(); } jobs.Close();`
followed by the joins. -/
def NotesSystem.stepMain (s : NotesSystem) : Option NotesSystem :=
  if s.jobs.closed then none
  else if s.remains ≠ 0 then some s
  else some { s with jobs := s.jobs.Close }

/-- One turn of worker `i` of the course notes pool, running
`while(jobs.WaitAndDequeue(job)){ quickSortMThread(v3, job.from, job.to, jobs, remains); remains -= 1; }`. -/
def NotesSystem.stepWorker (s : NotesSystem) (i : Nat) : Option NotesSystem :=
  match s.workers[i]? with
  | none => none
  | some (.waiting job) =>
    match s.jobs.WaitandDequeue job with
    | none => some s
    | some (false, _, _) => some { s with workers := s.workers.set i .exited }
    | some (true, next, rest) =>
      some { s with jobs := rest,
                    workers := s.workers.set i (.sorting next [(next.«from», next.«to»)]) }
  | some (.sorting job []) =>
    some { s with remains := s.remains - 1, workers := s.workers.set i (.waiting job) }
  | some (.sorting job ((first, last) :: stack)) =>
    if first = last then some { s with workers := s.workers.set i (.sorting job stack) }
    else
      match partitionPass s.nums first last with
      | .error _ => none
      | .ok (nums, mid) =>
        if last - first < 100 then
          some { s with nums := nums,
                        workers := s.workers.set i
                          (.sorting job ((first, mid) :: (mid + 1, last) :: stack)) }
        else
          some { s with nums := nums, remains := s.remains + 1,
                        workers := s.workers.set i
                          (.counted job ⟨first, mid⟩ ((mid + 1, last) :: stack)) }
  | some (.counted job handover stack) =>
    some { s with jobs := s.jobs.Enqueue handover,
                  workers := s.workers.set i (.sorting job stack) }
  | some .exited => none

/-- One turn of a thread of the course notes pool. -/
def NotesSystem.step (s : NotesSystem) : Thread → Option NotesSystem
  | .main => s.stepMain
  | .worker i => s.stepWorker i

/-- The state of the course notes pool after the turns of the schedule. -/
def NotesSystem.run : NotesSystem → List Thread → Option NotesSystem
  | s, [] => some s
  | s, t :: schedule =>
    match s.step t with
    | none => none
    | some s' => NotesSystem.run s' schedule

/-- The work a worker of the course notes pool accounts for in `remains`: `1`
for the job it is processing, and one more between `remains += 1` and the
`Enqueue` that follows it. -/
def NotesWorker.credit : NotesWorker → Int
  | .sorting _ _ => 1
  | .counted _ _ _ => 2
  | _ => 0

/-- The worker is between a successful dequeue and its decrement. -/
def NotesWorker.inFlight : NotesWorker → Bool
  | .sorting _ _ => true
  | .counted _ _ _ => true
  | _ => false

/-! ### Single-threaded `quickSort` of `Course Notes/Parallelism/quick_sort.cpp` -/

/-- The classification loop of `quickSort` and of `quickSortMThread`:
`for(int i = first+1; i < last; i++){ if(nums[i] < nums[first]) { std::swap(nums[i], nums[j]); j++; } }`.
The first argument counts the iterations that are left, `last - i`. -/
def notesClassify (first : Nat) : Nat → Nat → Nat → List Int → Except Fault (List Int × Nat)
  | 0, _, j, nums => .ok (nums, j)
  | n + 1, i, j, nums =>
    match readAt nums i, readAt nums first with
    | .ok ai, .ok pivot =>
      if ai < pivot then
        match swapAt nums i j with
        | .ok nums' => notesClassify first n (i + 1) (j + 1) nums'
        | .error e => .error e
      else notesClassify first n (i + 1) j nums
    | _, _ => .error .outOfBounds

/-- Classification and substitution in `quickSort`:
`int j = first+1; for ...; int mid = j-1; std::swap(nums[first], nums[mid]);`.
Returns the vector and `mid`. -/
def notesPartition (nums : List Int) (first last : Nat) : Except Fault (List Int × Nat) :=
  match notesClassify first (last - (first + 1)) (first + 1) (first + 1) nums with
  | .error e => .error e
  | .ok (nums', j) =>
    let mid := j - 1
    match swapAt nums' first mid with
    | .ok nums'' => .ok (nums'', mid)
    | .error e => .error e

/-- `void quickSort(std::vector<int>& nums, int first, int last)`.  Each call
uses one unit of fuel. -/
def quickSort : Nat → List Int → Nat → Nat → Except Fault (List Int)
  | 0, _, _, _ => .error .outOfFuel
  | fuel + 1, nums, first, last =>
    if first = last then .ok nums
    else
      match notesPartition nums first last with
      | .error e => .error e
      | .ok (nums1, mid) =>
        match quickSort fuel nums1 first mid with
        | .error e => .error e
        | .ok nums2 => quickSort fuel nums2 (mid + 1) last

/-- `void quickSort(std::vector<int>& nums)`: `quickSort(nums, 0, nums.size())`. -/
def quickSortVector (nums : List Int) : Except Fault (List Int) :=
  quickSort (nums.length + 1) nums 0 nums.length

/-! ### The partition steps of a run -/

/-- One partition step: the range `[start, end)` the pass worked on and the
position `mid` at which it put the pivot. -/
structure PartitionStep where
  start : Nat
  mid : Nat
  end_ : Nat
deriving DecidableEq, Repr

/-- `quick_sort` with a ghost record of its partition steps, in the order they
are made.  The shared state it returns is the one of `quick_sort`. -/
def quick_sort_steps : Nat → Shared → Nat → Nat → Except Fault (Shared × List PartitionStep)
  | 0, _, _, _ => .error .outOfFuel
  | fuel + 1, s, start, end_ =>
    if start = end_ then .ok (s, [])
    else
      match partitionPass s.arr start end_ with
      | .error e => .error e
      | .ok (arr, mid) =>
        if mid - start > 10 then
          match quick_sort_steps fuel (({ s with arr := arr }.enqueue ⟨start, mid⟩).increment)
              (mid + 1) end_ with
          | .error e => .error e
          | .ok (s2, steps2) => .ok (s2, ⟨start, mid, end_⟩ :: steps2)
        else
          match quick_sort_steps fuel { s with arr := arr } start mid with
          | .error e => .error e
          | .ok (s1, steps1) =>
            match quick_sort_steps fuel s1 (mid + 1) end_ with
            | .error e => .error e
            | .ok (s2, steps2) => .ok (s2, ⟨start, mid, end_⟩ :: (steps1 ++ steps2))

/-- The worker loop run by a single worker, with the ghost record of the
partition steps of all its `quick_sort` calls. -/
def workerLoop_steps : Nat → Shared → Event → Except Fault (Shared × List PartitionStep)
  | 0, _, _ => .error .outOfFuel
  | fuel + 1, s, event =>
    match s.Jobs.WaitandDequeue event with
    | none => .ok (s, [])
    | some (false, _, _) => .ok (s, [])
    | some (true, job, rest) =>
      match quick_sort_steps (job.«to» - job.«from» + 1)
          { s with Jobs := rest, log := s.log ++ [.dequeue job] } job.«from» job.«to» with
      | .error e => .error e
      | .ok (s1, steps1) =>
        match workerLoop_steps fuel s1.decrement job with
        | .error e => .error e
        | .ok (s2, steps2) => .ok (s2, steps1 ++ steps2)

/-- The indices in the ranges of the jobs, job after job. -/
def jobIndices : List Event → List Nat
  | [] => []
  | job :: rest => List.range' job.«from» (job.«to» - job.«from») ++ jobIndices rest

/-! ### `WaitandDequeue` against `Close`, statement by statement

Here the two member functions are not single transitions.  `cv.wait(uk, pred)` is
`while(!pred()) cv.wait(uk);`: the consumer evaluates the predicate while it owns
`m`, and the call `cv.wait(uk)` that follows releases `m` and blocks in one
step.  `Close` is the two statements `closed.store(true); cv.notify_all();`,
neither of which locks `m`; `notify_all` unblocks the threads that are blocked
in `wait` at that moment. -/

/-- Where the consumer is inside `WaitandDequeue`. -/
inductive ConsumerAt where
  /-- Before `std::unique_lock<std::mutex> uk(m)`. -/
  | entering
  /-- Owns `m`, about to evaluate the predicate of `cv.wait`. -/
  | testing
  /-- Owns `m`, has found the predicate false, about to call `cv.wait(uk)`. -/
  | goingToWait
  /-- Inside `cv.wait(uk)`: `m` released, blocked until notified. -/
  | blocked
  /-- Unblocked by a notification, about to lock `m` again. -/
  | notified
  /-- Owns `m`, has found the predicate true, about to run `if(dq_.empty()) ...`. -/
  | leaving
  /-- The call has returned this value and released `m`. -/
  | returned (r : Bool)
deriving DecidableEq, Repr

/-- Where the closing thread is inside `Close`. -/
inductive CloserAt where
  /-- Before `closed.store(true)`. -/
  | storing
  /-- Before `cv.notify_all()`. -/
  | notifying
  /-- `Close` has returned. -/
  | done
deriving DecidableEq, Repr

/-- The queue, its mutex, the consumer's out-parameter and the two threads. -/
structure WaitState where
  q : Queue Event
  mutexOwned : Bool
  value : Event
  consumer : ConsumerAt
  closer : CloserAt
deriving DecidableEq, Repr

/-- One of the two threads. -/
inductive WaitThread where
  | consumer
  | closer
deriving DecidableEq, Repr

/-- A consumer entering `WaitandDequeue` and a thread entering `Close` on an
open queue with the items `dq`. -/
def WaitState.init (dq : List Event) : WaitState :=
  { q := { dq_ := dq, closed := false }, mutexOwned := false, value := default,
    consumer := .entering, closer := .storing }

/-- The next statement of a thread; `none` when the thread cannot move (it is
blocked, it has returned, or it needs `m` and `m` is owned). -/
def WaitState.step (s : WaitState) : WaitThread → Option WaitState
  | .consumer =>
    match s.consumer with
    | .entering => if s.mutexOwned then none else some { s with mutexOwned := true, consumer := .testing }
    | .testing =>
      if s.q.waitPredicate then some { s with consumer := .leaving }
      else some { s with consumer := .goingToWait }
    | .goingToWait => some { s with mutexOwned := false, consumer := .blocked }
    | .blocked => none
    | .notified => if s.mutexOwned then none else some { s with mutexOwned := true, consumer := .testing }
    | .leaving =>
      match s.q.dq_ with
      | [] => some { s with mutexOwned := false, consumer := .returned false }
      | front :: rest =>
        some { s with q := { s.q with dq_ := rest }, value := front, mutexOwned := false,
                      consumer := .returned true }
    | .returned _ => none
  | .closer =>
    match s.closer with
    | .storing => some { s with q := s.q.Close, closer := .notifying }
    | .notifying =>
      some { s with consumer := if s.consumer = .blocked then .notified else s.consumer,
                    closer := .done }
    | .done => none

/-- The state after the threads have moved in the order of the schedule. -/
def WaitState.run : WaitState → List WaitThread → Option WaitState
  | s, [] => some s
  | s, t :: schedule =>
    match s.step t with
    | none => none
    | some s' => WaitState.run s' schedule

/-! ### The contents of a range -/

/-- The entries of the vector at the indices `lo, ..., hi - 1`, in this order. -/
def segment (arr : List Int) (lo hi : Nat) : List Int :=
  (List.range' lo (hi - lo)).map fun k => arr.getD k 0

/-! ### The array accesses of `quick_sort` -/

/-- `classify` with a ghost record of the indices of `arr` it reads or writes, in
the order of the accesses: `arr[j]` and `arr[start]` for the comparison, `arr[i]`
and `arr[j]` for the swap. -/
def classify_accesses (start : Nat) :
    Nat → Nat → Nat → List Int → Except Fault (List Int × Nat × List Nat)
  | 0, _, i, arr => .ok (arr, i, [])
  | n + 1, j, i, arr =>
    match readAt arr j, readAt arr start with
    | .ok aj, .ok pivot =>
      if aj < pivot then
        match swapAt arr i j with
        | .ok arr' =>
          match classify_accesses start n (j + 1) (i + 1) arr' with
          | .ok (arr'', i', acc) => .ok (arr'', i', [j, start, i, j] ++ acc)
          | .error e => .error e
        | .error e => .error e
      else
        match classify_accesses start n (j + 1) i arr with
        | .ok (arr'', i', acc) => .ok (arr'', i', [j, start] ++ acc)
        | .error e => .error e
    | _, _ => .error .outOfBounds

/-- `partitionPass` with the ghost record of the indices it accesses. -/
def partitionPass_accesses (arr : List Int) (start end_ : Nat) :
    Except Fault (List Int × Nat × List Nat) :=
  match classify_accesses start (end_ - (start + 1)) (start + 1) (start + 1) arr with
  | .error e => .error e
  | .ok (arr', i, acc) =>
    let mid := i - 1
    match swapAt arr' mid start with
    | .ok arr'' => .ok (arr'', mid, acc ++ [mid, start])
    | .error e => .error e

/-- `quick_sort` with the ghost record of the indices of `arr` it accesses.  The
shared state it returns is the one of `quick_sort`. -/
def quick_sort_accesses : Nat → Shared → Nat → Nat → Except Fault (Shared × List Nat)
  | 0, _, _, _ => .error .outOfFuel
  | fuel + 1, s, start, end_ =>
    if start = end_ then .ok (s, [])
    else
      match partitionPass_accesses s.arr start end_ with
      | .error e => .error e
      | .ok (arr, mid, acc) =>
        if mid - start > 10 then
          match quick_sort_accesses fuel (({ s with arr := arr }.enqueue ⟨start, mid⟩).increment)
              (mid + 1) end_ with
          | .error e => .error e
          | .ok (s2, acc2) => .ok (s2, acc ++ acc2)
        else
          match quick_sort_accesses fuel { s with arr := arr } start mid with
          | .error e => .error e
          | .ok (s1, acc1) =>
            match quick_sort_accesses fuel s1 (mid + 1) end_ with
            | .error e => .error e
            | .ok (s2, acc2) => .ok (s2, acc ++ (acc1 ++ acc2))

/-! ### `quickSortMThread` and its worker loop, run by one worker

In `Shared`, `arr` stands for `nums` (`v3`), `Jobs` for `jobs` and `ct` for
`remains`. -/

/-- `void quickSortMThread(std::vector<int>& nums, int first, int last, Queue<Job>& jobs, std::atomic<int>& remains)`.
Each pass of the `while(true)` loop and each recursive call uses one unit of
fuel. -/
def quickSortMThread : Nat → Shared → Nat → Nat → Except Fault Shared
  | 0, _, _, _ => .error .outOfFuel
  | fuel + 1, s, first, last =>
    if first = last then .ok s
    else
      match notesPartition s.arr first last with
      | .error e => .error e
      | .ok (nums, mid) =>
        if last - first < 100 then
          match quickSortMThread fuel { s with arr := nums } first mid with
          | .error e => .error e
          | .ok s' => quickSortMThread fuel s' (mid + 1) last
        else
          quickSortMThread fuel (({ s with arr := nums }.increment).enqueue ⟨first, mid⟩)
            (mid + 1) last

/-- One iteration of the worker loop of the course notes,
`while(jobs.WaitAndDequeue(job)){ quickSortMThread(v3, job.from, job.to, jobs, remains); remains -= 1; }`. -/
def notesWorkerIteration (s : Shared) (job : Event) : Except Fault (Option (Shared × Event)) :=
  match s.Jobs.WaitandDequeue job with
  | none => .ok none
  | some (false, _, _) => .ok none
  | some (true, next, rest) =>
    match quickSortMThread (next.«to» - next.«from» + 1)
        { s with Jobs := rest, log := s.log ++ [.dequeue next] } next.«from» next.«to» with
    | .error e => .error e
    | .ok s' => .ok (some (s'.decrement, next))

/-- The worker loop of the course notes run by a single worker until it no
longer iterates. -/
def notesWorkerLoop : Nat → Shared → Event → Except Fault Shared
  | 0, _, _ => .error .outOfFuel
  | fuel + 1, s, job =>
    match notesWorkerIteration s job with
    | .error e => .error e
    | .ok none => .ok s
    | .ok (some (s', next)) => notesWorkerLoop fuel s' next

/-- The shared state `main` of the course notes sets up before it starts the
workers: `std::atomic<int> remains{1}; jobs.Enqueue({0, (int)v3.size()});`. -/
def notesSeed (v3 : List Int) : Shared :=
  ({ arr := v3, Jobs := Queue.empty, ct := 1, log := [] } : Shared).enqueue ⟨0, v3.length⟩

/-- The effects of handing the jobs over the way `quickSortMThread` does it:
`remains += 1; jobs.Enqueue(job);` for each job. -/
def notesHandovers : List Event → List Effect
  | [] => []
  | job :: rest => .increment :: .enqueue job :: notesHandovers rest

/-! ### `Max` of `Vector_Map_Reduce.cpp` and of `Course Notes/Atomic_Types/hw0.cpp`

The values are `unsigned int`s, which are only compared and copied; they are
natural numbers here.  The sizes and indices (`std::size_t`, `int` in `hw0.cpp`)
are natural numbers too: the products `(i+1) * sizeofrange` stay below the
vector size plus the chunk size.  The worker threads write disjoint cells of the
result vector and are joined before the results are read, so they are run one
after the other.  The number of threads comes from
`std::thread::hardware_concurrency()` and is a parameter. -/

/-- Reading `values[j]`. -/
def readValue (values : List Nat) (j : Nat) : Except Fault Nat :=
  match values[j]? with
  | some v => .ok v
  | none => .error .outOfBounds

/-- The loop of a worker,
`for(size_t j = start; j < end; j++){ if(values[j] > results[i]){ results[i] = values[j]; } }`.
The first argument counts the iterations that are left, `end - j`; the last one
is the content of `results[i]`. -/
def scanMax (values : List Nat) : Nat → Nat → Nat → Except Fault Nat
  | 0, _, best => .ok best
  | n + 1, j, best =>
    match readValue values j with
    | .ok v => scanMax values n (j + 1) (if v > best then v else best)
    | .error e => .error e

/-- Worker `i` with chunks of `sizeofrange` indices:
`start = i * sizeofrange; end = std::min(values.size(), (i+1) * sizeofrange); results[i] = 0;`
and the loop. -/
def maxWorker (values : List Nat) (sizeofrange i : Nat) : Except Fault Nat :=
  scanMax values (min values.length ((i + 1) * sizeofrange) - i * sizeofrange) (i * sizeofrange) 0

/-- The workers with the given numbers, one after the other; returns their
results in this order. -/
def runWorkers (values : List Nat) (sizeofrange : Nat) : List Nat → Except Fault (List Nat)
  | [] => .ok []
  | i :: rest =>
    match maxWorker values sizeofrange i with
    | .error e => .error e
    | .ok r =>
      match runWorkers values sizeofrange rest with
      | .error e => .error e
      | .ok rs => .ok (r :: rs)

/-- The final loop `unsigned int result{0}; for(auto& val: results){ if(val > result){ result = val; } }`. -/
def reduceMax (results : List Nat) : Nat :=
  results.foldl (fun result val => if val > result then val else result) 0

/-- `unsigned int Max(const std::vector<unsigned int>& values)` of
`Vector_Map_Reduce.cpp`, with
`sizeofrange = (values.size() + (numberofworkers-1)) / numberofworkers`. -/
def VectorMapReduce.Max (values : List Nat) (numberofworkers : Nat) : Except Fault Nat :=
  match runWorkers values ((values.length + (numberofworkers - 1)) / numberofworkers)
      (List.range numberofworkers) with
  | .error e => .error e
  | .ok results => .ok (reduceMax results)

/-- `unsigned int Max(const std::vector<unsigned int>& values)` of `hw0.cpp`, with
`int range = std::ceil(vec_size/threads_num);`, where `vec_size/threads_num` is a
division of `int`s, so that `std::ceil` gets a whole number and returns it. -/
def Hw0.Max (values : List Nat) (threads_num : Nat) : Except Fault Nat :=
  match runWorkers values (values.length / threads_num) (List.range threads_num) with
  | .error e => .error e
  | .ok results => .ok (reduceMax results)

/-! ### Which accesses are made under the mutex

The member functions of `Queue` as the sequences of their actions on the mutex
`m`, the deque `dq_`, the flag `closed` and the condition variable. -/

/-- An action of a `Queue` member function. -/
inductive Action where
  /-- Locking `m` (constructor of `lock_guard` or `unique_lock`). -/
  | lock
  /-- Unlocking `m` (destructor of the lock object). -/
  | unlock
  /-- `cv.wait` releasing `m` and blocking. -/
  | waitBlock
  /-- `cv.wait` locking `m` again after a wakeup. -/
  | waitWake
  /-- Reading `dq_` (`empty()`, `front()`). -/
  | readDq
  /-- Writing `dq_` (`push_back`, `pop_front`). -/
  | writeDq
  /-- `closed.load()`. -/
  | readClosed
  /-- `closed.store(true)`. -/
  | writeClosed
  /-- `cv.notify_one()`. -/
  | notifyOne
  /-- `cv.notify_all()`. -/
  | notifyAll
deriving DecidableEq, Repr

/-- Whether every access to `dq_` and to `closed` in the sequence is made while
the thread holds `m`; the first argument says whether it holds `m` at the start. -/
def guarded : Bool → List Action → Bool
  | _, [] => true
  | _, .lock :: rest => guarded true rest
  | _, .unlock :: rest => guarded false rest
  | _, .waitBlock :: rest => guarded false rest
  | _, .waitWake :: rest => guarded true rest
  | held, .readDq :: rest => held && guarded held rest
  | held, .writeDq :: rest => held && guarded held rest
  | held, .readClosed :: rest => held && guarded held rest
  | held, .writeClosed :: rest => held && guarded held rest
  | held, .notifyOne :: rest => guarded held rest
  | held, .notifyAll :: rest => guarded held rest

/-- `Enqueue` of `Quick_Sort_with_Simple_Thread_Pool.cpp` and `Simple_Thread_Pool.cpp`:
`{ std::lock_guard<std::mutex> lk(m); dq_.push_back(val); } cv.notify_one();`. -/
def EnqueueActions : List Action :=
  [.lock, .writeDq, .unlock, .notifyOne]

/-- `Enqueue` of the course notes:
`std::lock_guard lk(m_); d_.push_back(value); cond_.notify_one();`. -/
def notesEnqueueActions : List Action :=
  [.lock, .writeDq, .notifyOne, .unlock]

/-- `Close`: `closed.store(true); cv.notify_all();`. -/
def CloseActions : List Action :=
  [.writeClosed, .notifyAll]

/-- The rounds of `cv.wait(uk, pred)` in which the predicate
`!dq_.empty() || closed.load()` is false: both operands are read, then the
thread blocks and is woken. -/
def waitRounds : Nat → List Action
  | 0 => []
  | n + 1 => [.readDq, .readClosed, .waitBlock, .waitWake] ++ waitRounds n

/-- `WaitandDequeue` with `waits` rounds of waiting.  With `found` the deque is
not empty at the last test of the predicate (`closed` is not read) and the call
runs `dq_.empty()`, `dq_.front()`, `dq_.pop_front()`; without, the deque is empty
and `closed` is true, and the call runs `dq_.empty()` and returns. -/
def WaitandDequeueActions (waits : Nat) (found : Bool) : List Action :=
  [.lock] ++ waitRounds waits
    ++ (if found then [.readDq, .readDq, .readDq, .writeDq] else [.readDq, .readClosed, .readDq])
    ++ [.unlock]

/-! ### Ranges in the interleaved execution -/

/-- The ranges the in-flight `quick_sort` call of a worker still has to work on. -/
def Worker.stack : Worker → List (Nat × Nat)
  | .sorting _ stack => stack
  | .enqueued _ stack => stack
  | _ => []

/-- Is `1` if the index `k` lies in the range `[r.1, r.2)`, and `0` if not. -/
def holds (k : Nat) (r : Nat × Nat) : Int :=
  if r.1 ≤ k ∧ k < r.2 then 1 else 0

/-- The number of ranges of the worker's in-flight call that contain `k`. -/
def Worker.claims (k : Nat) (w : Worker) : Int :=
  (w.stack.map (holds k)).sum

/-- The number of ranges that contain the index `k`, among the ranges of the
queued jobs and the ranges the in-flight calls still have to work on. -/
def System.cover (s : System) (k : Nat) : Int :=
  (s.Jobs.dq_.map fun job => holds k (job.«from», job.«to»)).sum
    + (s.workers.map (Worker.claims k)).sum

/-- Both indices lie in the range of one queued job or in one range that an
in-flight call still has to work on. -/
def System.Pending (s : System) (i j : Nat) : Prop :=
  (∃ job ∈ s.Jobs.dq_, job.«from» ≤ i ∧ j < job.«to»)
    ∨ ∃ w ∈ s.workers, ∃ r ∈ w.stack, r.1 ≤ i ∧ j < r.2

/-- The invariant of the interleaved execution on the vector `vec`: the vector
is a rearrangement of `vec`, no index lies in two ranges, all ranges are inside
the vector, and the vector is in order except inside the ranges. -/
def System.Inv (vec : List Int) (s : System) : Prop :=
  s.arr.length = vec.length ∧ s.arr.Perm vec
    ∧ (∀ k, s.cover k ≤ 1)
    ∧ (∀ job ∈ s.Jobs.dq_, job.«from» ≤ job.«to» ∧ job.«to» ≤ vec.length)
    ∧ (∀ w ∈ s.workers, ∀ r ∈ w.stack, r.1 ≤ r.2 ∧ r.2 ≤ vec.length)
    ∧ ∀ i j, i < j → j < vec.length → s.arr.getD i 0 ≤ s.arr.getD j 0 ∨ s.Pending i j

/-- One turn of a thread in an execution in which `main` may call `Close` at any
point, whatever the value of `ct`. -/
def System.stepEarly (s : System) : Thread → Option System
  | .main => if s.Jobs.closed then none else some { s with Jobs := s.Jobs.Close }
  | .worker i => s.stepWorker i

/-- The state after the turns of the schedule when `Close` may come at any point. -/
def System.runEarly : System → List Thread → Option System
  | s, [] => some s
  | s, t :: schedule =>
    match s.stepEarly t with
    | none => none
    | some s' => System.runEarly s' schedule

/-- An input on which the first partition pass of the seed job leaves the pivot
at index `11`, so that `quick_sort` hands the range `[0, 11)` over. -/
def handoverInput : List Int :=
  [12, 1, 2, 3, 4, 5, 6, 7, 8, 9, 10, 11, 14, 13]

/-- The state of two workers on `handoverInput` after worker `0` has dequeued the
seed job and has run the partition pass and the `Enqueue` that follows it. -/
def handoverState : System :=
  { arr := [11, 1, 2, 3, 4, 5, 6, 7, 8, 9, 10, 12, 14, 13],
    Jobs := { dq_ := [⟨0, 11⟩], closed := false }, ct := 1,
    workers := [.enqueued ⟨0, 14⟩ [(12, 14)], .waiting default] }

/-! ### Exceptions in the worker thread

`Jobs.Enqueue` can end by an exception: `std::lock_guard<std::mutex> lk(m)` throws
`std::system_error` when `m` cannot be locked, and `dq_.push_back(val)` throws
`std::bad_alloc` when the deque cannot grow.  The destructor of `lk` releases `m`
and the deque is as before.  Neither `quick_sort` nor the lambda of the worker
thread has a `try` block, so the exception leaves `quick_sort`, passing the
`ct++` that follows the `Enqueue`, and leaves the lambda, passing its `ct--`;
an exception that leaves the function of a `std::thread` ends the program in
`std::terminate`.  The comparison, the swap and the operations on the atomic
`ct` do not throw for `int`. -/

/-- How a call ends: by returning, or by an exception that leaves it. -/
inductive Ending where
  | returned
  | threw
deriving DecidableEq, Repr

/-- `Jobs.Enqueue(job)` when it can throw: `grants s` says whether the lock and
the allocation of `push_back` succeed in the state `s`.  When they do not, the
state is as before the call. -/
def Shared.enqueueOrThrow (grants : Shared → Bool) (s : Shared) (job : Event) :
    Shared × Ending :=
  if grants s then (s.enqueue job, .returned) else (s, .threw)

/-- `quick_sort(arr, start, end, Jobs, ct)` with the exceptions of `Jobs.Enqueue`:
an exception leaves the loop at once, and leaves every call around it. -/
def quick_sort_unwinding (grants : Shared → Bool) :
    Nat → Shared → Nat → Nat → Except Fault (Shared × Ending)
  | 0, _, _, _ => .error .outOfFuel
  | fuel + 1, s, start, end_ =>
    if start = end_ then .ok (s, .returned)
    else
      match partitionPass s.arr start end_ with
      | .error e => .error e
      | .ok (arr, mid) =>
        if mid - start > 10 then
          match Shared.enqueueOrThrow grants { s with arr := arr } ⟨start, mid⟩ with
          | (s1, .threw) => .ok (s1, .threw)
          | (s1, .returned) => quick_sort_unwinding grants fuel s1.increment (mid + 1) end_
        else
          match quick_sort_unwinding grants fuel { s with arr := arr } start mid with
          | .error e => .error e
          | .ok (s1, .threw) => .ok (s1, .threw)
          | .ok (s1, .returned) => quick_sort_unwinding grants fuel s1 (mid + 1) end_

/-- One iteration of the worker loop
`while(Jobs.WaitandDequeue(event)){ quick_sort(vec, event.from, event.to, Jobs, ct); ct--; }`
with the exceptions of `Jobs.Enqueue`.  `none`: the loop does not iterate.
With `threw` the exception has left `quick_sort` and the lambda without running
`ct--`, and the thread does nothing more. -/
def workerIteration_unwinding (grants : Shared → Bool) (s : Shared) (event : Event) :
    Except Fault (Option (Shared × Event × Ending)) :=
  match s.Jobs.WaitandDequeue event with
  | none => .ok none
  | some (false, _, _) => .ok none
  | some (true, job, rest) =>
    match quick_sort_unwinding grants (job.«to» - job.«from» + 1)
        { s with Jobs := rest, log := s.log ++ [.dequeue job] } job.«from» job.«to» with
    | .error e => .error e
    | .ok (s1, .threw) => .ok (some (s1, job, .threw))
    | .ok (s1, .returned) => .ok (some (s1.decrement, job, .returned))

/-! ## Theorems -/

/-! ### The queue -/

theorem foldl_Enqueue {T : Type} (xs : List T) (q : Queue T) :
    xs.foldl Queue.Enqueue q = { q with dq_ := q.dq_ ++ xs } := by
  induction xs generalizing q with
  | nil => simp
  | cons x xs ih => simp [ih, Queue.Enqueue]

theorem WaitandDequeue_cons {T : Type} (x : T) (xs : List T) (c : Bool) (value : T) :
    Queue.WaitandDequeue { dq_ := x :: xs, closed := c } value
      = some (true, x, { dq_ := xs, closed := c }) := by
  simp [Queue.WaitandDequeue, Queue.waitPredicate]

theorem WaitandDequeue_closed_nil {T : Type} (value : T) :
    Queue.WaitandDequeue { dq_ := [], closed := true } value
      = some (false, value, { dq_ := [], closed := true }) := by
  simp [Queue.WaitandDequeue, Queue.waitPredicate]

theorem WaitandDequeue_open_nil {T : Type} (value : T) :
    Queue.WaitandDequeue ({ dq_ := [], closed := false } : Queue T) value = none := by
  simp [Queue.WaitandDequeue, Queue.waitPredicate]

theorem dequeueMany_append {T : Type} (xs ys : List T) (c : Bool) (value : T) :
    dequeueMany xs.length { dq_ := xs ++ ys, closed := c } value
      = some (xs.map fun x => (true, x), { dq_ := ys, closed := c }) := by
  induction xs generalizing value with
  | nil => simp [dequeueMany]
  | cons x xs ih => simp [dequeueMany, WaitandDequeue_cons, ih]

theorem dequeueMany_closed_nil {T : Type} (n : Nat) (value : T) :
    dequeueMany n { dq_ := [], closed := true } value
      = some (List.replicate n (false, value), { dq_ := [], closed := true }) := by
  induction n with
  | zero => simp [dequeueMany]
  | succ n ih => simp [dequeueMany, WaitandDequeue_closed_nil, ih, List.replicate_succ]

theorem dequeueMany_add {T : Type} (m n : Nat) (q q' : Queue T) (value : T) (rs : List (Bool × T))
    (h : dequeueMany m q value = some (rs, q')) :
    dequeueMany (m + n) q value
      = (dequeueMany n q' ((rs.getLast?.map Prod.snd).getD value)).map
          fun p => (rs ++ p.1, p.2) := by
  induction m generalizing q value rs with
  | zero =>
    simp [dequeueMany] at h
    obtain ⟨rfl, rfl⟩ := h
    cases hn : dequeueMany n q value <;> simp [hn]
  | succ m ih =>
    rw [Nat.add_right_comm]
    simp only [dequeueMany] at h ⊢
    cases hq : q.WaitandDequeue value with
    | none => simp [hq] at h
    | some t =>
      obtain ⟨r, value', q1⟩ := t
      simp only [hq] at h ⊢
      cases hm : dequeueMany m q1 value' with
      | none => simp [hm] at h
      | some u =>
        obtain ⟨rs1, q2⟩ := u
        simp only [hm, Option.some.injEq, Prod.mk.injEq] at h
        obtain ⟨rfl, rfl⟩ := h
        rw [ih q1 value' rs1 hm]
        have hlast : (((r, value') :: rs1).getLast?.map Prod.snd).getD value
            = ((rs1.getLast?.map Prod.snd).getD value') := by
          cases rs1 with
          | nil => simp
          | cons a l =>
            rw [List.getLast?_cons_cons, List.getLast?_eq_getLast _ (List.cons_ne_nil a l)]
            simp
        rw [hlast]
        cases dequeueMany n q2 ((rs1.getLast?.map Prod.snd).getD value') <;> simp

/-- C1. The queue is first-in first-out: starting from the empty open queue,
enqueueing the elements of `xs` in order and then calling `WaitandDequeue`
`|xs|` times returns `true` every time, delivers the elements of `xs` in
insertion order, and leaves the queue empty. -/
theorem queue_fifo {T : Type} (xs : List T) (value : T) :
    dequeueMany xs.length (xs.foldl Queue.Enqueue Queue.empty) value
      = some (xs.map fun x => (true, x), Queue.empty) := by
  have h := dequeueMany_append xs [] false value
  simpa [foldl_Enqueue, Queue.empty] using h

/-- C2. Drain guarantee: when `Close` is called on a queue holding the items
`xs`, the next `|xs|` calls of `WaitandDequeue` return `true` and deliver `xs`
in order, and the call after them is the first to return `false` (it leaves the
out-parameter as it was).  Instance: the four jobs of `Simple_Thread_Pool`. -/
theorem close_drains {T : Type} (q : Queue T) (value : T) :
    dequeueMany (q.dq_.length + 1) q.Close value
        = some ((q.dq_.map fun x => (true, x)) ++ [(false, q.dq_.getLastD value)],
            { dq_ := [], closed := true })
    ∧ dequeueMany 5
          ((((Queue.empty.Enqueue (⟨10, 20⟩ : Event)).Enqueue ⟨20, 30⟩).Enqueue ⟨30, 40⟩).Enqueue
            ⟨40, 50⟩).Close ⟨0, 0⟩
        = some ([(true, ⟨10, 20⟩), (true, ⟨20, 30⟩), (true, ⟨30, 40⟩), (true, ⟨40, 50⟩),
            (false, ⟨40, 50⟩)], { dq_ := [], closed := true }) := by
  refine ⟨?_, by decide⟩
  have h := dequeueMany_append q.dq_ [] true value
  simp only [List.append_nil] at h
  have h2 := dequeueMany_add q.dq_.length 1 q.Close _ value _ h
  rw [h2]
  simp [dequeueMany, WaitandDequeue_closed_nil]

/-- C3. On a closed and empty queue `WaitandDequeue` returns `false` without
waiting and leaves the queue and the out-parameter unchanged, so every later
call returns `false` as well. -/
theorem closed_empty_returns_false {T : Type} (q : Queue T) (value : T)
    (hclosed : q.closed = true) (hempty : q.dq_ = []) :
    q.WaitandDequeue value = some (false, value, q)
    ∧ ∀ n, dequeueMany n q value = some (List.replicate n (false, value), q) := by
  obtain ⟨dq, c⟩ := q
  simp only at hclosed hempty
  subst hclosed hempty
  exact ⟨WaitandDequeue_closed_nil value, fun n => dequeueMany_closed_nil n value⟩

theorem closed_empty_returns_false_witness :
    (({ dq_ := [], closed := true } : Queue Nat).WaitandDequeue 7
        = some (false, 7, { dq_ := [], closed := true }))
    ∧ ∀ n, dequeueMany n ({ dq_ := [], closed := true } : Queue Nat) 7
        = some (List.replicate n (false, 7), { dq_ := [], closed := true }) :=
  closed_empty_returns_false { dq_ := [], closed := true } 7 rfl rfl

theorem History.apply_delivered {T : Type} (h : History T) (op : QueueOp T)
    (hinv : h.delivered ++ h.q.dq_ = h.enqueued) :
    (h.apply op).delivered ++ (h.apply op).q.dq_ = (h.apply op).enqueued := by
  obtain ⟨⟨dq, c⟩, enq, del, value⟩ := h
  simp only at hinv
  cases op with
  | enqueue val => simp [History.apply, Queue.Enqueue, ← hinv]
  | close => simpa [History.apply, Queue.Close] using hinv
  | dequeue =>
    cases dq with
    | nil =>
      cases c
      · simpa [History.apply, WaitandDequeue_open_nil] using hinv
      · simpa [History.apply, WaitandDequeue_closed_nil] using hinv
    | cons x xs => simpa [History.apply, WaitandDequeue_cons] using hinv

theorem History.foldl_delivered {T : Type} (ops : List (QueueOp T)) (h : History T)
    (hinv : h.delivered ++ h.q.dq_ = h.enqueued) :
    (ops.foldl History.apply h).delivered ++ (ops.foldl History.apply h).q.dq_
      = (ops.foldl History.apply h).enqueued := by
  induction ops generalizing h with
  | nil => simpa using hinv
  | cons op ops ih => exact ih _ (History.apply_delivered h op hinv)

/-- C4. Exactly-once delivery: after every finite sequence of `Enqueue`,
`WaitandDequeue` and `Close` operations from the empty queue, the items
returned by the successful dequeues followed by the items still queued are the
enqueued items in enqueue order; so the delivered items are an initial segment
of the enqueued ones, none twice and none lost. -/
theorem exactly_once_delivery {T : Type} (ops : List (QueueOp T)) (value : T) :
    (History.run ops value).delivered ++ (History.run ops value).q.dq_
        = (History.run ops value).enqueued
    ∧ (History.run ops value).delivered <+: (History.run ops value).enqueued
    ∧ (History.run ops value).delivered.length + (History.run ops value).q.dq_.length
        = (History.run ops value).enqueued.length := by
  have h : (History.run ops value).delivered ++ (History.run ops value).q.dq_
      = (History.run ops value).enqueued :=
    History.foldl_delivered ops _ (by simp [Queue.empty])
  refine ⟨h, ⟨_, h⟩, ?_⟩
  rw [← h, List.length_append]

/-! ### Reading and swapping -/

theorem getD_eq_getElem (l : List Int) (i : Nat) (hi : i < l.length) : l.getD i 0 = l[i] := by
  simp [List.getD_eq_getElem?_getD, List.getElem?_eq_getElem hi]

theorem readAt_ok (arr : List Int) (k : Nat) (hk : k < arr.length) :
    readAt arr k = .ok (arr.getD k 0) := by
  simp [readAt, List.getElem?_eq_getElem hk, getD_eq_getElem arr k hk]

theorem swapAt_ok (arr : List Int) (i j : Nat) (hi : i < arr.length) (hj : j < arr.length) :
    swapAt arr i j = .ok ((arr.set i (arr.getD j 0)).set j (arr.getD i 0)) := by
  simp [swapAt, List.getElem?_eq_getElem hi, List.getElem?_eq_getElem hj,
    getD_eq_getElem arr i hi, getD_eq_getElem arr j hj]

theorem getD_set (l : List Int) (i k : Nat) (a : Int) (hi : i < l.length) :
    (l.set i a).getD k 0 = if i = k then a else l.getD k 0 := by
  simp only [List.getD_eq_getElem?_getD, List.getElem?_set, hi, if_true]
  split <;> simp

theorem getD_swap (l : List Int) (i j k : Nat) (hi : i < l.length) (hj : j < l.length) :
    ((l.set i (l.getD j 0)).set j (l.getD i 0)).getD k 0
      = if j = k then l.getD i 0 else if i = k then l.getD j 0 else l.getD k 0 := by
  rw [getD_set _ j k _ (by simpa using hj), getD_set l i k _ hi]

theorem set_set_perm (l : List Int) (i j : Nat) (hi : i < l.length) (hj : j < l.length) :
    ((l.set i (l.getD j 0)).set j (l.getD i 0)).Perm l := by
  rw [List.perm_iff_count]
  intro b
  rw [getD_eq_getElem l i hi, getD_eq_getElem l j hj]
  by_cases hij : i = j
  · subst hij
    have hself : (l.set i l[i]).set i l[i] = l := by
      apply List.ext_getElem?
      intro k
      by_cases hk : i = k
      · subst hk
        simp [List.getElem?_set, hi, List.getElem?_eq_getElem hi]
      · simp [List.getElem?_set, hk]
    rw [hself]
  · have h1 := List.count_set l[i] b (l.set i l[j]) j (by simpa using hj)
    have h2 := List.count_set l[j] b l i hi
    rw [List.getElem_set_ne hij] at h1
    rw [h1, h2]
    have hc : (l[i] == b) = true → 0 < l.count b := by
      intro h
      have : l[i] = b := by simpa using h
      rw [List.count_pos_iff]
      exact this ▸ List.getElem_mem hi
    split_ifs at * <;> simp_all

/-! ### Rearrangements -/

theorem Rearranged.refl (arr : List Int) (lo hi : Nat) : Rearranged arr arr lo hi :=
  ⟨rfl, List.Perm.refl _, fun _ _ => rfl, fun k h1 h2 => ⟨k, h1, h2, rfl⟩⟩

theorem Rearranged.trans {a b c : List Int} {lo hi : Nat} (h1 : Rearranged a b lo hi)
    (h2 : Rearranged b c lo hi) : Rearranged a c lo hi := by
  obtain ⟨l1, p1, o1, i1⟩ := h1
  obtain ⟨l2, p2, o2, i2⟩ := h2
  refine ⟨l2.trans l1, p2.trans p1, fun k hk => (o2 k hk).trans (o1 k hk), ?_⟩
  intro k hlo hhi
  obtain ⟨k1, a1, b1, e1⟩ := i2 k hlo hhi
  obtain ⟨k2, a2, b2, e2⟩ := i1 k1 a1 b1
  exact ⟨k2, a2, b2, e1.trans e2⟩

theorem Rearranged.mono {a b : List Int} {lo hi lo' hi' : Nat} (h : Rearranged a b lo hi)
    (hlo : lo' ≤ lo) (hhi : hi ≤ hi') : Rearranged a b lo' hi' := by
  obtain ⟨l1, p1, o1, i1⟩ := h
  refine ⟨l1, p1, fun k hk => o1 k (by omega), ?_⟩
  intro k h1 h2
  by_cases hin : lo ≤ k ∧ k < hi
  · obtain ⟨k', a1, b1, e1⟩ := i1 k hin.1 hin.2
    exact ⟨k', by omega, by omega, e1⟩
  · exact ⟨k, h1, h2, o1 k (by omega)⟩

theorem Rearranged.swap (arr : List Int) (i j lo hi : Nat) (hi1 : lo ≤ i) (hi2 : i < hi)
    (hj1 : lo ≤ j) (hj2 : j < hi) (hlen : hi ≤ arr.length) :
    Rearranged arr ((arr.set i (arr.getD j 0)).set j (arr.getD i 0)) lo hi := by
  have hil : i < arr.length := by omega
  have hjl : j < arr.length := by omega
  refine ⟨by simp, set_set_perm arr i j hil hjl, ?_, ?_⟩
  · intro k hk
    rw [getD_swap arr i j k hil hjl, if_neg (by omega), if_neg (by omega)]
  · intro k h1 h2
    rw [getD_swap arr i j k hil hjl]
    by_cases hjk : j = k
    · exact ⟨i, hi1, hi2, by simp [hjk]⟩
    · by_cases hik : i = k
      · exact ⟨j, hj1, hj2, by simp [hjk, hik]⟩
      · exact ⟨k, h1, h2, by simp [hjk, hik]⟩

theorem Rearranged.forall_in {a b : List Int} {lo hi : Nat} (h : Rearranged a b lo hi)
    (P : Int → Prop) (hP : ∀ k, lo ≤ k → k < hi → P (a.getD k 0)) :
    ∀ k, lo ≤ k → k < hi → P (b.getD k 0) := by
  intro k h1 h2
  obtain ⟨k', a1, b1, e1⟩ := h.2.2.2 k h1 h2
  rw [e1]
  exact hP k' a1 b1

/-! ### One pass: classification and substitution -/

theorem classify_spec (start end_ n : Nat) : ∀ (j i : Nat) (arr : List Int),
    start < i → i ≤ j → j + n = end_ → end_ ≤ arr.length →
    (∀ k, start < k → k < i → arr.getD k 0 < arr.getD start 0) →
    (∀ k, i ≤ k → k < j → arr.getD start 0 ≤ arr.getD k 0) →
    ∃ arr' i', classify start n j i arr = .ok (arr', i') ∧ i ≤ i' ∧ i' ≤ end_
      ∧ Rearranged arr arr' (start + 1) end_
      ∧ (∀ k, start < k → k < i' → arr'.getD k 0 < arr'.getD start 0)
      ∧ (∀ k, i' ≤ k → k < end_ → arr'.getD start 0 ≤ arr'.getD k 0) := by
  induction n with
  | zero =>
    intro j i arr hsi hij hn hend hlt hge
    refine ⟨arr, i, rfl, le_refl _, by omega, Rearranged.refl _ _ _, hlt, ?_⟩
    intro k h1 h2
    exact hge k h1 (by omega)
  | succ n ih =>
    intro j i arr hsi hij hn hend hlt hge
    have hjl : j < arr.length := by omega
    have hil : i < arr.length := by omega
    have hsl : start < arr.length := by omega
    simp only [classify, readAt_ok arr j hjl, readAt_ok arr start hsl]
    by_cases hcmp : arr.getD j 0 < arr.getD start 0
    · simp only [hcmp, if_true, swapAt_ok arr i j hil hjl]
      have hsw := getD_swap arr i j
      have hpv : ((arr.set i (arr.getD j 0)).set j (arr.getD i 0)).getD start 0
          = arr.getD start 0 := by
        rw [hsw start hil hjl, if_neg (by omega), if_neg (by omega)]
      have hre := Rearranged.swap arr i j (start + 1) end_ (by omega) (by omega) (by omega)
        (by omega) hend
      obtain ⟨arr', i', hrun, h1, h2, h3, h4, h5⟩ :=
        ih (j + 1) (i + 1) ((arr.set i (arr.getD j 0)).set j (arr.getD i 0))
          (by omega) (by omega) (by omega) (by simpa using hend)
          (by
            intro k hk1 hk2
            rw [hpv, hsw k hil hjl]
            by_cases hjk : j = k
            · rw [if_pos hjk]
              have : i = j := by omega
              rw [this]; exact hcmp
            · rw [if_neg hjk]
              by_cases hik : i = k
              · rw [if_pos hik]; exact hcmp
              · rw [if_neg hik]; exact hlt k hk1 (by omega))
          (by
            intro k hk1 hk2
            rw [hpv, hsw k hil hjl]
            by_cases hjk : j = k
            · rw [if_pos hjk]
              exact hge i (le_refl _) (by omega)
            · rw [if_neg hjk, if_neg (by omega)]
              exact hge k (by omega) (by omega))
      exact ⟨arr', i', hrun, by omega, h2, hre.trans h3, h4, h5⟩
    · simp only [hcmp, if_false]
      obtain ⟨arr', i', hrun, h1, h2, h3, h4, h5⟩ :=
        ih (j + 1) i arr hsi (by omega) (by omega) hend hlt
          (by
            intro k hk1 hk2
            by_cases hjk : k = j
            · rw [hjk]; exact not_lt.mp hcmp
            · exact hge k hk1 (by omega))
      exact ⟨arr', i', hrun, h1, h2, h3, h4, h5⟩

theorem partitionPass_spec (arr : List Int) (start end_ : Nat) (hse : start < end_)
    (hend : end_ ≤ arr.length) :
    ∃ arr' mid, partitionPass arr start end_ = .ok (arr', mid) ∧ start ≤ mid ∧ mid < end_
      ∧ Rearranged arr arr' start end_
      ∧ arr'.getD mid 0 = arr.getD start 0
      ∧ (∀ k, start ≤ k → k < mid → arr'.getD k 0 < arr'.getD mid 0)
      ∧ (∀ k, mid < k → k < end_ → arr'.getD mid 0 ≤ arr'.getD k 0) := by
  obtain ⟨arr1, i, hrun, h1, h2, h3, h4, h5⟩ :=
    classify_spec start end_ (end_ - (start + 1)) (start + 1) (start + 1) arr (by omega)
      (le_refl _) (by omega) hend (by intro k _ _; omega) (by intro k _ _; omega)
  have hlen : arr1.length = arr.length := h3.1
  have hml : i - 1 < arr1.length := by omega
  have hsl : start < arr1.length := by omega
  have hsw := getD_swap arr1 (i - 1) start
  have hpivot : arr1.getD start 0 = arr.getD start 0 := h3.2.2.1 start (by omega)
  refine ⟨(arr1.set (i - 1) (arr1.getD start 0)).set start (arr1.getD (i - 1) 0), i - 1, ?_,
    by omega, by omega, ?_, ?_, ?_, ?_⟩
  · simp [partitionPass, hrun, swapAt_ok arr1 (i - 1) start hml hsl]
  · exact (h3.mono (by omega) (le_refl _)).trans
      (Rearranged.swap arr1 (i - 1) start start end_ (by omega) (by omega) (le_refl _) hse
        (by omega))
  · rw [hsw _ hml hsl, ← hpivot]
    by_cases hs : start = i - 1
    · rw [if_pos hs, ← hs]
    · rw [if_neg hs, if_pos rfl]
  · intro k hk1 hk2
    have hmid : ((arr1.set (i - 1) (arr1.getD start 0)).set start (arr1.getD (i - 1) 0)).getD
        (i - 1) 0 = arr1.getD start 0 := by
      rw [hsw _ hml hsl]
      by_cases hs : start = i - 1
      · rw [if_pos hs, ← hs]
      · rw [if_neg hs, if_pos rfl]
    rw [hmid, hsw _ hml hsl]
    by_cases hs : start = k
    · rw [if_pos hs]
      exact h4 (i - 1) (by omega) (by omega)
    · rw [if_neg hs, if_neg (by omega)]
      exact h4 k (by omega) (by omega)
  · intro k hk1 hk2
    have hmid : ((arr1.set (i - 1) (arr1.getD start 0)).set start (arr1.getD (i - 1) 0)).getD
        (i - 1) 0 = arr1.getD start 0 := by
      rw [hsw _ hml hsl]
      by_cases hs : start = i - 1
      · rw [if_pos hs, ← hs]
      · rw [if_neg hs, if_pos rfl]
    rw [hmid, hsw _ hml hsl, if_neg (by omega), if_neg (by omega)]
    exact h5 k (by omega) hk2

/-! ### `quick_sort` -/

theorem handovers_append (a b : List Event) :
    handovers (a ++ b) = handovers a ++ handovers b := by
  induction a with
  | nil => rfl
  | cons job rest ih => simp [handovers, ih]

theorem workload_append (a b : List Event) : workload (a ++ b) = workload a + workload b := by
  simp [workload]

theorem Covered.append_left {jobs : List Event} {i j : Nat} (more : List Event)
    (h : Covered jobs i j) : Covered (jobs ++ more) i j := by
  obtain ⟨job, hmem, h1, h2⟩ := h
  exact ⟨job, List.mem_append_left _ hmem, h1, h2⟩

theorem Covered.append_right {jobs : List Event} {i j : Nat} (more : List Event)
    (h : Covered jobs i j) : Covered (more ++ jobs) i j := by
  obtain ⟨job, hmem, h1, h2⟩ := h
  exact ⟨job, List.mem_append_right _ hmem, h1, h2⟩

theorem SortedUpTo.sorted_join (arr1 arr2 arr3 : List Int) (start mid end_ : Nat)
    (new1 new2 : List Event)
    (hlow : ∀ k, start ≤ k → k < mid → arr1.getD k 0 < arr1.getD mid 0)
    (hhigh : ∀ k, mid < k → k < end_ → arr1.getD mid 0 ≤ arr1.getD k 0)
    (hre1 : Rearranged arr1 arr2 start mid)
    (hre2 : Rearranged arr2 arr3 (mid + 1) end_)
    (hs1 : SortedUpTo arr2 new1 start mid)
    (hs2 : SortedUpTo arr3 new2 (mid + 1) end_) :
    SortedUpTo arr3 (new1 ++ new2) start end_ := by
  have hA2 : ∀ k, start ≤ k → k < mid → arr2.getD k 0 < arr1.getD mid 0 :=
    hre1.forall_in (fun v => v < arr1.getD mid 0) hlow
  have h32 : ∀ k, k < mid + 1 → arr3.getD k 0 = arr2.getD k 0 :=
    fun k hk => hre2.2.2.1 k (Or.inl hk)
  have h21 : ∀ k, mid ≤ k → arr2.getD k 0 = arr1.getD k 0 :=
    fun k hk => hre1.2.2.1 k (Or.inr hk)
  have hB : arr3.getD mid 0 = arr1.getD mid 0 := by
    rw [h32 mid (by omega), h21 mid (le_refl _)]
  have hC : ∀ k, mid + 1 ≤ k → k < end_ → arr1.getD mid 0 ≤ arr3.getD k 0 :=
    hre2.forall_in (fun v => arr1.getD mid 0 ≤ v) (by
      intro k hk1 hk2
      show arr1.getD mid 0 ≤ arr2.getD k 0
      rw [h21 k (by omega)]
      exact hhigh k (by omega) hk2)
  intro i j hi hij hj
  by_cases hjm : j < mid
  · rcases hs1 i j hi hij hjm with h | h
    · left
      rw [h32 i (by omega), h32 j (by omega)]
      exact h
    · exact Or.inr (h.append_left new2)
  · by_cases hje : j = mid
    · left
      subst hje
      rw [hB, h32 i (by omega)]
      exact le_of_lt (hA2 i hi hij)
    · by_cases him : i < mid
      · left
        rw [h32 i (by omega)]
        exact le_trans (le_of_lt (hA2 i hi him)) (hC j (by omega) hj)
      · by_cases hie : i = mid
        · left
          subst hie
          rw [hB]
          exact hC j (by omega) hj
        · rcases hs2 i j (by omega) hij hj with h | h
          · exact Or.inl h
          · exact Or.inr (h.append_right new1)

theorem JobsIn.jobs_join (start mid end_ : Nat) (new1 new2 : List Event) (hm1 : start ≤ mid)
    (hm2 : mid < end_) (h1 : JobsIn new1 start mid) (h2 : JobsIn new2 (mid + 1) end_) :
    JobsIn (new1 ++ new2) start end_ := by
  refine ⟨?_, ?_⟩
  · intro job hmem
    rcases List.mem_append.mp hmem with h | h
    · have := h1.1 job h
      omega
    · have := h2.1 job h
      omega
  · rw [List.pairwise_append]
    refine ⟨h1.2, h2.2, ?_⟩
    intro a ha b hb
    have := h1.1 a ha
    have := h2.1 b hb
    exact Or.inl (by omega)

theorem quick_sort_spec (fuel : Nat) : ∀ (s : Shared) (start end_ : Nat),
    start ≤ end_ → end_ ≤ s.arr.length → end_ - start < fuel →
    ∃ arr' new,
      quick_sort fuel s start end_
          = .ok { arr := arr', Jobs := { dq_ := s.Jobs.dq_ ++ new, closed := s.Jobs.closed },
                  ct := s.ct + new.length, log := s.log ++ handovers new }
        ∧ Rearranged s.arr arr' start end_
        ∧ JobsIn new start end_
        ∧ (∀ job ∈ new, job.«from» + 10 < job.«to»)
        ∧ workload new ≤ end_ - start
        ∧ SortedUpTo arr' new start end_ := by
  induction fuel with
  | zero => intro s start end_ _ _ h; omega
  | succ fuel ih =>
    intro s start end_ hse hend hfuel
    by_cases heq : start = end_
    · refine ⟨s.arr, [], ?_, Rearranged.refl _ _ _, ⟨by simp, by simp⟩, by simp, by simp [workload],
        ?_⟩
      · simp [quick_sort, heq, handovers]
      · intro i j h1 h2 h3
        omega
    · obtain ⟨arr1, mid, hpp, hm1, hm2, hre1, _, hlow, hhigh⟩ :=
        partitionPass_spec s.arr start end_ (by omega) hend
      have hlen1 : arr1.length = s.arr.length := hre1.1
      simp only [quick_sort, if_neg heq, hpp]
      by_cases hbig : mid - start > 10
      · rw [if_pos hbig]
        obtain ⟨arr3, new2, hrun, hre2, hj2, hb2, hw2, hs2⟩ :=
          ih (({ s with arr := arr1 }.enqueue ⟨start, mid⟩).increment) (mid + 1) end_ (by omega)
            (by simpa [Shared.enqueue, Shared.increment, hlen1] using hend) (by omega)
        have hre2' : Rearranged arr1 arr3 (mid + 1) end_ := hre2
        refine ⟨arr3, [⟨start, mid⟩] ++ new2, ?_, ?_, ?_, ?_, ?_, ?_⟩
        · rw [hrun]
          simp [Shared.enqueue, Shared.increment, Queue.Enqueue, handovers]
          ring
        · exact hre1.trans (hre2'.mono (by omega) (le_refl _))
        · exact JobsIn.jobs_join start mid end_ _ _ hm1 hm2
            ⟨by simp; omega, by simp⟩ hj2
        · intro job hmem
          rcases List.mem_append.mp hmem with h | h
          · simp at h
            subst h
            simp
            omega
          · exact hb2 job h
        · rw [workload_append]
          simp [workload] at hw2 ⊢
          omega
        · exact SortedUpTo.sorted_join arr1 arr1 arr3 start mid end_ _ _ hlow hhigh
            (Rearranged.refl _ _ _) hre2'
            (fun i j h1 _ h3 => Or.inr ⟨⟨start, mid⟩, by simp, h1, by simp; omega⟩) hs2
      · rw [if_neg hbig]
        obtain ⟨arr2, new1, hrun1, hre2, hj1, hb1, hw1, hs1⟩ :=
          ih { s with arr := arr1 } start mid hm1 (by simp [hlen1]; omega) (by omega)
        have hre2' : Rearranged arr1 arr2 start mid := hre2
        have hlen2 : arr2.length = s.arr.length := hre2'.1.trans hlen1
        simp only [hrun1]
        obtain ⟨arr3, new2, hrun2, hre3, hj2, hb2, hw2, hs2⟩ :=
          ih { arr := arr2, Jobs := { dq_ := s.Jobs.dq_ ++ new1, closed := s.Jobs.closed },
               ct := s.ct + new1.length, log := s.log ++ handovers new1 } (mid + 1) end_
            (by omega) (by simp [hlen2]; omega) (by omega)
        have hre3' : Rearranged arr2 arr3 (mid + 1) end_ := hre3
        refine ⟨arr3, new1 ++ new2, ?_, ?_, ?_, ?_, ?_, ?_⟩
        · rw [hrun2]
          simp [handovers_append]
          ring
        · exact hre1.trans ((hre2'.mono (le_refl _) (by omega)).trans
            (hre3'.mono (by omega) (le_refl _)))
        · exact JobsIn.jobs_join start mid end_ _ _ hm1 hm2 hj1 hj2
        · intro job hmem
          rcases List.mem_append.mp hmem with h | h
          · exact hb1 job h
          · exact hb2 job h
        · rw [workload_append]
          omega
        · exact SortedUpTo.sorted_join arr1 arr2 arr3 start mid end_ _ _ hlow hhigh hre2' hre3' hs1 hs2

/-! ### The worker loop run by one worker -/

theorem PoolInv.seed (vec : List Int) : PoolInv vec (seed vec) := by
  refine ⟨List.Perm.refl _, rfl, ⟨?_, ?_⟩, ?_, ?_, rfl⟩
  · intro job hmem
    simp [Pool.seed, Shared.enqueue, Shared.increment, Queue.Enqueue, Queue.empty] at hmem
    subst hmem
    simp
  · simp [Pool.seed, Shared.enqueue, Shared.increment, Queue.Enqueue, Queue.empty]
  · intro i j h1 h2 h3
    exact Or.inr ⟨⟨0, vec.length⟩,
      by simp [Pool.seed, Shared.enqueue, Shared.increment, Queue.Enqueue, Queue.empty], h1, h3⟩
  · simp [Pool.seed, Shared.enqueue, Shared.increment, Queue.Enqueue, Queue.empty]

theorem workerIteration_empty (vec : List Int) (s : Shared) (event : Event)
    (hinv : PoolInv vec s) (hempty : s.Jobs.dq_ = []) :
    workerIteration s event = .ok none := by
  obtain ⟨arr, ⟨dq, c⟩, ct, log⟩ := s
  obtain ⟨_, _, _, _, _, hopen⟩ := hinv
  simp only at hempty hopen
  subst hempty hopen
  simp [workerIteration, WaitandDequeue_open_nil]

theorem workerIteration_step (vec : List Int) (s : Shared) (event job : Event)
    (rest : List Event) (hinv : PoolInv vec s) (hq : s.Jobs.dq_ = job :: rest) :
    ∃ arr' new,
      workerIteration s event
          = .ok (some ({ arr := arr', Jobs := { dq_ := rest ++ new, closed := false },
                         ct := s.ct + new.length - 1,
                         log := s.log ++ [.dequeue job] ++ handovers new ++ [.decrement] }, job))
        ∧ PoolInv vec { arr := arr', Jobs := { dq_ := rest ++ new, closed := false },
                        ct := s.ct + new.length - 1,
                        log := s.log ++ [.dequeue job] ++ handovers new ++ [.decrement] }
        ∧ (∀ x ∈ new, x.«from» + 10 < x.«to»)
        ∧ workload (rest ++ new) < workload s.Jobs.dq_ := by
  obtain ⟨arr, ⟨dq, c⟩, ct, log⟩ := s
  obtain ⟨hperm, hlen, hjobs, hsorted, hct, hopen⟩ := hinv
  simp only at hq hopen hperm hlen hjobs hsorted hct
  subst hq hopen
  have hjob := hjobs.1 job (List.mem_cons_self _ _)
  have hpw := List.pairwise_cons.mp hjobs.2
  obtain ⟨arr', new, hrun, hre, hjn, hbig, hw, hs⟩ :=
    quick_sort_spec (job.«to» - job.«from» + 1)
      { arr := arr, Jobs := { dq_ := rest, closed := false }, ct := ct,
        log := log ++ [.dequeue job] } job.«from» job.«to» hjob.2.1 (by simp; omega) (by omega)
  simp only at hrun hre
  refine ⟨arr', new, ?_, ⟨hre.2.1.trans hperm, hre.1.trans hlen, ⟨?_, ?_⟩, ?_, ?_, rfl⟩, hbig, ?_⟩
  · simp [workerIteration, WaitandDequeue_cons, hrun, Shared.decrement]
  · intro x hx
    rcases List.mem_append.mp hx with h | h
    · exact hjobs.1 x (List.mem_cons_of_mem _ h)
    · have := hjn.1 x h
      omega
  · show (rest ++ new).Pairwise Apart
    rw [List.pairwise_append]
    refine ⟨hpw.2, hjn.2, ?_⟩
    intro r hr x hx
    have h1 := hjn.1 x hx
    rcases hpw.1 r hr with h | h
    · exact Or.inr (by omega)
    · exact Or.inl (by omega)
  · show SortedUpTo arr' (rest ++ new) 0 vec.length
    intro i j hi hij hj
    have hout : ∀ k, k < job.«from» ∨ job.«to» ≤ k → arr'.getD k 0 = arr.getD k 0 := hre.2.2.1
    have hin := hre.2.2.2
    have hold : ∀ i j, i < j → j < vec.length → ¬ (job.«from» ≤ i ∧ j < job.«to») →
        (∀ r ∈ rest, ¬ (r.«from» ≤ i ∧ j < r.«to»)) → arr.getD i 0 ≤ arr.getD j 0 := by
      intro i j h1 h2 h3 h4
      rcases hsorted i j (Nat.zero_le _) h1 h2 with h | ⟨r, hr, hc⟩
      · exact h
      · rcases List.mem_cons.mp hr with h | h
        · subst h; exact absurd hc h3
        · exact absurd hc (h4 r h)
    by_cases hcov : ∃ r ∈ rest, r.«from» ≤ i ∧ j < r.«to»
    · obtain ⟨r, hr, hc⟩ := hcov
      exact Or.inr ⟨r, List.mem_append_left _ hr, hc⟩
    · have hnc : ∀ r ∈ rest, ¬ (r.«from» ≤ i ∧ j < r.«to») := fun r hr hc => hcov ⟨r, hr, hc⟩
      by_cases hi_in : job.«from» ≤ i ∧ i < job.«to»
      · by_cases hj_in : j < job.«to»
        · rcases hs i j hi_in.1 hij hj_in with h | h
          · exact Or.inl h
          · exact Or.inr (h.append_right rest)
        · left
          obtain ⟨k, hk1, hk2, hk⟩ := hin i hi_in.1 hi_in.2
          rw [hk, hout j (by omega)]
          refine hold k j (by omega) hj (by omega) ?_
          intro r hr hc
          rcases hpw.1 r hr with h | h <;> omega
      · by_cases hj_in : job.«from» ≤ j ∧ j < job.«to»
        · left
          obtain ⟨k, hk1, hk2, hk⟩ := hin j hj_in.1 hj_in.2
          rw [hk, hout i (by omega)]
          refine hold i k (by omega) (by omega) (by omega) ?_
          intro r hr hc
          rcases hpw.1 r hr with h | h <;> omega
        · left
          rw [hout i (by omega), hout j (by omega)]
          exact hold i j hij hj (by omega) hnc
  · simp only at hct ⊢
    rw [hct]
    simp
    ring
  · rw [workload_append]
    simp [workload] at hw ⊢
    omega

theorem workerLoop_spec (vec : List Int) (fuel : Nat) : ∀ (s : Shared) (event : Event),
    PoolInv vec s → workload s.Jobs.dq_ < fuel →
    ∃ s', workerLoop fuel s event = .ok s' ∧ PoolInv vec s' ∧ s'.Jobs.dq_ = [] := by
  induction fuel with
  | zero => intro s event _ h; omega
  | succ fuel ih =>
    intro s event hinv hfuel
    cases hq : s.Jobs.dq_ with
    | nil =>
      exact ⟨s, by simp [workerLoop, workerIteration_empty vec s event hinv hq], hinv, hq⟩
    | cons job rest =>
      obtain ⟨arr', new, hrun, hinv', _, hw⟩ := workerIteration_step vec s event job rest hinv hq
      obtain ⟨s', hs', h1, h2⟩ := ih _ job hinv' (by simp only; omega)
      refine ⟨s', ?_, h1, h2⟩
      simp only [workerLoop, hrun]
      exact hs'

theorem sorted_of_SortedUpTo_nil (arr : List Int) (h : SortedUpTo arr [] 0 arr.length) :
    arr.Sorted (· ≤ ·) := by
  rw [List.Sorted, List.pairwise_iff_getElem]
  intro i j hi hj hij
  rcases h i j (Nat.zero_le _) hij hj with h | ⟨r, hr, _⟩
  · rwa [getD_eq_getElem arr i hi, getD_eq_getElem arr j hj] at h
  · simp at hr

theorem descending_eq_reverse (num : Nat) : descending num = (ascending num).reverse := by
  apply List.ext_getElem
  · simp [descending, ascending]
  · intro i h1 h2
    have hi : i < num := by simpa [descending] using h1
    simp only [descending, ascending, List.getElem_reverse, List.getElem_map, List.getElem_range,
      List.length_map, List.length_range]
    omega

theorem ascending_sorted (num : Nat) : (ascending num).Sorted (· ≤ ·) := by
  rw [List.Sorted, List.pairwise_iff_getElem]
  intro i j hi hj hij
  simp only [ascending, List.getElem_map, List.getElem_range]
  omega

/-- C5. End-to-end sort: for every vector `vec`, the worker loop started on the
seed job `{0, vec.size()}` runs until the queue is empty (within
`vec.size() + 2` passes of the loop head), and then the vector is in ascending
order and a permutation of `vec`.  Instance: on the vector `1000, 999, ..., 1`
of `main` the run ends with the vector `1, 2, ..., 1000`. -/
theorem pool_sorts (vec : List Int) (event : Event) :
    (∃ s, workerLoop (vec.length + 2) (seed vec) event = .ok s
      ∧ s.Jobs.dq_ = [] ∧ s.arr.Sorted (· ≤ ·) ∧ s.arr.Perm vec)
    ∧ ∃ s, workerLoop 1002 (seed (descending 1000)) event = .ok s
      ∧ s.Jobs.dq_ = [] ∧ s.arr = ascending 1000 := by
  have hgen : ∀ v : List Int, ∃ s, workerLoop (v.length + 2) (seed v) event = .ok s
      ∧ s.Jobs.dq_ = [] ∧ s.arr.Sorted (· ≤ ·) ∧ s.arr.Perm v := by
    intro v
    obtain ⟨s, hrun, hinv, hempty⟩ :=
      workerLoop_spec v (v.length + 2) (seed v) event (PoolInv.seed v)
        (by simp [Pool.seed, Shared.enqueue, Shared.increment, Queue.Enqueue, Queue.empty,
          workload])
    obtain ⟨hperm, hlen, _, hsorted, _, _⟩ := hinv
    rw [hempty, ← hlen] at hsorted
    exact ⟨s, hrun, hempty, sorted_of_SortedUpTo_nil s.arr hsorted, hperm⟩
  refine ⟨hgen vec, ?_⟩
  obtain ⟨s, hrun, hempty, hsorted, hperm⟩ := hgen (descending 1000)
  have hlen : (descending 1000).length + 2 = 1002 := by simp [descending]
  rw [hlen] at hrun
  refine ⟨s, hrun, hempty, ?_⟩
  rw [descending_eq_reverse] at hperm
  exact List.eq_of_perm_of_sorted (hperm.trans (List.reverse_perm _)) hsorted
    (ascending_sorted 1000)

theorem workerIterations_inv (vec : List Int) (k : Nat) : ∀ (s s' : Shared) (event ev' : Event),
    PoolInv vec s → workerIterations k s event = .ok (some (s', ev')) → PoolInv vec s' := by
  induction k with
  | zero =>
    intro s s' event ev' hinv hrun
    simp [workerIterations] at hrun
    rw [← hrun.1]
    exact hinv
  | succ k ih =>
    intro s s' event ev' hinv hrun
    cases hq : s.Jobs.dq_ with
    | nil => simp [workerIterations, workerIteration_empty vec s event hinv hq] at hrun
    | cons job rest =>
      obtain ⟨arr', new, hstep, hinv', _, _⟩ := workerIteration_step vec s event job rest hinv hq
      simp only [workerIterations, hstep] at hrun
      exact ih _ _ _ _ hinv' hrun

theorem workerIterations_drain (vec : List Int) (n : Nat) : ∀ (s : Shared) (event : Event),
    PoolInv vec s → workload s.Jobs.dq_ ≤ n →
    ∃ K sK evK, workerIterations K s event = .ok (some (sK, evK)) ∧ sK.Jobs.dq_ = []
      ∧ (s.Jobs.dq_ ≠ [] → 1 ≤ K)
      ∧ (∀ k, k < K → ∃ s' ev', workerIterations k s event = .ok (some (s', ev'))
          ∧ s'.Jobs.dq_ ≠ [])
      ∧ (∀ k, K < k → workerIterations k s event = .ok none) := by
  induction n with
  | zero =>
    intro s event hinv hw
    have hq : s.Jobs.dq_ = [] := by
      cases hq : s.Jobs.dq_ with
      | nil => rfl
      | cons job rest => simp [hq, workload] at hw
    refine ⟨0, s, event, rfl, hq, fun h => absurd hq h, fun k hk => by omega, ?_⟩
    intro k hk
    obtain ⟨k, rfl⟩ : ∃ m, k = m + 1 := ⟨k - 1, by omega⟩
    simp [workerIterations, workerIteration_empty vec s event hinv hq]
  | succ n ih =>
    intro s event hinv hw
    cases hq : s.Jobs.dq_ with
    | nil =>
      refine ⟨0, s, event, rfl, hq, fun h => absurd rfl h, fun k hk => by omega, ?_⟩
      intro k hk
      obtain ⟨k, rfl⟩ : ∃ m, k = m + 1 := ⟨k - 1, by omega⟩
      simp [workerIterations, workerIteration_empty vec s event hinv hq]
    | cons job rest =>
      obtain ⟨arr', new, hstep, hinv', _, hlt⟩ := workerIteration_step vec s event job rest hinv hq
      obtain ⟨K, sK, evK, hrun, hempty, _, hbefore, hafter⟩ :=
        ih _ job hinv' (by simp only; omega)
      refine ⟨K + 1, sK, evK, ?_, hempty, fun _ => by omega, ?_, ?_⟩
      · simp only [workerIterations, hstep]
        exact hrun
      · intro k hk
        cases k with
        | zero => exact ⟨s, event, rfl, by simp [hq]⟩
        | succ k =>
          obtain ⟨s', ev', h1, h2⟩ := hbefore k (by omega)
          refine ⟨s', ev', ?_, h2⟩
          simp only [workerIterations, hstep]
          exact h1
      · intro k hk
        obtain ⟨k, rfl⟩ : ∃ m, k = m + 1 := ⟨k - 1, by omega⟩
        simp only [workerIterations, hstep]
        exact hafter k (by omega)

/-- C6. In-flight counter of the run of one worker from the seed state
(`ct = 1`, queue `[{0, n}]`): after every complete iteration of the worker loop
`ct` equals the number of queued jobs, so it is `0` exactly when the queue is
empty; and `ct` reaches `0` exactly once: there is a `K ≥ 1` such that after
each of the first `K - 1` iterations (and at the start) `ct` is positive, after
the `K`-th iteration `ct = 0` with the queue empty, and there is no further
iteration. -/
theorem counter_equals_queue_length (vec : List Int) (event : Event) :
    (seed vec).ct = 1 ∧ (seed vec).Jobs.dq_ = [⟨0, vec.length⟩]
    ∧ (∀ k s ev, workerIterations k (seed vec) event = .ok (some (s, ev)) →
        s.ct = s.Jobs.dq_.length ∧ (s.ct = 0 ↔ s.Jobs.dq_ = []))
    ∧ ∃ K sK evK, 1 ≤ K ∧ workerIterations K (seed vec) event = .ok (some (sK, evK))
        ∧ sK.ct = 0 ∧ sK.Jobs.dq_ = []
        ∧ (∀ k, k < K → ∃ s ev, workerIterations k (seed vec) event = .ok (some (s, ev))
            ∧ 0 < s.ct)
        ∧ (∀ k, K < k → workerIterations k (seed vec) event = .ok none) := by
  have hct : ∀ s : Shared, PoolInv vec s →
      s.ct = s.Jobs.dq_.length ∧ (s.ct = 0 ↔ s.Jobs.dq_ = []) := by
    intro s hinv
    refine ⟨hinv.2.2.2.2.1, ?_⟩
    rw [hinv.2.2.2.2.1]
    cases s.Jobs.dq_ with
    | nil => simp
    | cons job rest =>
      simp
      omega
  refine ⟨rfl, rfl, ?_, ?_⟩
  · intro k s ev hrun
    exact hct s (workerIterations_inv vec k _ _ _ _ (PoolInv.seed vec) hrun)
  · obtain ⟨K, sK, evK, hrun, hempty, hpos, hbefore, hafter⟩ :=
      workerIterations_drain vec _ (seed vec) event (PoolInv.seed vec) (le_refl _)
    have hinvK := workerIterations_inv vec K _ _ _ _ (PoolInv.seed vec) hrun
    refine ⟨K, sK, evK, hpos (by simp [Pool.seed, Shared.enqueue, Shared.increment,
      Queue.Enqueue, Queue.empty]), hrun, (hct sK hinvK).2.mpr hempty, hempty, ?_, hafter⟩
    intro k hk
    obtain ⟨s, ev, h1, h2⟩ := hbefore k hk
    refine ⟨s, ev, h1, ?_⟩
    have hinv := workerIterations_inv vec k _ _ _ _ (PoolInv.seed vec) h1
    have h3 := hct s hinv
    have h4 : s.ct ≠ 0 := fun h => h2 (h3.2.mp h)
    have h5 : (0 : Int) ≤ s.ct := by rw [h3.1]; exact Int.natCast_nonneg _
    omega

theorem workerIteration_effects (s : Shared) (event job : Event) (rest : List Event)
    (hq : s.Jobs.dq_ = job :: rest) (hjob : job.«from» ≤ job.«to»)
    (hlen : job.«to» ≤ s.arr.length) :
    ∃ arr' new,
      workerIteration s event
        = .ok (some ({ arr := arr', Jobs := { dq_ := rest ++ new, closed := s.Jobs.closed },
                       ct := s.ct + new.length - 1,
                       log := s.log ++ [.dequeue job] ++ handovers new ++ [.decrement] }, job)) := by
  obtain ⟨arr, ⟨dq, c⟩, ct, log⟩ := s
  simp only at hq hlen
  subst hq
  obtain ⟨arr', new, hrun, _⟩ :=
    quick_sort_spec (job.«to» - job.«from» + 1)
      { arr := arr, Jobs := { dq_ := rest, closed := c }, ct := ct,
        log := log ++ [.dequeue job] } job.«from» job.«to» hjob hlen (by omega)
  refine ⟨arr', new, ?_⟩
  simp only at hrun
  simp [workerIteration, WaitandDequeue_cons, hrun, Shared.decrement]

/-- C7. For every call `quick_sort(arr, start, end, Jobs, ct)` with
`start ≤ end ≤ arr.size()` the call returns, appends some jobs `new` to `Jobs`
and raises `ct` by exactly `|new|`, its effects being `Enqueue`, `ct++` once per
job of `new` and nothing else; and a worker iteration that dequeues the job
`{start, end}` has, after the `dequeue` and the effects of `quick_sort`, exactly
one decrement of `ct` as its last effect. -/
theorem counter_counts_handovers (fuel : Nat) (s : Shared) (start end_ : Nat)
    (hse : start ≤ end_) (hend : end_ ≤ s.arr.length) (hfuel : end_ - start < fuel) :
    (∃ arr' new,
      quick_sort fuel s start end_
        = .ok { arr := arr', Jobs := { dq_ := s.Jobs.dq_ ++ new, closed := s.Jobs.closed },
                ct := s.ct + new.length, log := s.log ++ handovers new })
    ∧ ∀ (w : Shared) (event : Event) (rest : List Event), w.arr.length = s.arr.length →
        w.Jobs.dq_ = ⟨start, end_⟩ :: rest →
        ∃ arr' new,
          workerIteration w event
            = .ok (some ({ arr := arr', Jobs := { dq_ := rest ++ new, closed := w.Jobs.closed },
                           ct := w.ct + new.length - 1,
                           log := w.log ++ [.dequeue ⟨start, end_⟩] ++ handovers new
                             ++ [.decrement] }, ⟨start, end_⟩)) := by
  refine ⟨?_, ?_⟩
  · obtain ⟨arr', new, hrun, _⟩ := quick_sort_spec fuel s start end_ hse hend hfuel
    exact ⟨arr', new, hrun⟩
  · intro w event rest hlen hq
    exact workerIteration_effects w event ⟨start, end_⟩ rest hq hse (by rw [hlen]; exact hend)

theorem counter_counts_handovers_witness :
    (0 ≤ 12 ∧ 12 ≤ (seed [12, 11, 10, 9, 8, 7, 6, 5, 4, 3, 2, 1]).arr.length ∧ 12 - 0 < 13)
    ∧ ((∃ arr' new,
        quick_sort 13 (seed [12, 11, 10, 9, 8, 7, 6, 5, 4, 3, 2, 1]) 0 12
          = .ok { arr := arr',
                  Jobs := { dq_ := (seed [12, 11, 10, 9, 8, 7, 6, 5, 4, 3, 2, 1]).Jobs.dq_ ++ new,
                            closed := (seed [12, 11, 10, 9, 8, 7, 6, 5, 4, 3, 2, 1]).Jobs.closed },
                  ct := (seed [12, 11, 10, 9, 8, 7, 6, 5, 4, 3, 2, 1]).ct + new.length,
                  log := (seed [12, 11, 10, 9, 8, 7, 6, 5, 4, 3, 2, 1]).log ++ handovers new })
      ∧ ∀ (w : Shared) (event : Event) (rest : List Event),
          w.arr.length = (seed [12, 11, 10, 9, 8, 7, 6, 5, 4, 3, 2, 1]).arr.length →
          w.Jobs.dq_ = ⟨0, 12⟩ :: rest →
          ∃ arr' new,
            workerIteration w event
              = .ok (some ({ arr := arr',
                             Jobs := { dq_ := rest ++ new, closed := w.Jobs.closed },
                             ct := w.ct + new.length - 1,
                             log := w.log ++ [.dequeue ⟨0, 12⟩] ++ handovers new
                               ++ [.decrement] }, ⟨0, 12⟩))) :=
  ⟨⟨by decide, by decide, by decide⟩,
    counter_counts_handovers 13 (seed [12, 11, 10, 9, 8, 7, 6, 5, 4, 3, 2, 1]) 0 12 (by decide)
      (by decide) (by decide)⟩

/-! ### Interleaved execution -/

theorem sum_map_set {α : Type} (f : α → Int) (l : List α) (i : Nat) (old new : α)
    (h : l[i]? = some old) : ((l.set i new).map f).sum = (l.map f).sum - f old + f new := by
  induction l generalizing i with
  | nil => simp at h
  | cons a l ih =>
    cases i with
    | zero =>
      simp at h
      subst h
      simp
      ring
    | succ i =>
      simp at h
      rw [List.set_cons_succ, List.map_cons, List.sum_cons, ih i h, List.map_cons, List.sum_cons]
      ring

theorem sum_map_replicate_zero {α : Type} (f : α → Int) (a : α) (n : Nat) (h : f a = 0) :
    ((List.replicate n a).map f).sum = 0 := by
  induction n with
  | zero => rfl
  | succ n ih => simp [List.replicate_succ, h, ih]

theorem WaitandDequeue_true {T : Type} (q rest : Queue T) (value front : T)
    (h : q.WaitandDequeue value = some (true, front, rest)) :
    q.dq_ = front :: rest.dq_ ∧ rest.closed = q.closed := by
  obtain ⟨dq, c⟩ := q
  cases dq with
  | nil => cases c <;> simp [Queue.WaitandDequeue, Queue.waitPredicate] at h
  | cons x xs =>
    simp [WaitandDequeue_cons] at h
    obtain ⟨rfl, rfl⟩ := h
    exact ⟨rfl, rfl⟩

theorem sum_credit_nonneg (ws : List Worker) : 0 ≤ (ws.map Worker.credit).sum := by
  induction ws with
  | nil => simp
  | cons w ws ih =>
    simp only [List.map_cons, List.sum_cons]
    have : 0 ≤ w.credit := by cases w <;> simp [Worker.credit]
    omega

theorem System.step_credit (s s' : System) (t : Thread) (hstep : s.step t = some s')
    (hinv : s.ct = s.Jobs.dq_.length + (s.workers.map Worker.credit).sum) :
    s'.ct = s'.Jobs.dq_.length + (s'.workers.map Worker.credit).sum := by
  cases t with
  | main =>
    simp only [System.step, System.stepMain] at hstep
    split at hstep
    · simp at hstep
    · split at hstep
      · simp at hstep; subst hstep; exact hinv
      · simp at hstep; subst hstep; simpa [Queue.Close] using hinv
  | worker i =>
    simp only [System.step, System.stepWorker] at hstep
    split at hstep
    · simp at hstep
    · rename_i event hw
      split at hstep
      · simp at hstep; subst hstep; exact hinv
      · simp at hstep; subst hstep
        simp only [sum_map_set Worker.credit _ i _ _ hw, Worker.credit]
        omega
      · rename_i job rest hdq
        simp at hstep; subst hstep
        simp only [sum_map_set Worker.credit _ i _ _ hw, Worker.credit]
        have hlen := (WaitandDequeue_true _ _ _ _ hdq).1
        rw [hlen] at hinv
        simp only [List.length_cons] at hinv
        push_cast at hinv
        omega
    · rename_i event hw
      simp at hstep; subst hstep
      simp only [sum_map_set Worker.credit _ i _ _ hw, Worker.credit]
      omega
    · rename_i event start end_ stack hw
      split at hstep
      · simp at hstep; subst hstep
        simp only [sum_map_set Worker.credit _ i _ _ hw, Worker.credit]
        omega
      · split at hstep
        · simp at hstep
        · split at hstep
          · simp at hstep; subst hstep
            simp only [sum_map_set Worker.credit _ i _ _ hw, Worker.credit, Queue.Enqueue,
              List.length_append, List.length_singleton]
            push_cast
            omega
          · simp at hstep; subst hstep
            simp only [sum_map_set Worker.credit _ i _ _ hw, Worker.credit]
            omega
    · rename_i event stack hw
      simp at hstep; subst hstep
      simp only [sum_map_set Worker.credit _ i _ _ hw, Worker.credit]
      omega
    · simp at hstep

theorem System.run_credit (schedule : List Thread) : ∀ (s s' : System),
    s.run schedule = some s' →
    s.ct = s.Jobs.dq_.length + (s.workers.map Worker.credit).sum →
    s'.ct = s'.Jobs.dq_.length + (s'.workers.map Worker.credit).sum := by
  induction schedule with
  | nil =>
    intro s s' hrun hinv
    simp [System.run] at hrun
    subst hrun
    exact hinv
  | cons t schedule ih =>
    intro s s' hrun hinv
    simp only [System.run] at hrun
    cases hstep : s.step t with
    | none => simp [hstep] at hrun
    | some s1 =>
      simp only [hstep] at hrun
      exact ih s1 s' hrun (System.step_credit s s1 t hstep hinv)

/-- C10. In every state the interleaved execution of
`Quick_Sort_with_Simple_Thread_Pool` reaches from the seed state (`ct = 1`, the
seed job queued, any number of workers, any schedule), `ct` is not negative: it
is the number of queued jobs plus the number of workers inside `quick_sort`
that are not between an `Enqueue` and its `ct++`. -/
theorem counter_never_negative (vec : List Int) (n : Nat) (schedule : List Thread) (s : System)
    (hrun : (System.init vec n).run schedule = some s) :
    0 ≤ s.ct ∧ s.ct = s.Jobs.dq_.length + (s.workers.map Worker.credit).sum := by
  have h0 := sum_map_replicate_zero Worker.credit (Worker.waiting default) n rfl
  have hinv := System.run_credit schedule _ s hrun (by
    simp only [System.init, h0]
    rfl)
  refine ⟨?_, hinv⟩
  rw [hinv]
  have := sum_credit_nonneg s.workers
  omega

theorem counter_never_negative_witness :
    (System.init [12, 11, 10, 9, 8, 7, 6, 5, 4, 3, 2, 1] 2).run [.worker 0, .worker 0, .worker 1]
        = some { arr := [1, 11, 10, 9, 8, 7, 6, 5, 4, 3, 2, 12],
                 Jobs := { dq_ := [], closed := false }, ct := 1,
                 workers := [.enqueued ⟨0, 12⟩ [(12, 12)], .sorting ⟨0, 11⟩ [(0, 11)]] }
    ∧ (0 ≤ (1 : Int)
      ∧ (1 : Int) = (([] : List Event).length : Int)
          + (([.enqueued ⟨0, 12⟩ [(12, 12)], .sorting ⟨0, 11⟩ [(0, 11)]] : List Worker).map
              Worker.credit).sum) :=
  ⟨by decide,
    counter_never_negative [12, 11, 10, 9, 8, 7, 6, 5, 4, 3, 2, 1] 2
      [.worker 0, .worker 0, .worker 1]
      { arr := [1, 11, 10, 9, 8, 7, 6, 5, 4, 3, 2, 12],
        Jobs := { dq_ := [], closed := false }, ct := 1,
        workers := [.enqueued ⟨0, 12⟩ [(12, 12)], .sorting ⟨0, 11⟩ [(0, 11)]] } (by decide)⟩

theorem sum_notes_credit_nonneg (ws : List NotesWorker) :
    0 ≤ (ws.map NotesWorker.credit).sum := by
  induction ws with
  | nil => simp
  | cons w ws ih =>
    simp only [List.map_cons, List.sum_cons]
    have : 0 ≤ w.credit := by cases w <;> simp [NotesWorker.credit]
    omega

theorem notes_credit_zero (ws : List NotesWorker) (h : (ws.map NotesWorker.credit).sum = 0) :
    ∀ w ∈ ws, w.inFlight = false := by
  induction ws with
  | nil => simp
  | cons a ws ih =>
    simp only [List.map_cons, List.sum_cons] at h
    have h1 := sum_notes_credit_nonneg ws
    have h2 : 0 ≤ a.credit := by cases a <;> simp [NotesWorker.credit]
    intro w hw
    rcases List.mem_cons.mp hw with rfl | hmem
    · cases w <;> simp [NotesWorker.credit, NotesWorker.inFlight] at h ⊢ <;> omega
    · exact ih (by omega) w hmem

theorem NotesSystem.step_remains (s s' : NotesSystem) (t : Thread) (hstep : s.step t = some s')
    (hinv : s.remains = s.jobs.dq_.length + (s.workers.map NotesWorker.credit).sum) :
    s'.remains = s'.jobs.dq_.length + (s'.workers.map NotesWorker.credit).sum := by
  cases t with
  | main =>
    simp only [NotesSystem.step, NotesSystem.stepMain] at hstep
    split at hstep
    · simp at hstep
    · split at hstep
      · simp at hstep; subst hstep; exact hinv
      · simp at hstep; subst hstep; simpa [Queue.Close] using hinv
  | worker i =>
    simp only [NotesSystem.step, NotesSystem.stepWorker] at hstep
    split at hstep
    · simp at hstep
    · rename_i job hw
      split at hstep
      · simp at hstep; subst hstep; exact hinv
      · simp at hstep; subst hstep
        simp only [sum_map_set NotesWorker.credit _ i _ _ hw, NotesWorker.credit]
        omega
      · rename_i next rest hdq
        simp at hstep; subst hstep
        simp only [sum_map_set NotesWorker.credit _ i _ _ hw, NotesWorker.credit]
        have hlen := (WaitandDequeue_true _ _ _ _ hdq).1
        rw [hlen] at hinv
        simp only [List.length_cons] at hinv
        push_cast at hinv
        omega
    · rename_i job hw
      simp at hstep; subst hstep
      simp only [sum_map_set NotesWorker.credit _ i _ _ hw, NotesWorker.credit]
      omega
    · rename_i job first last stack hw
      split at hstep
      · simp at hstep; subst hstep
        simp only [sum_map_set NotesWorker.credit _ i _ _ hw, NotesWorker.credit]
        omega
      · split at hstep
        · simp at hstep
        · split at hstep
          · simp at hstep; subst hstep
            simp only [sum_map_set NotesWorker.credit _ i _ _ hw, NotesWorker.credit]
            omega
          · simp at hstep; subst hstep
            simp only [sum_map_set NotesWorker.credit _ i _ _ hw, NotesWorker.credit]
            omega
    · rename_i job handover stack hw
      simp at hstep; subst hstep
      simp only [sum_map_set NotesWorker.credit _ i _ _ hw, NotesWorker.credit, Queue.Enqueue,
        List.length_append, List.length_singleton]
      push_cast
      omega
    · simp at hstep

theorem NotesSystem.run_remains (schedule : List Thread) : ∀ (s s' : NotesSystem),
    s.run schedule = some s' →
    s.remains = s.jobs.dq_.length + (s.workers.map NotesWorker.credit).sum →
    s'.remains = s'.jobs.dq_.length + (s'.workers.map NotesWorker.credit).sum := by
  induction schedule with
  | nil =>
    intro s s' hrun hinv
    simp [NotesSystem.run] at hrun
    subst hrun
    exact hinv
  | cons t schedule ih =>
    intro s s' hrun hinv
    simp only [NotesSystem.run] at hrun
    cases hstep : s.step t with
    | none => simp [hstep] at hrun
    | some s1 =>
      simp only [hstep] at hrun
      exact ih s1 s' hrun (NotesSystem.step_remains s s1 t hstep hinv)

/-- C9. Termination detection of the course notes pool is sound: in every state
the interleaved execution of `n` workers reaches from the seed state
(`remains = 1`, queue `[{0, size}]`), `remains == 0` implies that the queue is
empty and that no worker is between a successful dequeue and its decrement. -/
theorem remains_zero_sound (v3 : List Int) (n : Nat) (schedule : List Thread) (s : NotesSystem)
    (hrun : (NotesSystem.init v3 n).run schedule = some s) (hzero : s.remains = 0) :
    s.jobs.dq_ = [] ∧ ∀ w ∈ s.workers, w.inFlight = false := by
  have h0 := sum_map_replicate_zero NotesWorker.credit (NotesWorker.waiting default) n rfl
  have hinv := NotesSystem.run_remains schedule _ s hrun (by
    simp only [NotesSystem.init, h0]
    rfl)
  have hsum := sum_notes_credit_nonneg s.workers
  rw [hzero] at hinv
  have hlen : s.jobs.dq_.length = 0 := by omega
  exact ⟨List.length_eq_zero.mp hlen, notes_credit_zero s.workers (by omega)⟩

theorem remains_zero_sound_witness :
    (NotesSystem.init [2, 1] 2).run (List.replicate 7 (.worker 0))
        = some { nums := [1, 2], jobs := { dq_ := [], closed := false }, remains := 0,
                 workers := [.waiting ⟨0, 2⟩, .waiting ⟨0, 0⟩] }
    ∧ (0 : Int) = 0
    ∧ (([] : List Event) = []
      ∧ ∀ w ∈ ([.waiting ⟨0, 2⟩, .waiting ⟨0, 0⟩] : List NotesWorker), w.inFlight = false) :=
  ⟨by decide, rfl,
    remains_zero_sound [2, 1] 2 (List.replicate 7 (.worker 0))
      { nums := [1, 2], jobs := { dq_ := [], closed := false }, remains := 0,
        workers := [.waiting ⟨0, 2⟩, .waiting ⟨0, 0⟩] } (by decide) rfl⟩

/-- C8 (the code departs from the claim). In `quick_sort` of
`Quick_Sort_with_Simple_Thread_Pool.cpp` the `Enqueue` of a sub-range job comes
before the `ct++` for it.  On the vector `12, 11, ..., 1` the call
`quick_sort(vec, 0, 12, Jobs, ct)` has the effects `Enqueue({0, 11})`, `ct++` in
this order, so the `Enqueue` precedes its own increment; and with two workers
the schedule below reaches a state in which `ct` is `0` while worker 0 is still
inside `quick_sort`, between its `Enqueue` and its `ct++`. -/
theorem enqueue_precedes_increment :
    quick_sort 13 { arr := [12, 11, 10, 9, 8, 7, 6, 5, 4, 3, 2, 1], Jobs := Queue.empty, ct := 1,
                    log := [] } 0 12
        = .ok { arr := [1, 11, 10, 9, 8, 7, 6, 5, 4, 3, 2, 12],
                Jobs := { dq_ := [⟨0, 11⟩], closed := false }, ct := 2,
                log := [.enqueue ⟨0, 11⟩, .increment] }
    ∧ incrementsLead 0 [.enqueue ⟨0, 11⟩, .increment] = false
    ∧ (System.init [12, 11, 10, 9, 8, 7, 6, 5, 4, 3, 2, 1] 2).run
          ([.worker 0, .worker 0, .worker 1] ++ List.replicate 24 (.worker 1))
        = some { arr := [1, 2, 3, 4, 5, 6, 7, 8, 9, 10, 11, 12],
                 Jobs := { dq_ := [], closed := false }, ct := 0,
                 workers := [.enqueued ⟨0, 12⟩ [(12, 12)], .waiting ⟨0, 11⟩] }
    ∧ (Worker.enqueued ⟨0, 12⟩ [(12, 12)]).inFlight = true := by
  refine ⟨by rfl, by decide, by decide, rfl⟩

/-! ### The queue: closing, enqueueing, waiting -/

/-- C11. `Close` is idempotent: for every queue state, `Close` applied twice
gives the same state (items and closed flag) as `Close` applied once, so every
later `WaitandDequeue`, and every later series of them, behaves the same in
both cases. -/
theorem close_idempotent {T : Type} (q : Queue T) :
    q.Close.Close = q.Close
    ∧ (q.Close.Close.dq_ = q.dq_ ∧ q.Close.Close.closed = true)
    ∧ (∀ value, q.Close.Close.WaitandDequeue value = q.Close.WaitandDequeue value)
    ∧ ∀ n value, dequeueMany n q.Close.Close value = dequeueMany n q.Close value := by
  have h : q.Close.Close = q.Close := rfl
  exact ⟨h, ⟨rfl, rfl⟩, fun _ => by rw [h], fun _ _ => by rw [h]⟩

theorem WaitandDequeue_closed {T : Type} (q rest : Queue T) (value out : T) (r : Bool)
    (h : q.WaitandDequeue value = some (r, out, rest)) : rest.closed = q.closed := by
  obtain ⟨dq, c⟩ := q
  cases dq with
  | nil =>
    cases c
    · simp [WaitandDequeue_open_nil] at h
    · simp [WaitandDequeue_closed_nil] at h
      rw [← h.2.2]
  | cons x xs =>
    simp [WaitandDequeue_cons] at h
    rw [← h.2.2]

theorem History.apply_closed {T : Type} (h : History T) (op : QueueOp T)
    (hc : h.q.closed = true) : (h.apply op).q.closed = true := by
  cases op with
  | enqueue val => simpa [History.apply, Queue.Enqueue] using hc
  | close => simp [History.apply, Queue.Close]
  | dequeue =>
    simp only [History.apply]
    cases hq : h.q.WaitandDequeue h.value with
    | none => simpa using hc
    | some t =>
      obtain ⟨r, out, rest⟩ := t
      have := WaitandDequeue_closed _ _ _ _ _ hq
      cases r <;> simp [this, hc]

/-- C12. The closed flag is monotonic: it starts `false`; `Enqueue` and
`WaitandDequeue` leave it as it is, `Close` sets it to `true`; so along every
sequence of queue operations a flag that is `true` stays `true`. -/
theorem closed_monotonic {T : Type} :
    (Queue.empty : Queue T).closed = false
    ∧ (∀ (q : Queue T) (x : T), (q.Enqueue x).closed = q.closed)
    ∧ (∀ (q rest : Queue T) (value out : T) (r : Bool),
        q.WaitandDequeue value = some (r, out, rest) → rest.closed = q.closed)
    ∧ (∀ q : Queue T, q.Close.closed = true)
    ∧ (∀ (ops : List (QueueOp T)) (h : History T), h.q.closed = true →
        (ops.foldl History.apply h).q.closed = true) := by
  refine ⟨rfl, fun _ _ => rfl, WaitandDequeue_closed, fun _ => rfl, ?_⟩
  intro ops
  induction ops with
  | nil => intro h hc; simpa using hc
  | cons op ops ih => intro h hc; exact ih _ (History.apply_closed h op hc)

/-- C13. `Enqueue` never fails and never blocks: for every queue state, open or
closed, and every item `x` it yields the state whose items are the old items
followed by `x`; the old items keep their places and the closed flag is
unchanged. -/
theorem enqueue_appends {T : Type} (q : Queue T) (x : T) :
    q.Enqueue x = { dq_ := q.dq_ ++ [x], closed := q.closed }
    ∧ q.dq_ <+: (q.Enqueue x).dq_
    ∧ (q.Enqueue x).dq_.length = q.dq_.length + 1
    ∧ (q.Enqueue x).dq_.getLast? = some x
    ∧ (∀ i, i < q.dq_.length → (q.Enqueue x).dq_[i]? = q.dq_[i]?)
    ∧ (q.Enqueue x).closed = q.closed := by
  refine ⟨rfl, ⟨[x], rfl⟩, by simp [Queue.Enqueue], by simp [Queue.Enqueue], ?_, rfl⟩
  intro i hi
  simp [Queue.Enqueue, List.getElem?_append_left hi]

/-- C14. `WaitandDequeue` waits exactly when the queue is empty and not closed:
the wait predicate holds iff the queue has an item or is closed; so the call
blocks iff the queue is empty and open, it never blocks on a closed queue, and
on a queue with an item it returns the front item whatever the closed flag. -/
theorem waits_iff_empty_and_open {T : Type} (q : Queue T) (value : T) :
    (q.waitPredicate = true ↔ (q.dq_ ≠ [] ∨ q.closed = true))
    ∧ (q.WaitandDequeue value = none ↔ (q.dq_ = [] ∧ q.closed = false))
    ∧ (q.closed = true → q.WaitandDequeue value ≠ none)
    ∧ (∀ front rest, q.dq_ = front :: rest →
        q.WaitandDequeue value = some (true, front, { dq_ := rest, closed := q.closed })) := by
  obtain ⟨dq, c⟩ := q
  refine ⟨?_, ?_, ?_, ?_⟩
  · cases dq <;> cases c <;> simp [Queue.waitPredicate]
  · cases dq <;> cases c <;> simp [Queue.WaitandDequeue, Queue.waitPredicate]
  · cases dq <;> cases c <;> simp [Queue.WaitandDequeue, Queue.waitPredicate]
  · intro front rest h
    simp only at h
    subst h
    exact WaitandDequeue_cons front rest c value

/-- C18 (counterexample). `Enqueue` on a closed queue is not detected: on the
closed empty queue `Enqueue(5)` adds the item, so it is false that the item is
kept out of the queue. -/
theorem enqueue_after_close_unchecked :
    ((Queue.empty : Queue Nat).Close.Enqueue 5) = { dq_ := [5], closed := true }
    ∧ ¬ ((Queue.empty : Queue Nat).Close.closed = true →
          ((Queue.empty : Queue Nat).Close.Enqueue 5).dq_ = (Queue.empty : Queue Nat).Close.dq_) := by
  refine ⟨rfl, ?_⟩
  intro h
  have := h rfl
  simp [Queue.Enqueue, Queue.Close, Queue.empty] at this

/-- C18 (amended). `Enqueue` has no check of the closed flag: on a closed queue
it appends the item exactly as on an open one and the flag stays `true`, and
the next `WaitandDequeue` returns `true` with the front item of the queue. -/
theorem enqueue_after_close_appends {T : Type} (q : Queue T) (x value : T)
    (hclosed : q.closed = true) :
    q.Enqueue x = { dq_ := q.dq_ ++ [x], closed := true }
    ∧ ∃ front rest, q.dq_ ++ [x] = front :: rest
        ∧ (q.Enqueue x).WaitandDequeue value = some (true, front, { dq_ := rest, closed := true }) := by
  obtain ⟨dq, c⟩ := q
  simp only at hclosed
  subst hclosed
  refine ⟨rfl, ?_⟩
  cases dq with
  | nil => exact ⟨x, [], rfl, WaitandDequeue_cons x [] true value⟩
  | cons a l => exact ⟨a, l ++ [x], rfl, WaitandDequeue_cons a (l ++ [x]) true value⟩

theorem enqueue_after_close_appends_witness :
    ({ dq_ := [1, 2], closed := true } : Queue Nat).closed = true
    ∧ (({ dq_ := [1, 2], closed := true } : Queue Nat).Enqueue 3
          = { dq_ := ({ dq_ := [1, 2], closed := true } : Queue Nat).dq_ ++ [3], closed := true }
      ∧ ∃ front rest, ({ dq_ := [1, 2], closed := true } : Queue Nat).dq_ ++ [3] = front :: rest
          ∧ (({ dq_ := [1, 2], closed := true } : Queue Nat).Enqueue 3).WaitandDequeue 0
              = some (true, front, { dq_ := rest, closed := true })) :=
  ⟨rfl, enqueue_after_close_appends { dq_ := [1, 2], closed := true } 3 0 rfl⟩

/-- C16. Size threshold of `quick_sort`: for a call on a non-empty range
`[start, end)` whose first partition step yields `mid`, the left sub-range
`{start, mid}` is among the jobs the call enqueues iff `mid - start > 10`; every
job the call enqueues has `to - from > 10`; and when `mid - start ≤ 10` no
enqueued job touches `[start, mid)` and the call itself leaves `[start, mid)` in
ascending order. -/
theorem threshold_decides_enqueue (fuel : Nat) (s : Shared) (start end_ : Nat)
    (hse : start < end_) (hend : end_ ≤ s.arr.length) (hfuel : end_ - start < fuel) :
    ∃ arr1 mid arr' new,
      partitionPass s.arr start end_ = .ok (arr1, mid)
        ∧ quick_sort fuel s start end_
            = .ok { arr := arr', Jobs := { dq_ := s.Jobs.dq_ ++ new, closed := s.Jobs.closed },
                    ct := s.ct + new.length, log := s.log ++ handovers new }
        ∧ (mid - start > 10 ↔ (⟨start, mid⟩ : Event) ∈ new)
        ∧ (∀ job ∈ new, job.«to» - job.«from» > 10)
        ∧ (mid - start ≤ 10 →
            (∀ job ∈ new, mid < job.«from»)
            ∧ ∀ i j, start ≤ i → i < j → j < mid → arr'.getD i 0 ≤ arr'.getD j 0) := by
  obtain ⟨fuel, rfl⟩ : ∃ f, fuel = f + 1 := ⟨fuel - 1, by omega⟩
  obtain ⟨arr1, mid, hpp, hm1, hm2, hre1, _, _, _⟩ :=
    partitionPass_spec s.arr start end_ hse hend
  have hlen1 : arr1.length = s.arr.length := hre1.1
  have hne : ¬ start = end_ := by omega
  by_cases hbig : mid - start > 10
  · obtain ⟨arr3, new2, hrun, _, hj2, hb2, _, _⟩ :=
      quick_sort_spec fuel (({ s with arr := arr1 }.enqueue ⟨start, mid⟩).increment) (mid + 1)
        end_ (by omega) (by simpa [Shared.enqueue, Shared.increment, hlen1] using hend)
        (by omega)
    refine ⟨arr1, mid, arr3, ⟨start, mid⟩ :: new2, hpp, ?_, ?_, ?_, ?_⟩
    · simp only [quick_sort, if_neg hne, hpp, if_pos hbig, hrun]
      simp [Shared.enqueue, Shared.increment, Queue.Enqueue, handovers]
      ring
    · exact ⟨fun _ => List.mem_cons_self _ _, fun _ => hbig⟩
    · intro job hmem
      rcases List.mem_cons.mp hmem with h | h
      · subst h; exact hbig
      · have := hb2 job h
        omega
    · intro h
      omega
  · obtain ⟨arr2, new1, hrun1, hre2, hj1, hb1, _, hs1⟩ :=
      quick_sort_spec fuel { s with arr := arr1 } start mid hm1 (by simp [hlen1]; omega)
        (by omega)
    have hnil : new1 = [] := by
      cases new1 with
      | nil => rfl
      | cons job rest =>
        have h1 := hj1.1 job (List.mem_cons_self _ _)
        have h2 := hb1 job (List.mem_cons_self _ _)
        omega
    subst hnil
    have hre2' : Rearranged arr1 arr2 start mid := hre2
    have hlen2 : arr2.length = s.arr.length := hre2'.1.trans hlen1
    obtain ⟨arr3, new2, hrun2, hre3, hj2, hb2, _, _⟩ :=
      quick_sort_spec fuel
        { arr := arr2, Jobs := { dq_ := s.Jobs.dq_ ++ [], closed := s.Jobs.closed },
          ct := s.ct + ([] : List Event).length, log := s.log ++ handovers [] } (mid + 1) end_
        (by omega) (by simp [hlen2]; omega) (by omega)
    have hre3' : Rearranged arr2 arr3 (mid + 1) end_ := hre3
    refine ⟨arr1, mid, arr3, new2, hpp, ?_, ?_, ?_, ?_⟩
    · simp only [quick_sort, if_neg hne, hpp, if_neg hbig, hrun1, hrun2]
      simp [handovers]
    · refine ⟨fun h => absurd h hbig, fun h => ?_⟩
      have := hj2.1 _ h
      simp at this
      omega
    · intro job hmem
      have := hb2 job hmem
      omega
    · intro _
      refine ⟨fun job hmem => ?_, ?_⟩
      · have := hj2.1 job hmem
        omega
      · intro i j h1 h2 h3
        rw [hre3'.2.2.1 i (Or.inl (by omega)), hre3'.2.2.1 j (Or.inl (by omega))]
        rcases hs1 i j h1 h2 h3 with h | ⟨job, hmem, _⟩
        · exact h
        · simp at hmem

theorem threshold_decides_enqueue_witness :
    (0 < 12 ∧ 12 ≤ (seed [12, 11, 10, 9, 8, 7, 6, 5, 4, 3, 2, 1]).arr.length ∧ 12 - 0 < 13)
    ∧ ∃ arr1 mid arr' new,
      partitionPass (seed [12, 11, 10, 9, 8, 7, 6, 5, 4, 3, 2, 1]).arr 0 12 = .ok (arr1, mid)
        ∧ quick_sort 13 (seed [12, 11, 10, 9, 8, 7, 6, 5, 4, 3, 2, 1]) 0 12
            = .ok { arr := arr',
                    Jobs := { dq_ := (seed [12, 11, 10, 9, 8, 7, 6, 5, 4, 3, 2, 1]).Jobs.dq_ ++ new,
                              closed := (seed [12, 11, 10, 9, 8, 7, 6, 5, 4, 3, 2, 1]).Jobs.closed },
                    ct := (seed [12, 11, 10, 9, 8, 7, 6, 5, 4, 3, 2, 1]).ct + new.length,
                    log := (seed [12, 11, 10, 9, 8, 7, 6, 5, 4, 3, 2, 1]).log ++ handovers new }
        ∧ (mid - 0 > 10 ↔ (⟨0, mid⟩ : Event) ∈ new)
        ∧ (∀ job ∈ new, job.«to» - job.«from» > 10)
        ∧ (mid - 0 ≤ 10 →
            (∀ job ∈ new, mid < job.«from»)
            ∧ ∀ i j, 0 ≤ i → i < j → j < mid → arr'.getD i 0 ≤ arr'.getD j 0) :=
  ⟨⟨by decide, by decide, by decide⟩,
    threshold_decides_enqueue 13 (seed [12, 11, 10, 9, 8, 7, 6, 5, 4, 3, 2, 1]) 0 12 (by decide)
      (by decide) (by decide)⟩

/-! ### Single-threaded `quickSort` -/

theorem swapAt_comm (arr : List Int) (i j : Nat) : swapAt arr i j = swapAt arr j i := by
  unfold swapAt
  cases hi : arr[i]? with
  | none => cases hj : arr[j]? <;> simp
  | some a =>
    cases hj : arr[j]? with
    | none => simp
    | some b =>
      simp only
      by_cases hij : i = j
      · subst hij
        rw [hi] at hj
        cases hj
        rfl
      · rw [List.set_comm _ _ _ hij]

theorem notesClassify_eq (first n : Nat) : ∀ (i j : Nat) (nums : List Int),
    notesClassify first n i j nums = classify first n i j nums := by
  induction n with
  | zero => intro i j nums; rfl
  | succ n ih =>
    intro i j nums
    simp only [notesClassify, classify, swapAt_comm nums i j, ih]

theorem notesPartition_eq (nums : List Int) (first last : Nat) :
    notesPartition nums first last = partitionPass nums first last := by
  simp only [notesPartition, partitionPass, notesClassify_eq]
  cases classify first (last - (first + 1)) (first + 1) (first + 1) nums with
  | error e => rfl
  | ok p => simp only [swapAt_comm p.1 first (p.2 - 1)]

theorem quickSort_spec (fuel : Nat) : ∀ (nums : List Int) (first last : Nat),
    first ≤ last → last ≤ nums.length → last - first < fuel →
    ∃ r, quickSort fuel nums first last = .ok r
      ∧ Rearranged nums r first last ∧ SortedUpTo r [] first last := by
  induction fuel with
  | zero => intro nums first last _ _ h; omega
  | succ fuel ih =>
    intro nums first last hfl hlast hfuel
    by_cases heq : first = last
    · refine ⟨nums, by simp [quickSort, heq], Rearranged.refl _ _ _, ?_⟩
      intro i j h1 h2 h3
      omega
    · obtain ⟨nums1, mid, hpp, hm1, hm2, hre1, _, hlow, hhigh⟩ :=
        partitionPass_spec nums first last (by omega) hlast
      have hlen1 : nums1.length = nums.length := hre1.1
      obtain ⟨nums2, hrun1, hre2, hs1⟩ := ih nums1 first mid hm1 (by omega) (by omega)
      have hlen2 : nums2.length = nums.length := hre2.1.trans hlen1
      obtain ⟨nums3, hrun2, hre3, hs2⟩ := ih nums2 (mid + 1) last (by omega) (by omega) (by omega)
      refine ⟨nums3, ?_, ?_, ?_⟩
      · simp only [quickSort, if_neg heq, notesPartition_eq, hpp, hrun1, hrun2]
      · exact hre1.trans ((hre2.mono (le_refl _) (by omega)).trans
          (hre3.mono (by omega) (le_refl _)))
      · exact SortedUpTo.sorted_join nums1 nums2 nums3 first mid last [] [] hlow hhigh hre2 hre3
          hs1 hs2

/-- C20. Single-threaded `quickSort(nums)` sorts: for every vector of ints, the
empty one included, the call returns and the vector is then in ascending order
and a permutation of its initial contents.  Instances: the vectors `v1` and
`v2` of `main`, and the empty vector. -/
theorem quickSort_sorts (nums : List Int) :
    (∃ r, quickSortVector nums = .ok r ∧ r.Sorted (· ≤ ·) ∧ r.Perm nums)
    ∧ quickSortVector [1, 3, 2, 5, 4] = .ok [1, 2, 3, 4, 5]
    ∧ quickSortVector [3, 1, 2, 4, 5] = .ok [1, 2, 3, 4, 5]
    ∧ quickSortVector [] = .ok [] := by
  refine ⟨?_, rfl, rfl, rfl⟩
  obtain ⟨r, hrun, hre, hs⟩ :=
    quickSort_spec (nums.length + 1) nums 0 nums.length (Nat.zero_le _) (le_refl _) (by omega)
  rw [← hre.1] at hs
  exact ⟨r, hrun, sorted_of_SortedUpTo_nil r hs, hre.2.1⟩

/-! ### The partition steps of a run -/

theorem quick_sort_steps_erase (fuel : Nat) : ∀ (s : Shared) (start end_ : Nat),
    (quick_sort_steps fuel s start end_).map Prod.fst = quick_sort fuel s start end_ := by
  induction fuel with
  | zero => intro s start end_; rfl
  | succ fuel ih =>
    intro s start end_
    simp only [quick_sort_steps, quick_sort]
    split
    · rfl
    · cases partitionPass s.arr start end_ with
      | error e => rfl
      | ok p =>
        obtain ⟨arr, mid⟩ := p
        simp only
        split
        · rw [← ih]
          cases quick_sort_steps fuel (({ s with arr := arr }.enqueue ⟨start, mid⟩).increment)
            (mid + 1) end_ <;> rfl
        · rw [← ih]
          cases h1 : quick_sort_steps fuel { s with arr := arr } start mid with
          | error e => rfl
          | ok p1 =>
            simp only [Except.map]
            rw [← ih]
            cases quick_sort_steps fuel p1.1 (mid + 1) end_ <;> rfl

theorem workerLoop_steps_erase (fuel : Nat) : ∀ (s : Shared) (event : Event),
    (workerLoop_steps fuel s event).map Prod.fst = workerLoop fuel s event := by
  induction fuel with
  | zero => intro s event; rfl
  | succ fuel ih =>
    intro s event
    simp only [workerLoop_steps, workerLoop, workerIteration]
    cases s.Jobs.WaitandDequeue event with
    | none => rfl
    | some t =>
      obtain ⟨r, job, rest⟩ := t
      cases r with
      | false => rfl
      | true =>
        simp only
        rw [← quick_sort_steps_erase]
        cases quick_sort_steps (job.«to» - job.«from» + 1)
            { s with Jobs := rest, log := s.log ++ [.dequeue job] } job.«from» job.«to» with
        | error e => rfl
        | ok p =>
          simp only [Except.map]
          rw [← ih]
          cases workerLoop_steps fuel p.1.decrement job <;> rfl

theorem jobIndices_append (a b : List Event) :
    jobIndices (a ++ b) = jobIndices a ++ jobIndices b := by
  induction a with
  | nil => rfl
  | cons job rest ih => simp [jobIndices, ih]

theorem range'_split (start mid end_ : Nat) (h1 : start ≤ mid) (h2 : mid < end_) :
    List.range' start (end_ - start)
      = List.range' start (mid - start) ++ mid :: List.range' (mid + 1) (end_ - (mid + 1)) := by
  have h : end_ - start = (end_ - (mid + 1) + 1) + (mid - start) := by omega
  have e1 : start + (mid - start) = mid := by omega
  rw [h, ← List.range'_append_1, e1, List.range'_succ]

theorem quick_sort_steps_cover (fuel : Nat) : ∀ (s S : Shared) (start end_ : Nat)
    (steps : List PartitionStep),
    start ≤ end_ → end_ ≤ s.arr.length → end_ - start < fuel →
    quick_sort_steps fuel s start end_ = .ok (S, steps) →
    ∃ new, S.Jobs.dq_ = s.Jobs.dq_ ++ new ∧ S.arr.length = s.arr.length
      ∧ (∀ job ∈ new, start ≤ job.«from» ∧ job.«from» ≤ job.«to» ∧ job.«to» ≤ end_)
      ∧ (steps.map PartitionStep.mid ++ jobIndices new).Perm (List.range' start (end_ - start))
      ∧ ∀ st ∈ steps, start ≤ st.start ∧ st.start ≤ st.mid ∧ st.mid < st.end_ ∧ st.end_ ≤ end_ := by
  induction fuel with
  | zero => intro s S start end_ steps _ _ h; omega
  | succ fuel ih =>
    intro s S start end_ steps hse hend hfuel hrun
    by_cases heq : start = end_
    · simp only [quick_sort_steps, if_pos heq, Except.ok.injEq, Prod.mk.injEq] at hrun
      obtain ⟨rfl, rfl⟩ := hrun
      exact ⟨[], by simp, rfl, by simp, by simp [heq, jobIndices], by simp⟩
    · obtain ⟨arr1, mid, hpp, hm1, hm2, hre1, _, _, _⟩ :=
        partitionPass_spec s.arr start end_ (by omega) hend
      have hlen1 : arr1.length = s.arr.length := hre1.1
      have hsplit := range'_split start mid end_ hm1 hm2
      simp only [quick_sort_steps, if_neg heq, hpp] at hrun
      by_cases hbig : mid - start > 10
      · rw [if_pos hbig] at hrun
        cases hsub : quick_sort_steps fuel
            (({ s with arr := arr1 }.enqueue ⟨start, mid⟩).increment) (mid + 1) end_ with
        | error e => simp [hsub] at hrun
        | ok p =>
          obtain ⟨s2, steps2⟩ := p
          simp only [hsub, Except.ok.injEq, Prod.mk.injEq] at hrun
          obtain ⟨rfl, rfl⟩ := hrun
          obtain ⟨new2, hq2, hl2, hj2, hp2, hst2⟩ :=
            ih _ _ _ _ _ (by omega)
              (by simpa [Shared.enqueue, Shared.increment, hlen1] using hend) (by omega) hsub
          refine ⟨⟨start, mid⟩ :: new2, ?_, ?_, ?_, ?_, ?_⟩
          · rw [hq2]
            simp [Shared.enqueue, Shared.increment, Queue.Enqueue]
          · rw [hl2]
            simpa [Shared.enqueue, Shared.increment] using hlen1
          · intro job hmem
            rcases List.mem_cons.mp hmem with h | h
            · subst h
              simp only
              omega
            · have := hj2 job h
              omega
          · rw [hsplit, List.perm_iff_count]
            intro a
            have hc := hp2.count_eq a
            simp only [List.map_cons, jobIndices, List.cons_append, List.count_append,
              List.count_cons] at hc ⊢
            omega
          · intro st hmem
            rcases List.mem_cons.mp hmem with h | h
            · subst h
              simp only
              omega
            · have := hst2 st h
              omega
      · rw [if_neg hbig] at hrun
        cases hsub1 : quick_sort_steps fuel { s with arr := arr1 } start mid with
        | error e => simp [hsub1] at hrun
        | ok p1 =>
          obtain ⟨s1, steps1⟩ := p1
          simp only [hsub1] at hrun
          obtain ⟨new1, hq1, hl1, hj1, hp1, hst1⟩ :=
            ih _ _ _ _ _ hm1 (by simp [hlen1]; omega) (by omega) hsub1
          have hl1' : s1.arr.length = s.arr.length := by rw [hl1]; exact hlen1
          cases hsub2 : quick_sort_steps fuel s1 (mid + 1) end_ with
          | error e => simp [hsub2] at hrun
          | ok p2 =>
            obtain ⟨s2, steps2⟩ := p2
            simp only [hsub2, Except.ok.injEq, Prod.mk.injEq] at hrun
            obtain ⟨rfl, rfl⟩ := hrun
            obtain ⟨new2, hq2, hl2, hj2, hp2, hst2⟩ :=
              ih _ _ _ _ _ (by omega) (by rw [hl1']; exact hend) (by omega) hsub2
            refine ⟨new1 ++ new2, ?_, ?_, ?_, ?_, ?_⟩
            · rw [hq2, hq1]
              simp
            · rw [hl2, hl1']
            · intro job hmem
              rcases List.mem_append.mp hmem with h | h
              · have := hj1 job h
                omega
              · have := hj2 job h
                omega
            · rw [hsplit, List.perm_iff_count]
              intro a
              have hc1 := hp1.count_eq a
              have hc2 := hp2.count_eq a
              simp only [List.map_cons, List.map_append, jobIndices_append, List.cons_append,
                List.count_append, List.count_cons] at hc1 hc2 ⊢
              omega
            · intro st hmem
              rcases List.mem_cons.mp hmem with h | h
              · subst h
                simp only
                omega
              · rcases List.mem_append.mp h with h | h
                · have := hst1 st h
                  omega
                · have := hst2 st h
                  omega

theorem workerLoop_steps_cover (fuel : Nat) : ∀ (s S : Shared) (event : Event)
    (steps : List PartitionStep),
    (∀ job ∈ s.Jobs.dq_, job.«from» ≤ job.«to» ∧ job.«to» ≤ s.arr.length) →
    workerLoop_steps fuel s event = .ok (S, steps) →
    (steps.map PartitionStep.mid ++ jobIndices S.Jobs.dq_).Perm (jobIndices s.Jobs.dq_)
      ∧ ∀ st ∈ steps, st.start ≤ st.mid ∧ st.mid < st.end_ ∧ st.end_ ≤ s.arr.length := by
  induction fuel with
  | zero => intro s S event steps _ h; simp [workerLoop_steps] at h
  | succ fuel ih =>
    intro s S event steps hjobs hrun
    simp only [workerLoop_steps] at hrun
    cases hdq : s.Jobs.WaitandDequeue event with
    | none =>
      simp only [hdq, Except.ok.injEq, Prod.mk.injEq] at hrun
      obtain ⟨rfl, rfl⟩ := hrun
      exact ⟨by simp, by simp⟩
    | some t =>
      obtain ⟨r, job, rest⟩ := t
      cases r with
      | false =>
        simp only [hdq, Except.ok.injEq, Prod.mk.injEq] at hrun
        obtain ⟨rfl, rfl⟩ := hrun
        exact ⟨by simp, by simp⟩
      | true =>
        simp only [hdq] at hrun
        have hq := (WaitandDequeue_true _ _ _ _ hdq).1
        have hjob := hjobs job (by rw [hq]; exact List.mem_cons_self _ _)
        cases hsub : quick_sort_steps (job.«to» - job.«from» + 1)
            { s with Jobs := rest, log := s.log ++ [.dequeue job] } job.«from» job.«to» with
        | error e => simp [hsub] at hrun
        | ok p =>
          obtain ⟨s1, steps1⟩ := p
          simp only [hsub] at hrun
          obtain ⟨new, hq1, hl1, hj1, hp1, hst1⟩ :=
            quick_sort_steps_cover (job.«to» - job.«from» + 1)
              { s with Jobs := rest, log := s.log ++ [.dequeue job] } _ job.«from» job.«to» _
              hjob.1 hjob.2 (by omega) hsub
          simp only at hq1 hl1
          cases hloop : workerLoop_steps fuel s1.decrement job with
          | error e => simp [hloop] at hrun
          | ok p2 =>
            obtain ⟨s2, steps2⟩ := p2
            simp only [hloop, Except.ok.injEq, Prod.mk.injEq] at hrun
            obtain ⟨rfl, rfl⟩ := hrun
            obtain ⟨hp2, hst2⟩ := ih s1.decrement _ job steps2 (by
              intro x hx
              simp only [Shared.decrement, hq1, hl1] at hx ⊢
              rcases List.mem_append.mp hx with h | h
              · exact hjobs x (by rw [hq]; exact List.mem_cons_of_mem _ h)
              · have := hj1 x h
                omega) hloop
            simp only [Shared.decrement, hq1, hl1] at hp2 hst2
            refine ⟨?_, ?_⟩
            · rw [hq, List.perm_iff_count]
              intro a
              have hc1 := hp1.count_eq a
              have hc2 := hp2.count_eq a
              simp only [List.map_append, jobIndices_append, jobIndices, List.count_append]
                at hc1 hc2 ⊢
              omega
            · intro st hmem
              rcases List.mem_append.mp hmem with h | h
              · have := hst1 st h
                omega
              · exact hst2 st h

/-- C15. Coverage without overlap or gap: over the complete run of the worker
loop from the seed job `{0, n}`, the pivot positions `mid` of the partition
steps are the indices `0, ..., n-1`, each one exactly once; and every partition
step of a range `[start, end)` has `start ≤ mid < end`, so that `[start, mid)`,
`mid` and `[mid+1, end)` are disjoint and together are exactly `[start, end)`. -/
theorem partition_steps_cover (vec : List Int) (event : Event) :
    ∃ s steps, workerLoop_steps (vec.length + 2) (seed vec) event = .ok (s, steps)
      ∧ workerLoop (vec.length + 2) (seed vec) event = .ok s
      ∧ s.Jobs.dq_ = []
      ∧ (steps.map PartitionStep.mid).Perm (List.range vec.length)
      ∧ (∀ k, k < vec.length → (steps.map PartitionStep.mid).count k = 1)
      ∧ ∀ st ∈ steps, st.start ≤ st.mid ∧ st.mid < st.end_ ∧ st.end_ ≤ vec.length
          ∧ (∀ k, (st.start ≤ k ∧ k < st.end_)
              ↔ ((st.start ≤ k ∧ k < st.mid) ∨ k = st.mid ∨ (st.mid + 1 ≤ k ∧ k < st.end_)))
          ∧ ∀ k, ¬ ((st.start ≤ k ∧ k < st.mid) ∧ (st.mid + 1 ≤ k ∧ k < st.end_)) := by
  obtain ⟨s, hrun, _, hempty⟩ :=
    workerLoop_spec vec (vec.length + 2) (seed vec) event (PoolInv.seed vec)
      (by simp [Pool.seed, Shared.enqueue, Shared.increment, Queue.Enqueue, Queue.empty,
        workload])
  have herase := workerLoop_steps_erase (vec.length + 2) (seed vec) event
  rw [hrun] at herase
  cases hsteps : workerLoop_steps (vec.length + 2) (seed vec) event with
  | error e => simp [hsteps, Except.map] at herase
  | ok p =>
    obtain ⟨S, steps⟩ := p
    simp only [hsteps, Except.map, Except.ok.injEq] at herase
    subst herase
    obtain ⟨hperm, hst⟩ := workerLoop_steps_cover _ _ _ _ _ (by
      intro job hmem
      simp [Pool.seed, Shared.enqueue, Shared.increment, Queue.Enqueue, Queue.empty] at hmem
      subst hmem
      simp [Pool.seed, Shared.enqueue, Shared.increment]) hsteps
    have hperm' : (steps.map PartitionStep.mid).Perm (List.range vec.length) := by
      simpa [hempty, jobIndices, Pool.seed, Shared.enqueue, Shared.increment, Queue.Enqueue,
        Queue.empty, List.range_eq_range'] using hperm
    refine ⟨S, steps, rfl, hrun, hempty, hperm', ?_, ?_⟩
    · intro k hk
      rw [hperm'.count_eq]
      exact List.count_eq_one_of_mem (List.nodup_range _) (List.mem_range.mpr hk)
    · intro st hmem
      have h := hst st hmem
      have hlen : (seed vec).arr.length = vec.length := rfl
      rw [hlen] at h
      refine ⟨h.1, h.2.1, h.2.2, fun k => by omega, fun k => by omega⟩

/-! ### `WaitandDequeue` against `Close` -/

/-- C17 (the code departs from the claim). `Close` stores `closed` and notifies
without owning `m`, so its notification can be missed: when the consumer has
found the predicate false on the empty queue and has not yet blocked in
`cv.wait(uk)`, and `Close` runs both its statements at that moment, the
consumer blocks afterwards.  The schedule reaches a state in which `Close` has
returned, `closed` is `true`, the consumer is blocked and no thread can move.
When `Close` runs after the consumer has blocked, the consumer is woken and
returns `false`. -/
theorem close_notification_missed :
    (WaitState.init []).run [.consumer, .consumer, .closer, .closer, .consumer]
        = some { q := { dq_ := [], closed := true }, mutexOwned := false, value := default,
                 consumer := .blocked, closer := .done }
    ∧ (∀ t, ({ q := { dq_ := [], closed := true }, mutexOwned := false, value := default,
               consumer := .blocked, closer := .done } : WaitState).step t = none)
    ∧ (WaitState.init []).run
          [.consumer, .consumer, .consumer, .closer, .closer, .consumer, .consumer, .consumer]
        = some { q := { dq_ := [], closed := true }, mutexOwned := false, value := default,
                 consumer := .returned false, closer := .done } := by
  refine ⟨by decide, ?_, by decide⟩
  intro t
  cases t <;> rfl

/-! ### The contents of a range -/

theorem segment_all (arr : List Int) : segment arr 0 arr.length = arr := by
  apply List.ext_getElem
  · simp [segment]
  · intro i h1 h2
    simp [segment, List.getElem_range', List.getElem?_eq_getElem h2]

theorem segment_split (arr : List Int) (lo mid hi : Nat) (h1 : lo ≤ mid) (h2 : mid ≤ hi) :
    segment arr lo hi = segment arr lo mid ++ segment arr mid hi := by
  have h : hi - lo = (hi - mid) + (mid - lo) := by omega
  have e : lo + (mid - lo) = mid := by omega
  simp only [segment]
  rw [h, ← List.range'_append_1, e, List.map_append]

theorem segment_congr (a b : List Int) (lo hi : Nat)
    (h : ∀ k, lo ≤ k → k < hi → a.getD k 0 = b.getD k 0) : segment a lo hi = segment b lo hi := by
  simp only [segment]
  apply List.map_congr_left
  intro k hk
  rw [List.mem_range'_1] at hk
  exact h k hk.1 (by omega)

theorem segment_one (arr : List Int) (k : Nat) : segment arr k (k + 1) = [arr.getD k 0] := by
  simp [segment]

theorem Rearranged.segment_perm {a b : List Int} {lo hi : Nat} (h : Rearranged a b lo hi)
    (hlo : lo ≤ hi) (hhi : hi ≤ a.length) : (segment b lo hi).Perm (segment a lo hi) := by
  obtain ⟨hlen, hperm, hout, _⟩ := h
  have ha : a = segment a 0 lo ++ (segment a lo hi ++ segment a hi a.length) := by
    rw [← segment_split a lo hi a.length hlo hhi, ← segment_split a 0 lo a.length (Nat.zero_le _)
      (by omega), segment_all]
  have hb : b = segment a 0 lo ++ (segment b lo hi ++ segment a hi a.length) := by
    rw [← segment_congr b a 0 lo (fun k _ hk => hout k (Or.inl hk)),
      ← segment_congr b a hi a.length (fun k hk _ => hout k (Or.inr hk)), ← hlen,
      ← segment_split b lo hi b.length hlo (by omega),
      ← segment_split b 0 lo b.length (Nat.zero_le _) (by omega), segment_all]
  rw [ha, hb] at hperm
  have h1 := (List.perm_append_left_iff _).mp hperm
  exact (List.perm_append_right_iff _).mp h1

/-- C21. Partition step postcondition: one pass of the loop of `quick_sort` on a
non-empty range `[start, end)` with pivot `p = arr[start]` ends with
`arr[mid] = p`, every entry of `[start, mid)` below `p`, every entry of
`(mid, end)` at least `p`, the range holding a permutation of its previous
contents (and the rest of the vector unchanged), and `mid - start` equal to the
number of entries of the range that are below `p`. -/
theorem partition_postcondition (arr : List Int) (start end_ : Nat) (hse : start < end_)
    (hend : end_ ≤ arr.length) :
    ∃ arr' mid, partitionPass arr start end_ = .ok (arr', mid) ∧ start ≤ mid ∧ mid < end_
      ∧ arr'.getD mid 0 = arr.getD start 0
      ∧ (∀ k, start ≤ k → k < mid → arr'.getD k 0 < arr.getD start 0)
      ∧ (∀ k, mid < k → k < end_ → arr.getD start 0 ≤ arr'.getD k 0)
      ∧ (segment arr' start end_).Perm (segment arr start end_)
      ∧ (∀ k, k < start ∨ end_ ≤ k → arr'.getD k 0 = arr.getD k 0)
      ∧ mid - start = (segment arr start end_).countP (fun x => x < arr.getD start 0) := by
  obtain ⟨arr', mid, hpp, hm1, hm2, hre, hpiv, hlow, hhigh⟩ :=
    partitionPass_spec arr start end_ hse hend
  have hperm := hre.segment_perm (le_of_lt hse) hend
  refine ⟨arr', mid, hpp, hm1, hm2, hpiv, ?_, ?_, hperm, hre.2.2.1, ?_⟩
  · intro k h1 h2
    rw [← hpiv]
    exact hlow k h1 h2
  · intro k h1 h2
    rw [← hpiv]
    exact hhigh k h1 h2
  · rw [← hperm.countP_eq, segment_split arr' start mid end_ hm1 (le_of_lt hm2),
      segment_split arr' mid (mid + 1) end_ (by omega) (by omega), segment_one,
      List.countP_append, List.countP_append]
    have h1 : (segment arr' start mid).countP (fun x => x < arr.getD start 0) = mid - start := by
      have hall : ∀ x ∈ segment arr' start mid, (fun x => decide (x < arr.getD start 0)) x = true := by
        intro x hx
        simp only [segment, List.mem_map, List.mem_range'_1] at hx
        obtain ⟨k, hk, rfl⟩ := hx
        have := hlow k hk.1 (by omega)
        rw [hpiv] at this
        simpa using this
      rw [List.countP_eq_length.mpr hall]
      simp [segment]
    have h2 : (segment arr' (mid + 1) end_).countP (fun x => x < arr.getD start 0) = 0 := by
      rw [List.countP_eq_zero]
      intro x hx
      simp only [segment, List.mem_map, List.mem_range'_1] at hx
      obtain ⟨k, hk, rfl⟩ := hx
      have := hhigh k (by omega) (by omega)
      rw [hpiv] at this
      simpa using this
    have h3 : [arr'.getD mid 0].countP (fun x => x < arr.getD start 0) = 0 := by
      rw [hpiv]
      simp
    rw [h1, h2, h3]
    omega

theorem partition_postcondition_witness :
    (0 < 5 ∧ 5 ≤ ([3, 1, 4, 1, 5] : List Int).length)
    ∧ ∃ arr' mid, partitionPass [3, 1, 4, 1, 5] 0 5 = .ok (arr', mid) ∧ 0 ≤ mid ∧ mid < 5
      ∧ arr'.getD mid 0 = ([3, 1, 4, 1, 5] : List Int).getD 0 0
      ∧ (∀ k, 0 ≤ k → k < mid → arr'.getD k 0 < ([3, 1, 4, 1, 5] : List Int).getD 0 0)
      ∧ (∀ k, mid < k → k < 5 → ([3, 1, 4, 1, 5] : List Int).getD 0 0 ≤ arr'.getD k 0)
      ∧ (segment arr' 0 5).Perm (segment [3, 1, 4, 1, 5] 0 5)
      ∧ (∀ k, k < 0 ∨ 5 ≤ k → arr'.getD k 0 = ([3, 1, 4, 1, 5] : List Int).getD k 0)
      ∧ mid - 0 = (segment [3, 1, 4, 1, 5] 0 5).countP
          (fun x => x < ([3, 1, 4, 1, 5] : List Int).getD 0 0) :=
  ⟨⟨by decide, by decide⟩, partition_postcondition [3, 1, 4, 1, 5] 0 5 (by decide) (by decide)⟩

/-! ### The array accesses of `quick_sort` -/

theorem classify_accesses_erase (start n : Nat) : ∀ (j i : Nat) (arr : List Int),
    (classify_accesses start n j i arr).map (fun r => (r.1, r.2.1)) = classify start n j i arr := by
  induction n with
  | zero => intro j i arr; rfl
  | succ n ih =>
    intro j i arr
    simp only [classify_accesses, classify]
    cases readAt arr j with
    | error e => rfl
    | ok aj =>
      cases readAt arr start with
      | error e => rfl
      | ok pivot =>
        simp only
        split
        · cases swapAt arr i j with
          | error e => rfl
          | ok arr1 =>
            simp only
            rw [← ih]
            cases classify_accesses start n (j + 1) (i + 1) arr1 <;> rfl
        · rw [← ih]
          cases classify_accesses start n (j + 1) i arr <;> rfl

theorem partitionPass_accesses_erase (arr : List Int) (start end_ : Nat) :
    (partitionPass_accesses arr start end_).map (fun r => (r.1, r.2.1))
      = partitionPass arr start end_ := by
  simp only [partitionPass_accesses, partitionPass]
  rw [← classify_accesses_erase]
  cases classify_accesses start (end_ - (start + 1)) (start + 1) (start + 1) arr with
  | error e => rfl
  | ok r =>
    obtain ⟨arr1, i, acc⟩ := r
    simp only [Except.map]
    cases swapAt arr1 (i - 1) start <;> rfl

theorem quick_sort_accesses_erase (fuel : Nat) : ∀ (s : Shared) (start end_ : Nat),
    (quick_sort_accesses fuel s start end_).map Prod.fst = quick_sort fuel s start end_ := by
  induction fuel with
  | zero => intro s start end_; rfl
  | succ fuel ih =>
    intro s start end_
    simp only [quick_sort_accesses, quick_sort]
    split
    · rfl
    · rw [← partitionPass_accesses_erase]
      cases partitionPass_accesses s.arr start end_ with
      | error e => rfl
      | ok p =>
        obtain ⟨arr, mid, acc⟩ := p
        simp only [Except.map]
        by_cases hbig : mid - start > 10
        · simp only [if_pos hbig]
          rw [← ih]
          cases quick_sort_accesses fuel (({ s with arr := arr }.enqueue ⟨start, mid⟩).increment)
            (mid + 1) end_ <;> rfl
        · simp only [if_neg hbig]
          rw [← ih]
          cases h1 : quick_sort_accesses fuel { s with arr := arr } start mid with
          | error e => rfl
          | ok p1 =>
            simp only [Except.map]
            rw [← ih]
            cases quick_sort_accesses fuel p1.1 (mid + 1) end_ <;> rfl

theorem classify_accesses_within (start end_ n : Nat) : ∀ (j i : Nat) (arr arr' : List Int)
    (i' : Nat) (acc : List Nat),
    start < i → i ≤ j → j + n = end_ →
    classify_accesses start n j i arr = .ok (arr', i', acc) →
    ∀ k ∈ acc, start ≤ k ∧ k < end_ := by
  induction n with
  | zero =>
    intro j i arr arr' i' acc _ _ _ h
    simp only [classify_accesses, Except.ok.injEq, Prod.mk.injEq] at h
    obtain ⟨_, _, rfl⟩ := h
    simp
  | succ n ih =>
    intro j i arr arr' i' acc hsi hij hn h
    simp only [classify_accesses] at h
    cases hj : readAt arr j with
    | error e => simp [hj] at h
    | ok aj =>
      cases hs : readAt arr start with
      | error e => simp [hj, hs] at h
      | ok pivot =>
        simp only [hj, hs] at h
        split at h
        · cases hsw : swapAt arr i j with
          | error e => simp [hsw] at h
          | ok arr1 =>
            simp only [hsw] at h
            cases hrec : classify_accesses start n (j + 1) (i + 1) arr1 with
            | error e => simp [hrec] at h
            | ok r =>
              obtain ⟨a2, i2, acc2⟩ := r
              simp only [hrec, Except.ok.injEq, Prod.mk.injEq] at h
              obtain ⟨_, _, rfl⟩ := h
              have hrest := ih (j + 1) (i + 1) arr1 a2 i2 acc2 (by omega) (by omega) (by omega) hrec
              intro k hk
              rcases List.mem_append.mp hk with hk | hk
              · simp at hk
                omega
              · exact hrest k hk
        · cases hrec : classify_accesses start n (j + 1) i arr with
          | error e => simp [hrec] at h
          | ok r =>
            obtain ⟨a2, i2, acc2⟩ := r
            simp only [hrec, Except.ok.injEq, Prod.mk.injEq] at h
            obtain ⟨_, _, rfl⟩ := h
            have hrest := ih (j + 1) i arr a2 i2 acc2 hsi (by omega) (by omega) hrec
            intro k hk
            rcases List.mem_append.mp hk with hk | hk
            · simp at hk
              omega
            · exact hrest k hk

theorem map_eq_ok {α β : Type} (f : α → β) (x : Except Fault α) (b : β)
    (h : x.map f = .ok b) : ∃ a, x = .ok a ∧ f a = b := by
  cases x with
  | error e => simp [Except.map] at h
  | ok a =>
    simp only [Except.map, Except.ok.injEq] at h
    exact ⟨a, rfl, h⟩

theorem partitionPass_accesses_spec (arr : List Int) (start end_ : Nat) (hse : start < end_)
    (hend : end_ ≤ arr.length) :
    ∃ arr' mid acc, partitionPass_accesses arr start end_ = .ok (arr', mid, acc)
      ∧ partitionPass arr start end_ = .ok (arr', mid)
      ∧ ∀ k ∈ acc, start ≤ k ∧ k < end_ := by
  obtain ⟨arr', mid, hpp, hm1, hm2, _⟩ := partitionPass_spec arr start end_ hse hend
  have herase := partitionPass_accesses_erase arr start end_
  rw [hpp] at herase
  obtain ⟨r, hr, hf⟩ := map_eq_ok _ _ _ herase
  obtain ⟨a1, m1, acc⟩ := r
  simp only [Prod.mk.injEq] at hf
  obtain ⟨rfl, rfl⟩ := hf
  refine ⟨a1, m1, acc, hr, hpp, ?_⟩
  simp only [partitionPass_accesses] at hr
  cases hc : classify_accesses start (end_ - (start + 1)) (start + 1) (start + 1) arr with
  | error e => simp [hc] at hr
  | ok c =>
    obtain ⟨a0, i, acc0⟩ := c
    simp only [hc] at hr
    cases hsw : swapAt a0 (i - 1) start with
    | error e => simp [hsw] at hr
    | ok a2 =>
      simp only [hsw, Except.ok.injEq, Prod.mk.injEq] at hr
      obtain ⟨_, hmid, rfl⟩ := hr
      have hin := classify_accesses_within start end_ _ _ _ _ _ _ _ (by omega) (le_refl _)
        (by omega) hc
      intro k hk
      rcases List.mem_append.mp hk with hk | hk
      · exact hin k hk
      · simp at hk
        omega
theorem quick_sort_accesses_within (fuel : Nat) : ∀ (s S : Shared) (start end_ : Nat)
    (acc : List Nat),
    start ≤ end_ → end_ ≤ s.arr.length → end_ - start < fuel →
    quick_sort_accesses fuel s start end_ = .ok (S, acc) →
    S.arr.length = s.arr.length ∧ ∀ k ∈ acc, start ≤ k ∧ k < end_ := by
  induction fuel with
  | zero => intro s S start end_ acc _ _ h; omega
  | succ fuel ih =>
    intro s S start end_ acc hse hend hfuel hrun
    by_cases heq : start = end_
    · simp only [quick_sort_accesses, if_pos heq, Except.ok.injEq, Prod.mk.injEq] at hrun
      obtain ⟨rfl, rfl⟩ := hrun
      exact ⟨rfl, by simp⟩
    · obtain ⟨arr1, mid, accP, hppa, hpp, hin⟩ :=
        partitionPass_accesses_spec s.arr start end_ (by omega) hend
      obtain ⟨_, _, hpp', hm1, hm2, hre1, _⟩ := partitionPass_spec s.arr start end_ (by omega) hend
      rw [hpp] at hpp'
      simp only [Except.ok.injEq, Prod.mk.injEq] at hpp'
      obtain ⟨rfl, rfl⟩ := hpp'
      have hlen1 : arr1.length = s.arr.length := hre1.1
      simp only [quick_sort_accesses, if_neg heq, hppa] at hrun
      by_cases hbig : mid - start > 10
      · rw [if_pos hbig] at hrun
        cases hsub : quick_sort_accesses fuel
            (({ s with arr := arr1 }.enqueue ⟨start, mid⟩).increment) (mid + 1) end_ with
        | error e => simp [hsub] at hrun
        | ok p =>
          obtain ⟨s2, acc2⟩ := p
          simp only [hsub, Except.ok.injEq, Prod.mk.injEq] at hrun
          obtain ⟨rfl, rfl⟩ := hrun
          obtain ⟨hl2, hin2⟩ := ih _ _ _ _ _ (by omega)
            (by simpa [Shared.enqueue, Shared.increment, hlen1] using hend) (by omega) hsub
          refine ⟨?_, ?_⟩
          · rw [hl2]
            simpa [Shared.enqueue, Shared.increment] using hlen1
          · intro k hk
            rcases List.mem_append.mp hk with hk | hk
            · exact hin k hk
            · have := hin2 k hk
              omega
      · rw [if_neg hbig] at hrun
        cases hsub1 : quick_sort_accesses fuel { s with arr := arr1 } start mid with
        | error e => simp [hsub1] at hrun
        | ok p1 =>
          obtain ⟨s1, acc1⟩ := p1
          simp only [hsub1] at hrun
          obtain ⟨hl1, hin1⟩ := ih _ _ _ _ _ hm1 (by simp [hlen1]; omega) (by omega) hsub1
          have hl1' : s1.arr.length = s.arr.length := by rw [hl1]; exact hlen1
          cases hsub2 : quick_sort_accesses fuel s1 (mid + 1) end_ with
          | error e => simp [hsub2] at hrun
          | ok p2 =>
            obtain ⟨s2, acc2⟩ := p2
            simp only [hsub2, Except.ok.injEq, Prod.mk.injEq] at hrun
            obtain ⟨rfl, rfl⟩ := hrun
            obtain ⟨hl2, hin2⟩ := ih _ _ _ _ _ (by omega) (by rw [hl1']; exact hend)
              (by omega) hsub2
            refine ⟨by rw [hl2, hl1'], ?_⟩
            intro k hk
            rcases List.mem_append.mp hk with hk | hk
            · exact hin k hk
            · rcases List.mem_append.mp hk with hk | hk
              · have := hin1 k hk
                omega
              · have := hin2 k hk
                omega

/-- C27. Access footprint of `quick_sort`: for every vector and
`start ≤ end ≤ arr.size()` the call returns without an out-of-bounds access,
every index it reads or writes lies in `[start, end)`, and every entry outside
`[start, end)` is left unchanged. -/
theorem quick_sort_footprint (fuel : Nat) (s : Shared) (start end_ : Nat)
    (hse : start ≤ end_) (hend : end_ ≤ s.arr.length) (hfuel : end_ - start < fuel) :
    ∃ S acc, quick_sort_accesses fuel s start end_ = .ok (S, acc)
      ∧ quick_sort fuel s start end_ = .ok S
      ∧ (∀ k ∈ acc, start ≤ k ∧ k < end_ ∧ k < s.arr.length)
      ∧ S.arr.length = s.arr.length
      ∧ ∀ k, k < start ∨ end_ ≤ k → S.arr.getD k 0 = s.arr.getD k 0 := by
  obtain ⟨arr', new, hrun, hre, _⟩ := quick_sort_spec fuel s start end_ hse hend hfuel
  have herase := quick_sort_accesses_erase fuel s start end_
  rw [hrun] at herase
  obtain ⟨r, hr, hf⟩ := map_eq_ok _ _ _ herase
  obtain ⟨S, acc⟩ := r
  simp only at hf
  subst hf
  obtain ⟨hlen, hin⟩ := quick_sort_accesses_within fuel s _ start end_ acc hse hend hfuel hr
  refine ⟨_, acc, hr, hrun, ?_, hlen, hre.2.2.1⟩
  intro k hk
  have := hin k hk
  omega

theorem quick_sort_footprint_witness :
    (3 ≤ 8 ∧ 8 ≤ (seed [9, 8, 7, 3, 1, 2, 5, 4, 0]).arr.length ∧ 8 - 3 < 6)
    ∧ ∃ S acc, quick_sort_accesses 6 (seed [9, 8, 7, 3, 1, 2, 5, 4, 0]) 3 8 = .ok (S, acc)
      ∧ quick_sort 6 (seed [9, 8, 7, 3, 1, 2, 5, 4, 0]) 3 8 = .ok S
      ∧ (∀ k ∈ acc, 3 ≤ k ∧ k < 8 ∧ k < (seed [9, 8, 7, 3, 1, 2, 5, 4, 0]).arr.length)
      ∧ S.arr.length = (seed [9, 8, 7, 3, 1, 2, 5, 4, 0]).arr.length
      ∧ ∀ k, k < 3 ∨ 8 ≤ k → S.arr.getD k 0 = (seed [9, 8, 7, 3, 1, 2, 5, 4, 0]).arr.getD k 0 :=
  ⟨⟨by decide, by decide, by decide⟩,
    quick_sort_footprint 6 (seed [9, 8, 7, 3, 1, 2, 5, 4, 0]) 3 8 (by decide) (by decide)
      (by decide)⟩

/-! ### Termination -/

theorem quick_sort_fuel_succ (fuel : Nat) : ∀ (s S : Shared) (start end_ : Nat),
    quick_sort fuel s start end_ = .ok S → quick_sort (fuel + 1) s start end_ = .ok S := by
  induction fuel with
  | zero => intro s S start end_ h; simp [quick_sort] at h
  | succ fuel ih =>
    intro s S start end_ h
    rw [quick_sort] at h ⊢
    split at h
    · rename_i heq
      rw [if_pos heq]
      exact h
    · rename_i heq
      rw [if_neg heq]
      cases hpp : partitionPass s.arr start end_ with
      | error e => simp [hpp] at h
      | ok p =>
        obtain ⟨arr, mid⟩ := p
        simp only [hpp] at h ⊢
        split at h
        · rename_i hbig
          rw [if_pos hbig]
          exact ih _ _ _ _ h
        · rename_i hbig
          rw [if_neg hbig]
          cases h1 : quick_sort fuel { s with arr := arr } start mid with
          | error e => simp [h1] at h
          | ok s1 =>
            simp only [h1] at h
            simp only [ih _ _ _ _ h1]
            exact ih _ _ _ _ h

theorem quick_sort_fuel_le (fuel extra : Nat) (s S : Shared) (start end_ : Nat)
    (h : quick_sort fuel s start end_ = .ok S) : quick_sort (fuel + extra) s start end_ = .ok S := by
  induction extra with
  | zero => exact h
  | succ extra ih => exact quick_sort_fuel_succ _ _ _ _ _ ih

theorem workerIterations_bound (vec : List Int) (n : Nat) : ∀ (s : Shared) (event : Event),
    PoolInv vec s → workload s.Jobs.dq_ ≤ n →
    ∃ K, K ≤ n ∧ (∃ sK evK, workerIterations K s event = .ok (some (sK, evK)) ∧ sK.Jobs.dq_ = [])
      ∧ workerIterations (K + 1) s event = .ok none := by
  induction n with
  | zero =>
    intro s event hinv hw
    have hq : s.Jobs.dq_ = [] := by
      cases hq : s.Jobs.dq_ with
      | nil => rfl
      | cons job rest => simp [hq, workload] at hw
    exact ⟨0, le_refl _, ⟨s, event, rfl, hq⟩,
      by simp [workerIterations, workerIteration_empty vec s event hinv hq]⟩
  | succ n ih =>
    intro s event hinv hw
    cases hq : s.Jobs.dq_ with
    | nil =>
      exact ⟨0, Nat.zero_le _, ⟨s, event, rfl, hq⟩,
        by simp [workerIterations, workerIteration_empty vec s event hinv hq]⟩
    | cons job rest =>
      obtain ⟨arr', new, hstep, hinv', _, hlt⟩ := workerIteration_step vec s event job rest hinv hq
      obtain ⟨K, hK, ⟨sK, evK, hrun, hempty⟩, hafter⟩ := ih _ job hinv' (by simp only; omega)
      refine ⟨K + 1, by omega, ⟨sK, evK, ?_, hempty⟩, ?_⟩
      · simp only [workerIterations, hstep]
        exact hrun
      · rw [workerIterations]
        simp only [hstep]
        exact hafter

/-- C28. Termination: for every vector and `start ≤ end ≤ arr.size()` the call
`quick_sort(arr, start, end, Jobs, ct)` returns (with one and the same result
for every amount of fuel above `end - start`); on a non-empty range the pass
leaves strictly smaller ranges, `[start, mid)` for the recursive call and
`[mid+1, end)` for the next pass; and the worker loop of one worker started from
the seed job `{0, n}` makes `K ≤ n + 1` iterations, one dequeued job each, after
which the queue is empty and no further job is dequeued. -/
theorem quick_sort_terminates (s : Shared) (start end_ : Nat) (hse : start ≤ end_)
    (hend : end_ ≤ s.arr.length) :
    (∃ S, ∀ fuel, end_ - start < fuel → quick_sort fuel s start end_ = .ok S)
    ∧ (start < end_ → ∃ arr1 mid, partitionPass s.arr start end_ = .ok (arr1, mid)
        ∧ mid - start < end_ - start ∧ end_ - (mid + 1) < end_ - start)
    ∧ ∀ (vec : List Int) (event : Event),
        (∃ K, K ≤ vec.length + 1
          ∧ (∃ sK evK, workerIterations K (seed vec) event = .ok (some (sK, evK))
              ∧ sK.Jobs.dq_ = [])
          ∧ workerIterations (K + 1) (seed vec) event = .ok none)
        ∧ ∀ fuel, vec.length + 1 < fuel →
            ∃ S, workerLoop fuel (seed vec) event = .ok S ∧ S.Jobs.dq_ = [] := by
  refine ⟨?_, ?_, ?_⟩
  · obtain ⟨arr', new, hrun, _⟩ :=
      quick_sort_spec (end_ - start + 1) s start end_ hse hend (by omega)
    refine ⟨{ arr := arr', Jobs := { dq_ := s.Jobs.dq_ ++ new, closed := s.Jobs.closed },
              ct := s.ct + new.length, log := s.log ++ handovers new }, fun fuel hfuel => ?_⟩
    have h := quick_sort_fuel_le (end_ - start + 1) (fuel - (end_ - start + 1)) s _ start end_ hrun
    have e : end_ - start + 1 + (fuel - (end_ - start + 1)) = fuel := by omega
    rw [e] at h
    exact h
  · intro hlt
    obtain ⟨arr1, mid, hpp, hm1, hm2, _⟩ := partitionPass_spec s.arr start end_ hlt hend
    exact ⟨arr1, mid, hpp, by omega, by omega⟩
  · intro vec event
    have hw : workload (seed vec).Jobs.dq_ = vec.length + 1 := by
      simp [Pool.seed, Shared.enqueue, Shared.increment, Queue.Enqueue, Queue.empty, workload]
    refine ⟨workerIterations_bound vec (vec.length + 1) (seed vec) event (PoolInv.seed vec)
      (by omega), fun fuel hfuel => ?_⟩
    obtain ⟨S, hrun, _, hempty⟩ :=
      workerLoop_spec vec fuel (seed vec) event (PoolInv.seed vec) (by omega)
    exact ⟨S, hrun, hempty⟩

theorem quick_sort_terminates_witness :
    (0 ≤ 5 ∧ 5 ≤ (seed [3, 1, 4, 1, 5]).arr.length)
    ∧ ((∃ S, ∀ fuel, 5 - 0 < fuel → quick_sort fuel (seed [3, 1, 4, 1, 5]) 0 5 = .ok S)
      ∧ (0 < 5 → ∃ arr1 mid, partitionPass (seed [3, 1, 4, 1, 5]).arr 0 5 = .ok (arr1, mid)
          ∧ mid - 0 < 5 - 0 ∧ 5 - (mid + 1) < 5 - 0)
      ∧ ∀ (vec : List Int) (event : Event),
          (∃ K, K ≤ vec.length + 1
            ∧ (∃ sK evK, workerIterations K (seed vec) event = .ok (some (sK, evK))
                ∧ sK.Jobs.dq_ = [])
            ∧ workerIterations (K + 1) (seed vec) event = .ok none)
          ∧ ∀ fuel, vec.length + 1 < fuel →
              ∃ S, workerLoop fuel (seed vec) event = .ok S ∧ S.Jobs.dq_ = []) :=
  ⟨⟨by decide, by decide⟩, quick_sort_terminates (seed [3, 1, 4, 1, 5]) 0 5 (by decide) (by decide)⟩

/-! ### `quickSortMThread` run by one worker -/

theorem notesHandovers_append (a b : List Event) :
    notesHandovers (a ++ b) = notesHandovers a ++ notesHandovers b := by
  induction a with
  | nil => rfl
  | cons job rest ih => simp [notesHandovers, ih]

theorem quickSortMThread_spec (fuel : Nat) : ∀ (s : Shared) (first last : Nat),
    first ≤ last → last ≤ s.arr.length → last - first < fuel →
    ∃ arr' new,
      quickSortMThread fuel s first last
          = .ok { arr := arr', Jobs := { dq_ := s.Jobs.dq_ ++ new, closed := s.Jobs.closed },
                  ct := s.ct + new.length, log := s.log ++ notesHandovers new }
        ∧ Rearranged s.arr arr' first last
        ∧ JobsIn new first last
        ∧ workload new ≤ last - first
        ∧ SortedUpTo arr' new first last := by
  induction fuel with
  | zero => intro s first last _ _ h; omega
  | succ fuel ih =>
    intro s first last hfl hlast hfuel
    by_cases heq : first = last
    · refine ⟨s.arr, [], ?_, Rearranged.refl _ _ _, ⟨by simp, by simp⟩, by simp [workload], ?_⟩
      · simp [quickSortMThread, heq, notesHandovers]
      · intro i j h1 h2 h3
        omega
    · obtain ⟨arr1, mid, hpp, hm1, hm2, hre1, _, hlow, hhigh⟩ :=
        partitionPass_spec s.arr first last (by omega) hlast
      have hlen1 : arr1.length = s.arr.length := hre1.1
      simp only [quickSortMThread, if_neg heq, notesPartition_eq, hpp]
      by_cases hsmall : last - first < 100
      · rw [if_pos hsmall]
        obtain ⟨arr2, new1, hrun1, hre2, hj1, hw1, hs1⟩ :=
          ih { s with arr := arr1 } first mid hm1 (by simp [hlen1]; omega) (by omega)
        have hre2' : Rearranged arr1 arr2 first mid := hre2
        have hlen2 : arr2.length = s.arr.length := hre2'.1.trans hlen1
        simp only [hrun1]
        obtain ⟨arr3, new2, hrun2, hre3, hj2, hw2, hs2⟩ :=
          ih { arr := arr2, Jobs := { dq_ := s.Jobs.dq_ ++ new1, closed := s.Jobs.closed },
               ct := s.ct + new1.length, log := s.log ++ notesHandovers new1 } (mid + 1) last
            (by omega) (by simp [hlen2]; omega) (by omega)
        have hre3' : Rearranged arr2 arr3 (mid + 1) last := hre3
        refine ⟨arr3, new1 ++ new2, ?_, ?_, ?_, ?_, ?_⟩
        · rw [hrun2]
          simp [notesHandovers_append]
          ring
        · exact hre1.trans ((hre2'.mono (le_refl _) (by omega)).trans
            (hre3'.mono (by omega) (le_refl _)))
        · exact JobsIn.jobs_join first mid last _ _ hm1 hm2 hj1 hj2
        · rw [workload_append]
          omega
        · exact SortedUpTo.sorted_join arr1 arr2 arr3 first mid last _ _ hlow hhigh hre2' hre3'
            hs1 hs2
      · rw [if_neg hsmall]
        obtain ⟨arr3, new2, hrun, hre2, hj2, hw2, hs2⟩ :=
          ih (({ s with arr := arr1 }.increment).enqueue ⟨first, mid⟩) (mid + 1) last (by omega)
            (by simpa [Shared.enqueue, Shared.increment, hlen1] using hlast) (by omega)
        have hre2' : Rearranged arr1 arr3 (mid + 1) last := hre2
        refine ⟨arr3, [⟨first, mid⟩] ++ new2, ?_, ?_, ?_, ?_, ?_⟩
        · rw [hrun]
          simp [Shared.enqueue, Shared.increment, Queue.Enqueue, notesHandovers]
          ring
        · exact hre1.trans (hre2'.mono (by omega) (le_refl _))
        · exact JobsIn.jobs_join first mid last _ _ hm1 hm2 ⟨by simp; omega, by simp⟩ hj2
        · rw [workload_append]
          simp [workload] at hw2 ⊢
          omega
        · exact SortedUpTo.sorted_join arr1 arr1 arr3 first mid last _ _ hlow hhigh
            (Rearranged.refl _ _ _) hre2'
            (fun i j h1 _ h3 => Or.inr ⟨⟨first, mid⟩, by simp, h1, by simp; omega⟩) hs2

theorem PoolInv.advance (vec : List Int) (s : Shared) (job : Event) (rest : List Event)
    (arr' : List Int) (new : List Event) (lg : List Effect) (hinv : PoolInv vec s)
    (hq : s.Jobs.dq_ = job :: rest) (hre : Rearranged s.arr arr' job.«from» job.«to»)
    (hjn : JobsIn new job.«from» job.«to») (hs : SortedUpTo arr' new job.«from» job.«to») :
    PoolInv vec { arr := arr', Jobs := { dq_ := rest ++ new, closed := false },
                  ct := s.ct + new.length - 1, log := lg } := by
  obtain ⟨arr, ⟨dq, c⟩, ct, log⟩ := s
  obtain ⟨hperm, hlen, hjobs, hsorted, hct, hopen⟩ := hinv
  simp only at hq hopen hperm hlen hjobs hsorted hct hre
  subst hq hopen
  have hjob := hjobs.1 job (List.mem_cons_self _ _)
  have hpw := List.pairwise_cons.mp hjobs.2
  refine ⟨hre.2.1.trans hperm, hre.1.trans hlen, ⟨?_, ?_⟩, ?_, ?_, rfl⟩
  · intro x hx
    rcases List.mem_append.mp hx with h | h
    · exact hjobs.1 x (List.mem_cons_of_mem _ h)
    · have := hjn.1 x h
      omega
  · show (rest ++ new).Pairwise Apart
    rw [List.pairwise_append]
    refine ⟨hpw.2, hjn.2, ?_⟩
    intro r hr x hx
    have h1 := hjn.1 x hx
    rcases hpw.1 r hr with h | h
    · exact Or.inr (by omega)
    · exact Or.inl (by omega)
  · show SortedUpTo arr' (rest ++ new) 0 vec.length
    intro i j hi hij hj
    have hout : ∀ k, k < job.«from» ∨ job.«to» ≤ k → arr'.getD k 0 = arr.getD k 0 := hre.2.2.1
    have hin := hre.2.2.2
    have hold : ∀ i j, i < j → j < vec.length → ¬ (job.«from» ≤ i ∧ j < job.«to») →
        (∀ r ∈ rest, ¬ (r.«from» ≤ i ∧ j < r.«to»)) → arr.getD i 0 ≤ arr.getD j 0 := by
      intro i j h1 h2 h3 h4
      rcases hsorted i j (Nat.zero_le _) h1 h2 with h | ⟨r, hr, hc⟩
      · exact h
      · rcases List.mem_cons.mp hr with h | h
        · subst h; exact absurd hc h3
        · exact absurd hc (h4 r h)
    by_cases hcov : ∃ r ∈ rest, r.«from» ≤ i ∧ j < r.«to»
    · obtain ⟨r, hr, hc⟩ := hcov
      exact Or.inr ⟨r, List.mem_append_left _ hr, hc⟩
    · have hnc : ∀ r ∈ rest, ¬ (r.«from» ≤ i ∧ j < r.«to») := fun r hr hc => hcov ⟨r, hr, hc⟩
      by_cases hi_in : job.«from» ≤ i ∧ i < job.«to»
      · by_cases hj_in : j < job.«to»
        · rcases hs i j hi_in.1 hij hj_in with h | h
          · exact Or.inl h
          · exact Or.inr (h.append_right rest)
        · left
          obtain ⟨k, hk1, hk2, hk⟩ := hin i hi_in.1 hi_in.2
          rw [hk, hout j (by omega)]
          refine hold k j (by omega) hj (by omega) ?_
          intro r hr hc
          rcases hpw.1 r hr with h | h <;> omega
      · by_cases hj_in : job.«from» ≤ j ∧ j < job.«to»
        · left
          obtain ⟨k, hk1, hk2, hk⟩ := hin j hj_in.1 hj_in.2
          rw [hk, hout i (by omega)]
          refine hold i k (by omega) (by omega) (by omega) ?_
          intro r hr hc
          rcases hpw.1 r hr with h | h <;> omega
        · left
          rw [hout i (by omega), hout j (by omega)]
          exact hold i j hij hj (by omega) hnc
  · simp only at hct ⊢
    rw [hct]
    simp
    ring

theorem notesWorkerLoop_spec (vec : List Int) (fuel : Nat) : ∀ (s : Shared) (job : Event),
    PoolInv vec s → workload s.Jobs.dq_ < fuel →
    ∃ s', notesWorkerLoop fuel s job = .ok s' ∧ PoolInv vec s' ∧ s'.Jobs.dq_ = [] := by
  induction fuel with
  | zero => intro s job _ h; omega
  | succ fuel ih =>
    intro s job hinv hfuel
    cases hq : s.Jobs.dq_ with
    | nil =>
      have hopen := hinv.2.2.2.2.2
      have hblock : s.Jobs.WaitandDequeue job = none := by
        obtain ⟨arr, ⟨dq, c⟩, ct, log⟩ := s
        simp only at hq hopen
        subst hq hopen
        exact WaitandDequeue_open_nil job
      exact ⟨s, by simp [notesWorkerLoop, notesWorkerIteration, hblock], hinv, hq⟩
    | cons next rest =>
      have hjob := hinv.2.2.1.1 next (by rw [hq]; exact List.mem_cons_self _ _)
      have hlen := hinv.2.1
      have hopen := hinv.2.2.2.2.2
      obtain ⟨arr', new, hrun, hre, hjn, hw, hs⟩ :=
        quickSortMThread_spec (next.«to» - next.«from» + 1)
          { s with Jobs := { dq_ := rest, closed := s.Jobs.closed },
                   log := s.log ++ [.dequeue next] } next.«from» next.«to» hjob.2.1
          (by simp only; omega) (by omega)
      simp only at hrun hre
      have hdq : s.Jobs.WaitandDequeue job
          = some (true, next, { dq_ := rest, closed := s.Jobs.closed }) := by
        obtain ⟨arr, ⟨dq, c⟩, ct, log⟩ := s
        simp only at hq
        subst hq
        exact WaitandDequeue_cons next rest c job
      have hinv' := PoolInv.advance vec s next rest arr' new
        (s.log ++ [.dequeue next] ++ notesHandovers new ++ [.decrement]) hinv hq hre hjn hs
      obtain ⟨s', hs', h1, h2⟩ := ih _ next hinv' (by
        simp only [workload_append]
        rw [hq] at hfuel
        simp only [workload, List.map_cons, List.sum_cons] at hfuel hw ⊢
        omega)
      refine ⟨s', ?_, h1, h2⟩
      rw [hopen] at hrun hdq
      simp only [notesWorkerLoop, notesWorkerIteration, hdq, hrun, Shared.decrement]
      exact hs'

theorem PoolInv.notesSeed (v3 : List Int) : PoolInv v3 (notesSeed v3) := by
  refine ⟨List.Perm.refl _, rfl, ⟨?_, ?_⟩, ?_, ?_, rfl⟩
  · intro job hmem
    simp [Pool.notesSeed, Shared.enqueue, Queue.Enqueue, Queue.empty] at hmem
    subst hmem
    simp
  · simp [Pool.notesSeed, Shared.enqueue, Queue.Enqueue, Queue.empty]
  · intro i j h1 h2 h3
    exact Or.inr ⟨⟨0, v3.length⟩,
      by simp [Pool.notesSeed, Shared.enqueue, Queue.Enqueue, Queue.empty], h1, h3⟩
  · simp [Pool.notesSeed, Shared.enqueue, Queue.Enqueue, Queue.empty]

/-- C26. The multi-threaded sort refines the single-threaded one: for every
vector `v`, the worker loop of the course notes started on the seed job
`{0, v.size()}` runs until the queue is empty, `quickSort(v)` returns, and both
end with the same vector. -/
theorem notes_pool_refines_quickSort (v : List Int) (job : Event) :
    ∃ s r, notesWorkerLoop (v.length + 2) (notesSeed v) job = .ok s ∧ s.Jobs.dq_ = []
      ∧ quickSortVector v = .ok r ∧ s.arr = r := by
  obtain ⟨s, hrun, hinv, hempty⟩ :=
    notesWorkerLoop_spec v (v.length + 2) (notesSeed v) job (PoolInv.notesSeed v)
      (by simp [Pool.notesSeed, Shared.enqueue, Queue.Enqueue, Queue.empty, workload])
  obtain ⟨hperm, hlen, _, hsorted, _, _⟩ := hinv
  rw [hempty, ← hlen] at hsorted
  obtain ⟨r, hr, hre, hs⟩ :=
    quickSort_spec (v.length + 1) v 0 v.length (Nat.zero_le _) (le_refl _) (by omega)
  rw [← hre.1] at hs
  exact ⟨s, r, hrun, hempty, hr,
    List.eq_of_perm_of_sorted (hperm.trans hre.2.1.symm) (sorted_of_SortedUpTo_nil s.arr hsorted)
      (sorted_of_SortedUpTo_nil r hs)⟩

/-- C22 (the code departs from the claim). `quickSortMThread` tests the size of
the range it has just partitioned, `last - first < 100`, not the size of the
sub-range `{first, mid}` it hands over.  On the vector `100, 99, ..., 1` the call
on `[0, 100)` enqueues the sub-range `{0, 99}` of 99 elements, which is below
the threshold, instead of sorting it itself. -/
theorem threshold_tests_parent_range :
    ((quickSortMThread 101 { arr := descending 100, Jobs := Queue.empty, ct := 1, log := [] }
        0 100).toOption.map fun s => (s.Jobs.dq_, s.ct)) = some ([⟨0, 99⟩], 2)
    ∧ (99 : Nat) - 0 < 100 :=
  ⟨by decide!, by decide⟩

/-! ### `Max` -/

theorem readValue_ok (values : List Nat) (j : Nat) (hj : j < values.length) :
    readValue values j = .ok (values.getD j 0) := by
  simp [readValue, List.getElem?_eq_getElem hj]

theorem scanMax_spec (values : List Nat) (n : Nat) : ∀ (j best : Nat),
    (n ≠ 0 → j + n ≤ values.length) →
    ∃ r, scanMax values n j best = .ok r ∧ best ≤ r
      ∧ (∀ k, j ≤ k → k < j + n → values.getD k 0 ≤ r)
      ∧ (r = best ∨ ∃ k, j ≤ k ∧ k < j + n ∧ r = values.getD k 0) := by
  induction n with
  | zero =>
    intro j best _
    exact ⟨best, rfl, le_refl _, fun k h1 h2 => by omega, Or.inl rfl⟩
  | succ n ih =>
    intro j best h
    have h := h (by omega)
    obtain ⟨r, hr, h1, h2, h3⟩ :=
      ih (j + 1) (if values.getD j 0 > best then values.getD j 0 else best) (by omega)
    refine ⟨r, ?_, ?_, ?_, ?_⟩
    · simp only [scanMax, readValue_ok values j (by omega)]
      exact hr
    · split at h1 <;> omega
    · intro k hk1 hk2
      by_cases hkj : k = j
      · subst hkj
        split at h1 <;> omega
      · exact h2 k (by omega) (by omega)
    · rcases h3 with h3 | ⟨k, hk1, hk2, hk3⟩
      · split at h3
        · exact Or.inr ⟨j, le_refl _, by omega, h3⟩
        · exact Or.inl h3
      · exact Or.inr ⟨k, by omega, by omega, hk3⟩

theorem maxWorker_spec (values : List Nat) (sizeofrange i : Nat) :
    ∃ r, maxWorker values sizeofrange i = .ok r
      ∧ (∀ k, i * sizeofrange ≤ k → k < min values.length ((i + 1) * sizeofrange) →
          values.getD k 0 ≤ r)
      ∧ (r = 0 ∨ ∃ k, k < values.length ∧ r = values.getD k 0) := by
  have hmul : (i + 1) * sizeofrange = i * sizeofrange + sizeofrange := Nat.succ_mul i sizeofrange
  obtain ⟨r, hr, _, h2, h3⟩ :=
    scanMax_spec values (min values.length ((i + 1) * sizeofrange) - i * sizeofrange)
      (i * sizeofrange) 0 (by omega)
  refine ⟨r, hr, fun k hk1 hk2 => h2 k hk1 (by omega), ?_⟩
  rcases h3 with h3 | ⟨k, hk1, hk2, hk3⟩
  · exact Or.inl h3
  · exact Or.inr ⟨k, by omega, hk3⟩

theorem runWorkers_spec (values : List Nat) (sizeofrange : Nat) (workers : List Nat) :
    ∃ rs, runWorkers values sizeofrange workers = .ok rs
      ∧ (∀ i ∈ workers, ∃ r ∈ rs, ∀ k, i * sizeofrange ≤ k →
          k < min values.length ((i + 1) * sizeofrange) → values.getD k 0 ≤ r)
      ∧ (∀ r ∈ rs, r = 0 ∨ ∃ k, k < values.length ∧ r = values.getD k 0) := by
  induction workers with
  | nil => exact ⟨[], rfl, by simp, by simp⟩
  | cons i rest ih =>
    obtain ⟨rs, hrs, h1, h2⟩ := ih
    obtain ⟨r, hr, h3, h4⟩ := maxWorker_spec values sizeofrange i
    refine ⟨r :: rs, by simp [runWorkers, hr, hrs], ?_, ?_⟩
    · intro w hw
      rcases List.mem_cons.mp hw with rfl | hw
      · exact ⟨r, List.mem_cons_self _ _, h3⟩
      · obtain ⟨x, hx, hx2⟩ := h1 w hw
        exact ⟨x, List.mem_cons_of_mem _ hx, hx2⟩
    · intro x hx
      rcases List.mem_cons.mp hx with rfl | hx
      · exact h4
      · exact h2 x hx

theorem foldl_max_spec (results : List Nat) : ∀ (init : Nat),
    init ≤ results.foldl (fun result val => if val > result then val else result) init
      ∧ (∀ r ∈ results,
          r ≤ results.foldl (fun result val => if val > result then val else result) init)
      ∧ (results.foldl (fun result val => if val > result then val else result) init = init
          ∨ results.foldl (fun result val => if val > result then val else result) init
              ∈ results) := by
  induction results with
  | nil => intro init; simp
  | cons a l ih =>
    intro init
    simp only [List.foldl_cons]
    by_cases hgt : a > init
    · simp only [if_pos hgt]
      obtain ⟨h1, h2, h3⟩ := ih a
      refine ⟨by omega, ?_, ?_⟩
      · intro r hr
        rcases List.mem_cons.mp hr with rfl | hr
        · exact h1
        · exact h2 r hr
      · rcases h3 with h3 | h3
        · exact Or.inr (by rw [h3]; exact List.mem_cons_self _ _)
        · exact Or.inr (List.mem_cons_of_mem _ h3)
    · simp only [if_neg hgt]
      obtain ⟨h1, h2, h3⟩ := ih init
      refine ⟨h1, ?_, ?_⟩
      · intro r hr
        rcases List.mem_cons.mp hr with rfl | hr
        · omega
        · exact h2 r hr
      · rcases h3 with h3 | h3
        · exact Or.inl h3
        · exact Or.inr (List.mem_cons_of_mem _ h3)

/-- C29. `Max` of `Vector_Map_Reduce.cpp` returns the maximum: for every vector
and every worker count `numberofworkers ≥ 1`, every index below the size lies
in the range `[i*sizeofrange, min(size, (i+1)*sizeofrange))` of exactly one
worker `i < numberofworkers`, and `Max` returns a value that is at least every
element, is an element of the vector when the vector is not empty, and is `0`
when it is empty. -/
theorem max_returns_maximum (values : List Nat) (numberofworkers : Nat)
    (hworkers : 1 ≤ numberofworkers) :
    (∀ k, k < values.length → ∃ i, i < numberofworkers
        ∧ (i * ((values.length + (numberofworkers - 1)) / numberofworkers) ≤ k
          ∧ k < min values.length
                ((i + 1) * ((values.length + (numberofworkers - 1)) / numberofworkers)))
        ∧ ∀ i2, (i2 * ((values.length + (numberofworkers - 1)) / numberofworkers) ≤ k
          ∧ k < min values.length
                ((i2 + 1) * ((values.length + (numberofworkers - 1)) / numberofworkers))) →
          i2 = i)
    ∧ ∃ r, VectorMapReduce.Max values numberofworkers = .ok r
        ∧ (∀ x ∈ values, x ≤ r) ∧ (values ≠ [] → r ∈ values) ∧ (values = [] → r = 0) := by
  have hcover : ∀ k, k < values.length → ∃ i, i < numberofworkers
        ∧ (i * ((values.length + (numberofworkers - 1)) / numberofworkers) ≤ k
          ∧ k < min values.length
                ((i + 1) * ((values.length + (numberofworkers - 1)) / numberofworkers)))
        ∧ ∀ i2, (i2 * ((values.length + (numberofworkers - 1)) / numberofworkers) ≤ k
          ∧ k < min values.length
                ((i2 + 1) * ((values.length + (numberofworkers - 1)) / numberofworkers))) →
          i2 = i := by
    intro k hk
    generalize hsr : (values.length + (numberofworkers - 1)) / numberofworkers = sr
    have hbig : values.length ≤ numberofworkers * sr := by
      rw [← hsr]
      have := Nat.lt_mul_div_succ (values.length + (numberofworkers - 1))
        (show 0 < numberofworkers by omega)
      rw [Nat.mul_add, Nat.mul_one] at this
      omega
    have hpos : 0 < sr := by
      rcases Nat.eq_zero_or_pos sr with h | h
      · rw [h] at hbig
        omega
      · exact h
    refine ⟨k / sr, ?_, ⟨?_, ?_⟩, ?_⟩
    · rw [Nat.div_lt_iff_lt_mul hpos]
      omega
    · exact Nat.div_mul_le_self k sr
    · have := Nat.lt_mul_div_succ k hpos
      rw [Nat.lt_min]
      exact ⟨hk, by rw [Nat.mul_comm]; exact this⟩
    · intro i2 ⟨h1, h2⟩
      rw [Nat.lt_min] at h2
      exact (Nat.div_eq_of_lt_le h1 h2.2).symm
  refine ⟨hcover, ?_⟩
  obtain ⟨rs, hrs, h1, h2⟩ :=
    runWorkers_spec values ((values.length + (numberofworkers - 1)) / numberofworkers)
      (List.range numberofworkers)
  obtain ⟨_, h4, h5⟩ := foldl_max_spec rs 0
  have hle : ∀ k, k < values.length → values.getD k 0 ≤ reduceMax rs := by
    intro k hk
    obtain ⟨i, hi, hin, _⟩ := hcover k hk
    obtain ⟨r, hr, hr2⟩ := h1 i (List.mem_range.mpr hi)
    exact le_trans (hr2 k hin.1 hin.2) (h4 r hr)
  have hget : ∀ k, k < values.length → values.getD k 0 ∈ values := by
    intro k hk
    simp only [List.getD_eq_getElem?_getD, List.getElem?_eq_getElem hk, Option.getD_some]
    exact List.getElem_mem hk
  refine ⟨reduceMax rs, by simp [VectorMapReduce.Max, hrs], ?_, ?_, ?_⟩
  · intro x hx
    obtain ⟨k, hk, rfl⟩ := List.getElem_of_mem hx
    have := hle k hk
    simpa [List.getD_eq_getElem?_getD, List.getElem?_eq_getElem hk] using this
  · intro hne
    have hlen : 0 < values.length := List.length_pos.mpr hne
    have hzero : reduceMax rs = 0 → reduceMax rs ∈ values := by
      intro h0
      have := hle 0 hlen
      rw [h0] at this ⊢
      have h00 : values.getD 0 0 = 0 := by omega
      rw [← h00]
      exact hget 0 hlen
    rcases h5 with h5 | h5
    · exact hzero h5
    · rcases h2 _ h5 with h6 | ⟨k, hk, h6⟩
      · exact hzero h6
      · show reduceMax rs ∈ values
        unfold reduceMax
        rw [h6]
        exact hget k hk
  · intro hnil
    subst hnil
    rcases h5 with h5 | h5
    · exact h5
    · rcases h2 _ h5 with h6 | ⟨k, hk, _⟩
      · exact h6
      · simp at hk

theorem max_returns_maximum_witness :
    1 ≤ 2
    ∧ ((∀ k, k < ([3, 9, 2, 7, 5] : List Nat).length → ∃ i, i < 2
          ∧ (i * ((([3, 9, 2, 7, 5] : List Nat).length + (2 - 1)) / 2) ≤ k
            ∧ k < min ([3, 9, 2, 7, 5] : List Nat).length
                  ((i + 1) * ((([3, 9, 2, 7, 5] : List Nat).length + (2 - 1)) / 2)))
          ∧ ∀ i2, (i2 * ((([3, 9, 2, 7, 5] : List Nat).length + (2 - 1)) / 2) ≤ k
            ∧ k < min ([3, 9, 2, 7, 5] : List Nat).length
                  ((i2 + 1) * ((([3, 9, 2, 7, 5] : List Nat).length + (2 - 1)) / 2))) →
            i2 = i)
      ∧ ∃ r, VectorMapReduce.Max [3, 9, 2, 7, 5] 2 = .ok r
          ∧ (∀ x ∈ ([3, 9, 2, 7, 5] : List Nat), x ≤ r)
          ∧ (([3, 9, 2, 7, 5] : List Nat) ≠ [] → r ∈ ([3, 9, 2, 7, 5] : List Nat))
          ∧ (([3, 9, 2, 7, 5] : List Nat) = [] → r = 0)) :=
  ⟨by decide, max_returns_maximum [3, 9, 2, 7, 5] 2 (by decide)⟩

/-- C30 (the code departs from the claim). `Max` of `hw0.cpp` computes the chunk
size as `std::ceil(vec_size/threads_num)` with an integer division, so the chunk
size is rounded down and the chunks end at `threads_num * range`: for the
vector `1, 2, 3, 4, 9` and two threads the chunks are `[0, 2)` and `[2, 4)`,
index `4` is in no chunk, and `Max` returns `4` although `9` is in the vector;
for one value and two threads the chunks are empty and `Max` returns `0`. -/
theorem hw0_max_misses_tail :
    Hw0.Max [1, 2, 3, 4, 9] 2 = .ok 4
    ∧ (9 : Nat) ∈ ([1, 2, 3, 4, 9] : List Nat)
    ∧ (∀ i, i < 2 → ¬ (i * (5 / 2) ≤ 4 ∧ 4 < min ((i + 1) * (5 / 2)) 5))
    ∧ Hw0.Max [7] 2 = .ok 0
    ∧ VectorMapReduce.Max [1, 2, 3, 4, 9] 2 = .ok 9 := by
  refine ⟨rfl, by decide, by decide, rfl, rfl⟩

/-! ### Which accesses are made under the mutex -/

theorem guarded_waitRounds (waits : Nat) (rest : List Action) :
    guarded true (waitRounds waits ++ rest) = guarded true rest := by
  induction waits with
  | zero => rfl
  | succ n ih => simp [waitRounds, guarded, ih]

/-- The consumer owns `m` exactly between its lock (or its wakeup) and its
release: every turn keeps this, the turns of `Close` by not touching `m`. -/
theorem WaitState.step_owner (s s' : WaitState) (t : WaitThread) (hstep : s.step t = some s')
    (h : s.mutexOwned = true
      ↔ (s.consumer = .testing ∨ s.consumer = .goingToWait ∨ s.consumer = .leaving)) :
    s'.mutexOwned = true
      ↔ (s'.consumer = .testing ∨ s'.consumer = .goingToWait ∨ s'.consumer = .leaving) := by
  obtain ⟨q, owned, value, consumer, closer⟩ := s
  cases t with
  | consumer =>
    cases consumer with
    | entering =>
      cases owned <;> simp [WaitState.step] at hstep
      subst hstep
      simp
    | testing =>
      simp only [WaitState.step] at hstep
      have ho : owned = true := h.mpr (Or.inl rfl)
      subst ho
      split at hstep <;> simp at hstep <;> subst hstep <;> simp
    | goingToWait =>
      simp [WaitState.step] at hstep
      subst hstep
      simp
    | blocked => simp [WaitState.step] at hstep
    | notified =>
      cases owned <;> simp [WaitState.step] at hstep
      subst hstep
      simp
    | leaving =>
      simp only [WaitState.step] at hstep
      cases hdq : q.dq_ with
      | nil =>
        simp [hdq] at hstep
        subst hstep
        simp
      | cons front rest =>
        simp [hdq] at hstep
        subst hstep
        simp
    | returned r => simp [WaitState.step] at hstep
  | closer =>
    cases closer with
    | storing =>
      simp [WaitState.step] at hstep
      subst hstep
      exact h
    | notifying =>
      simp only [WaitState.step, Option.some.injEq] at hstep
      subst hstep
      cases consumer <;> simp at h ⊢ <;> exact h
    | done => simp [WaitState.step] at hstep

theorem WaitState.run_owner (schedule : List WaitThread) : ∀ (s s' : WaitState),
    s.run schedule = some s' →
    (s.mutexOwned = true
      ↔ (s.consumer = .testing ∨ s.consumer = .goingToWait ∨ s.consumer = .leaving)) →
    (s'.mutexOwned = true
      ↔ (s'.consumer = .testing ∨ s'.consumer = .goingToWait ∨ s'.consumer = .leaving)) := by
  induction schedule with
  | nil =>
    intro s s' hrun h
    simp [WaitState.run] at hrun
    subst hrun
    exact h
  | cons t schedule ih =>
    intro s s' hrun h
    simp only [WaitState.run] at hrun
    cases hstep : s.step t with
    | none => simp [hstep] at hrun
    | some s1 =>
      simp only [hstep] at hrun
      exact ih s1 s' hrun (WaitState.step_owner s s1 t hstep h)

/-- C23 (the code departs from the claim). `Close` writes `closed` without
holding `m`.  In the statement-level execution the consumer locks `m` and
`Close` then stores `closed` while the consumer owns `m`; in every state the
store of `Close` goes through and leaves the mutex as it is, whereas a thread
that has to lock `m` cannot move while `m` is owned.  The sibling accesses keep
the discipline: in every reachable state in which the consumer is about to read
`dq_` or `closed` it owns `m`, and the sequences of actions of `Enqueue` (both
files) and of `WaitandDequeue` (every path) make all their accesses under `m`,
while the sequence of `Close` writes `closed` and contains no lock. -/
theorem close_writes_without_mutex :
    (WaitState.init []).run [.consumer, .closer]
        = some { q := { dq_ := [], closed := true }, mutexOwned := true, value := default,
                 consumer := .testing, closer := .notifying }
    ∧ (∀ s : WaitState, s.closer = .storing →
        s.step .closer = some { s with q := s.q.Close, closer := .notifying })
    ∧ (∀ s : WaitState, s.mutexOwned = true → s.consumer = .entering →
        s.step .consumer = none)
    ∧ (∀ (dq : List Event) (schedule : List WaitThread) (s : WaitState),
        (WaitState.init dq).run schedule = some s →
        (s.consumer = .testing ∨ s.consumer = .leaving) → s.mutexOwned = true)
    ∧ guarded false CloseActions = false
    ∧ Action.lock ∉ CloseActions
    ∧ Action.writeClosed ∈ CloseActions
    ∧ guarded false EnqueueActions = true
    ∧ guarded false notesEnqueueActions = true
    ∧ (∀ waits found, guarded false (WaitandDequeueActions waits found) = true) := by
  refine ⟨by decide, ?_, ?_, ?_, by decide, by decide, by decide, by decide, by decide, ?_⟩
  · intro s h
    simp [WaitState.step, h]
  · intro s h1 h2
    simp [WaitState.step, h1, h2]
  · intro dq schedule s hrun h
    have hinv := WaitState.run_owner schedule _ s hrun (by simp [WaitState.init])
    rcases h with h | h
    · exact hinv.mpr (Or.inl h)
    · exact hinv.mpr (Or.inr (Or.inr h))
  · intro waits found
    cases found <;>
      simp [WaitandDequeueActions, List.append_assoc, guarded, guarded_waitRounds]

/-! ### Exceptions in the worker thread -/

/-- When `Jobs.Enqueue` never throws, `quick_sort` with exceptions is
`quick_sort`. -/
theorem quick_sort_unwinding_granted (grants : Shared → Bool) (hg : ∀ s, grants s = true)
    (fuel : Nat) : ∀ (s : Shared) (start end_ : Nat),
    quick_sort_unwinding grants fuel s start end_
      = (quick_sort fuel s start end_).map fun s1 => (s1, Ending.returned) := by
  induction fuel with
  | zero => intro s start end_; rfl
  | succ fuel ih =>
    intro s start end_
    simp only [quick_sort_unwinding, quick_sort]
    by_cases heq : start = end_
    · simp only [if_pos heq]
      rfl
    · simp only [if_neg heq]
      cases partitionPass s.arr start end_ with
      | error e => rfl
      | ok p =>
        obtain ⟨arr, mid⟩ := p
        simp only
        by_cases hbig : mid - start > 10
        · simp only [if_pos hbig, Shared.enqueueOrThrow, hg, if_true]
          exact ih _ _ _
        · simp only [if_neg hbig, ih]
          cases quick_sort fuel { s with arr := arr } start mid with
          | error e => rfl
          | ok s1 => simp only [Except.map]

theorem workerIteration_unwinding_granted (grants : Shared → Bool)
    (hg : ∀ s, grants s = true) (s : Shared) (event : Event) :
    workerIteration_unwinding grants s event
      = (workerIteration s event).map
          (Option.map fun r => (r.1, r.2, Ending.returned)) := by
  simp only [workerIteration_unwinding, workerIteration, quick_sort_unwinding_granted grants hg]
  cases s.Jobs.WaitandDequeue event with
  | none => rfl
  | some r =>
    obtain ⟨b, job, rest⟩ := r
    cases b with
    | false => rfl
    | true =>
      simp only
      cases quick_sort (job.«to» - job.«from» + 1)
          { s with Jobs := rest, log := s.log ++ [.dequeue job] } job.«from» job.«to» with
      | error e => rfl
      | ok s1 => rfl

theorem decrement_not_mem_handovers (new : List Event) : Effect.decrement ∉ handovers new := by
  induction new with
  | nil => simp [handovers]
  | cons job rest ih => simp [handovers, ih]

/-- On a range inside the vector `quick_sort` with exceptions ends, by returning
or by an exception; in both cases its effects are the handovers of the jobs it
has enqueued, so `ct` has gone up by their number and has not gone down. -/
theorem quick_sort_unwinding_spec (grants : Shared → Bool) (fuel : Nat) :
    ∀ (s : Shared) (start end_ : Nat),
    start ≤ end_ → end_ ≤ s.arr.length → end_ - start < fuel →
    ∃ S ending new, quick_sort_unwinding grants fuel s start end_ = .ok (S, ending)
      ∧ S.arr.length = s.arr.length
      ∧ S.Jobs = { dq_ := s.Jobs.dq_ ++ new, closed := s.Jobs.closed }
      ∧ S.ct = s.ct + new.length
      ∧ S.log = s.log ++ handovers new := by
  induction fuel with
  | zero => intro s start end_ _ _ h; omega
  | succ fuel ih =>
    intro s start end_ hse hend hfuel
    by_cases heq : start = end_
    · refine ⟨s, .returned, [], ?_, rfl, ?_, ?_, ?_⟩
      · simp only [quick_sort_unwinding, if_pos heq]
      · simp
      · simp
      · simp [handovers]
    · obtain ⟨arr1, mid, hpp, hm1, hm2, hre, _⟩ :=
        partitionPass_spec s.arr start end_ (by omega) hend
      have hlen1 : arr1.length = s.arr.length := hre.1
      by_cases hbig : mid - start > 10
      · by_cases hgr : grants { s with arr := arr1 } = true
        · obtain ⟨S, ending, new, hrun, h1, h2, h3, h4⟩ :=
            ih (({ s with arr := arr1 }.enqueue ⟨start, mid⟩).increment) (mid + 1) end_
              (by omega) (by simp only [Shared.enqueue, Shared.increment]; omega) (by omega)
          refine ⟨S, ending, ⟨start, mid⟩ :: new, ?_, ?_, ?_, ?_, ?_⟩
          · simp only [quick_sort_unwinding, if_neg heq, hpp, if_pos hbig,
              Shared.enqueueOrThrow, hgr, if_true]
            exact hrun
          · rw [h1]
            simp only [Shared.enqueue, Shared.increment]
            exact hlen1
          · rw [h2]
            simp [Shared.enqueue, Shared.increment, Queue.Enqueue]
          · rw [h3]
            simp only [Shared.enqueue, Shared.increment, List.length_cons]
            push_cast
            omega
          · rw [h4]
            simp [Shared.enqueue, Shared.increment, handovers]
        · refine ⟨{ s with arr := arr1 }, .threw, [], ?_, hlen1, ?_, ?_, ?_⟩
          · simp only [quick_sort_unwinding, if_neg heq, hpp, if_pos hbig,
              Shared.enqueueOrThrow, hgr]
            rfl
          · simp
          · simp
          · simp [handovers]
      · obtain ⟨S1, e1, new1, hrun1, h1, h2, h3, h4⟩ :=
          ih { s with arr := arr1 } start mid hm1 (by simp only; omega) (by omega)
        cases e1 with
        | threw =>
          refine ⟨S1, .threw, new1, ?_, by rw [h1]; exact hlen1, h2, h3, h4⟩
          simp only [quick_sort_unwinding, if_neg heq, hpp, if_neg hbig, hrun1]
        | returned =>
          obtain ⟨S2, e2, new2, hrun2, k1, k2, k3, k4⟩ :=
            ih S1 (mid + 1) end_ (by omega) (by rw [h1]; simp only; omega) (by omega)
          refine ⟨S2, e2, new1 ++ new2, ?_, ?_, ?_, ?_, ?_⟩
          · simp only [quick_sort_unwinding, if_neg heq, hpp, if_neg hbig, hrun1]
            exact hrun2
          · rw [k1, h1]
            exact hlen1
          · rw [k2, h2]
            simp
          · rw [k3, h3]
            simp only [List.length_append]
            push_cast
            omega
          · rw [k4, h4, handovers_append]
            simp

/-- C19 (counterexample). When `quick_sort` ends abnormally the worker makes no
decrement.  On `main`'s kind of input `12, 11, ..., 1` with the seed job
`{0, 12}` the first pass gives `mid = 11`, and when the `Jobs.Enqueue({0, 11})`
that follows throws, the exception leaves `quick_sort` and the lambda of the
worker: the iteration ends in the exception with `ct = 1`, the queue empty and
no decrement among its effects, so `ct` has not reached `0`.  When the `Enqueue`
does not throw, the same iteration returns and ends with its decrement. -/
theorem enqueue_throws_without_decrement :
    workerIteration_unwinding (fun _ => false)
        (seed [12, 11, 10, 9, 8, 7, 6, 5, 4, 3, 2, 1]) default
      = .ok (some ({ arr := [1, 11, 10, 9, 8, 7, 6, 5, 4, 3, 2, 12],
                     Jobs := { dq_ := [], closed := false }, ct := 1,
                     log := [.enqueue ⟨0, 12⟩, .increment, .dequeue ⟨0, 12⟩] },
                   ⟨0, 12⟩, .threw))
    ∧ Effect.decrement ∉ [Effect.enqueue ⟨0, 12⟩, .increment, .dequeue ⟨0, 12⟩]
    ∧ (1 : Int) ≠ 0
    ∧ workerIteration_unwinding (fun _ => true)
        (seed [12, 11, 10, 9, 8, 7, 6, 5, 4, 3, 2, 1]) default
      = .ok (some ({ arr := [1, 11, 10, 9, 8, 7, 6, 5, 4, 3, 2, 12],
                     Jobs := { dq_ := [⟨0, 11⟩], closed := false }, ct := 1,
                     log := [.enqueue ⟨0, 12⟩, .increment, .dequeue ⟨0, 12⟩,
                             .enqueue ⟨0, 11⟩, .increment, .decrement] },
                   ⟨0, 12⟩, .returned)) := by
  refine ⟨rfl, by decide, by decide, rfl⟩

/-- C19 (amended). The worker loop decrements `ct` exactly once per dequeued job
when `quick_sort` returns, as the last effect of the iteration; when
`quick_sort` ends by an exception of `Jobs.Enqueue`, the iteration ends with the
exception and makes no decrement.  For every dequeued job with a range inside
the vector and every behaviour of `Enqueue`, the iteration ends in one of the
two ways, having enqueued the jobs `new`: when it returns its effects are the
dequeue, the handovers of `new` and one decrement, and `ct` has changed by
`|new| - 1`; when it ends by the exception its effects are the dequeue and the
handovers of `new`, without a decrement, and `ct` has changed by `|new|`.  It
returns when `Enqueue` never throws. -/
theorem decrement_skipped_on_exception (grants : Shared → Bool) (s : Shared)
    (event job : Event) (rest : List Event) (hq : s.Jobs.dq_ = job :: rest)
    (hjob : job.«from» ≤ job.«to» ∧ job.«to» ≤ s.arr.length) :
    ∃ S ending new,
      workerIteration_unwinding grants s event = .ok (some (S, job, ending))
      ∧ S.Jobs.dq_ = rest ++ new
      ∧ Effect.decrement ∉ handovers new
      ∧ (ending = .returned →
          S.log = s.log ++ [.dequeue job] ++ handovers new ++ [.decrement]
          ∧ S.ct = s.ct + new.length - 1)
      ∧ (ending = .threw →
          S.log = s.log ++ [.dequeue job] ++ handovers new
          ∧ S.ct = s.ct + new.length)
      ∧ ((∀ t, grants t = true) → ending = .returned) := by
  obtain ⟨arr, ⟨dq, c⟩, ct, log⟩ := s
  simp only at hq hjob
  subst hq
  obtain ⟨S1, ending, new, hrun, _, h2, h3, h4⟩ :=
    quick_sort_unwinding_spec grants (job.«to» - job.«from» + 1)
      { arr := arr, Jobs := { dq_ := rest, closed := c }, ct := ct,
        log := log ++ [.dequeue job] } job.«from» job.«to» hjob.1 hjob.2 (by omega)
  simp only at h2 h3 h4
  have hgranted : (∀ t, grants t = true) → ending = .returned := by
    intro hg
    have h := quick_sort_unwinding_granted grants hg (job.«to» - job.«from» + 1)
      { arr := arr, Jobs := { dq_ := rest, closed := c }, ct := ct,
        log := log ++ [.dequeue job] } job.«from» job.«to»
    rw [hrun] at h
    obtain ⟨a, _, ha⟩ := map_eq_ok _ _ _ h.symm
    simp only [Prod.mk.injEq] at ha
    exact ha.2.symm
  cases ending with
  | returned =>
    refine ⟨S1.decrement, .returned, new, ?_, ?_, decrement_not_mem_handovers new, ?_, ?_,
      hgranted⟩
    · simp [workerIteration_unwinding, WaitandDequeue_cons, hrun]
    · simp [Shared.decrement, h2]
    · intro _
      simp [Shared.decrement, h3, h4]
    · intro h
      cases h
  | threw =>
    refine ⟨S1, .threw, new, ?_, ?_, decrement_not_mem_handovers new, ?_, ?_, hgranted⟩
    · simp [workerIteration_unwinding, WaitandDequeue_cons, hrun]
    · simp [h2]
    · intro h
      cases h
    · intro _
      exact ⟨h4, h3⟩

theorem decrement_skipped_on_exception_witness :
    (seed [12, 11, 10, 9, 8, 7, 6, 5, 4, 3, 2, 1]).Jobs.dq_ = [⟨0, 12⟩]
    ∧ (0 ≤ 12 ∧ 12 ≤ (seed [12, 11, 10, 9, 8, 7, 6, 5, 4, 3, 2, 1]).arr.length)
    ∧ ∃ S ending new,
      workerIteration_unwinding (fun _ => false)
          (seed [12, 11, 10, 9, 8, 7, 6, 5, 4, 3, 2, 1]) default
        = .ok (some (S, ⟨0, 12⟩, ending))
      ∧ S.Jobs.dq_ = [] ++ new
      ∧ Effect.decrement ∉ handovers new
      ∧ (ending = .returned →
          S.log = (seed [12, 11, 10, 9, 8, 7, 6, 5, 4, 3, 2, 1]).log ++ [.dequeue ⟨0, 12⟩]
              ++ handovers new ++ [.decrement]
          ∧ S.ct = (seed [12, 11, 10, 9, 8, 7, 6, 5, 4, 3, 2, 1]).ct + new.length - 1)
      ∧ (ending = .threw →
          S.log = (seed [12, 11, 10, 9, 8, 7, 6, 5, 4, 3, 2, 1]).log ++ [.dequeue ⟨0, 12⟩]
              ++ handovers new
          ∧ S.ct = (seed [12, 11, 10, 9, 8, 7, 6, 5, 4, 3, 2, 1]).ct + new.length)
      ∧ ((∀ t : Shared, (fun _ => false) t = true) → ending = .returned) :=
  ⟨rfl, by decide,
    decrement_skipped_on_exception (fun _ => false)
      (seed [12, 11, 10, 9, 8, 7, 6, 5, 4, 3, 2, 1]) default ⟨0, 12⟩ [] rfl (by decide)⟩

/-! ### Ranges in the interleaved execution -/

theorem holds_nonneg (k : Nat) (r : Nat × Nat) : 0 ≤ holds k r := by
  unfold holds
  split <;> omega

theorem sum_holds_nonneg (k : Nat) (l : List (Nat × Nat)) : 0 ≤ (l.map (holds k)).sum := by
  induction l with
  | nil => simp
  | cons a l ih =>
    simp only [List.map_cons, List.sum_cons]
    have := holds_nonneg k a
    omega

theorem claims_nonneg (k : Nat) (w : Worker) : 0 ≤ w.claims k :=
  sum_holds_nonneg k w.stack

theorem sum_nonneg_of_nonneg {α : Type} (f : α → Int) (hf : ∀ a, 0 ≤ f a) (l : List α) :
    0 ≤ (l.map f).sum := by
  induction l with
  | nil => simp
  | cons a l ih =>
    simp only [List.map_cons, List.sum_cons]
    have := hf a
    omega

theorem le_sum_of_mem {α : Type} (f : α → Int) (hf : ∀ a, 0 ≤ f a) (l : List α) (x : α)
    (hx : x ∈ l) : f x ≤ (l.map f).sum := by
  induction l with
  | nil => simp at hx
  | cons a l ih =>
    simp only [List.map_cons, List.sum_cons]
    rcases List.mem_cons.mp hx with rfl | h
    · have := sum_nonneg_of_nonneg f hf l
      omega
    · have := ih h
      have := hf a
      omega

theorem mem_set_of_ne {α : Type} (l : List α) (i : Nat) (old new w : α)
    (hi : l[i]? = some old) (hw : w ∈ l) (hne : w ≠ old) : w ∈ l.set i new := by
  obtain ⟨p, hp⟩ := List.mem_iff_getElem?.mp hw
  have hpi : i ≠ p := by
    intro h
    subst h
    rw [hi] at hp
    exact hne (Option.some.inj hp).symm
  exact List.mem_iff_getElem?.mpr ⟨p, by rw [List.getElem?_set_ne hpi]; exact hp⟩

theorem mem_set_self {α : Type} (l : List α) (i : Nat) (old new : α) (hi : l[i]? = some old) :
    new ∈ l.set i new := by
  have hlt : i < l.length := by
    rcases Nat.lt_or_ge i l.length with h | h
    · exact h
    · rw [List.getElem?_eq_none h] at hi
      cases hi
  exact List.mem_iff_getElem?.mpr ⟨i, by simp [List.getElem?_set, hlt]⟩

theorem mem_of_getElem_some {α : Type} (l : List α) (i : Nat) (a : α) (hi : l[i]? = some a) :
    a ∈ l :=
  List.mem_iff_getElem?.mpr ⟨i, hi⟩

/-- When a range on top of a worker's stack contains `k` and another pending
range contains `k` too, `k` is covered twice. -/
theorem cover_two (s : System) (i k : Nat) (w0 : Worker) (top : Nat × Nat)
    (rest : List (Nat × Nat)) (hw : s.workers[i]? = some w0) (hstack : w0.stack = top :: rest)
    (htop : top.1 ≤ k ∧ k < top.2) (r : Nat × Nat) (hr : r.1 ≤ k ∧ k < r.2) (hne : r ≠ top)
    (hpending : (∃ job ∈ s.Jobs.dq_, (job.«from», job.«to») = r)
      ∨ ∃ w ∈ s.workers, r ∈ w.stack) : 2 ≤ s.cover k := by
  have hq := sum_nonneg_of_nonneg (fun job : Event => holds k (job.«from», job.«to»))
    (fun job => holds_nonneg k _) s.Jobs.dq_
  have hsplit := sum_map_set (Worker.claims k) s.workers i w0 Worker.exited hw
  have hexit : Worker.exited.claims k = 0 := rfl
  have hothers := sum_nonneg_of_nonneg (Worker.claims k) (claims_nonneg k)
    (s.workers.set i Worker.exited)
  have hrest := sum_holds_nonneg k rest
  have htop1 : holds k top = 1 := by simp [holds, htop]
  have hr1 : holds k r = 1 := by simp [holds, hr]
  have hw0 : w0.claims k = 1 + (rest.map (holds k)).sum := by
    simp [Worker.claims, hstack, htop1]
  unfold System.cover
  rcases hpending with ⟨job, hjob, rfl⟩ | ⟨w, hwmem, hrw⟩
  · have := le_sum_of_mem (fun job : Event => holds k (job.«from», job.«to»))
      (fun job => holds_nonneg k _) s.Jobs.dq_ job hjob
    simp only at this
    omega
  · by_cases hww : w = w0
    · subst hww
      rw [hstack] at hrw
      rcases List.mem_cons.mp hrw with h | h
      · exact absurd h hne
      · have := le_sum_of_mem (holds k) (holds_nonneg k) rest r h
        omega
    · have hmem := mem_set_of_ne s.workers i w0 Worker.exited w hw hwmem hww
      have h1 := le_sum_of_mem (Worker.claims k) (claims_nonneg k) _ w hmem
      have h2 := le_sum_of_mem (holds k) (holds_nonneg k) w.stack r hrw
      have h3 : w.claims k = (w.stack.map (holds k)).sum := rfl
      omega

theorem System.Pending.transfer (s s' : System) (i : Nat) (old new : Worker) (a b : Nat)
    (hw : s.workers[i]? = some old) (hws : s'.workers = s.workers.set i new)
    (hq : ∀ job ∈ s.Jobs.dq_, job.«from» ≤ a → b < job.«to» → s'.Pending a b)
    (hold : ∀ r ∈ old.stack, r.1 ≤ a → b < r.2 → s'.Pending a b)
    (h : s.Pending a b) : s'.Pending a b := by
  rcases h with ⟨job, hjob, h1, h2⟩ | ⟨w, hwmem, r, hr, h1, h2⟩
  · exact hq job hjob h1 h2
  · by_cases hww : w = old
    · subst hww
      exact hold r hr h1 h2
    · exact Or.inr ⟨w, by rw [hws]; exact mem_set_of_ne _ i old new w hw hwmem hww, r, hr, h1, h2⟩

/-- The parts of the invariant that every turn of a worker re-establishes in the
same way: only the worker's own stack and the queue change. -/
theorem System.Inv.update (vec : List Int) (s s' : System) (i : Nat) (old new : Worker)
    (hw : s.workers[i]? = some old) (hws : s'.workers = s.workers.set i new)
    (hJ : s.Inv vec)
    (hlen : s'.arr.length = vec.length) (hperm : s'.arr.Perm vec)
    (hcover : ∀ k, (s'.Jobs.dq_.map fun job => holds k (job.«from», job.«to»)).sum
        + new.claims k
      ≤ (s.Jobs.dq_.map fun job => holds k (job.«from», job.«to»)).sum + old.claims k)
    (hq : ∀ job ∈ s'.Jobs.dq_, job.«from» ≤ job.«to» ∧ job.«to» ≤ vec.length)
    (hnew : ∀ r ∈ new.stack, r.1 ≤ r.2 ∧ r.2 ≤ vec.length)
    (hsorted : ∀ a b, a < b → b < vec.length →
      s'.arr.getD a 0 ≤ s'.arr.getD b 0 ∨ s'.Pending a b) : s'.Inv vec := by
  obtain ⟨_, _, hc, _, hst, _⟩ := hJ
  refine ⟨hlen, hperm, ?_, hq, ?_, hsorted⟩
  · intro k
    have h1 := hc k
    have h2 := hcover k
    have h3 := sum_map_set (Worker.claims k) s.workers i old new hw
    unfold System.cover at h1 ⊢
    rw [hws, h3]
    omega
  · intro w hwmem r hr
    rw [hws] at hwmem
    rcases List.mem_or_eq_of_mem_set hwmem with h | h
    · exact hst w h r hr
    · subst h
      exact hnew r hr

/-- A turn that leaves the vector as it is keeps the invariant when every range
that was pending is still pending. -/
theorem System.Inv.update_same (vec : List Int) (s s' : System) (i : Nat) (old new : Worker)
    (hw : s.workers[i]? = some old) (hws : s'.workers = s.workers.set i new)
    (hJ : s.Inv vec) (harr : s'.arr = s.arr)
    (hcover : ∀ k, (s'.Jobs.dq_.map fun job => holds k (job.«from», job.«to»)).sum
        + new.claims k
      ≤ (s.Jobs.dq_.map fun job => holds k (job.«from», job.«to»)).sum + old.claims k)
    (hq : ∀ job ∈ s'.Jobs.dq_, job.«from» ≤ job.«to» ∧ job.«to» ≤ vec.length)
    (hnew : ∀ r ∈ new.stack, r.1 ≤ r.2 ∧ r.2 ≤ vec.length)
    (hqp : ∀ job ∈ s.Jobs.dq_, ∀ a b, a < b → job.«from» ≤ a → b < job.«to» → s'.Pending a b)
    (holdp : ∀ r ∈ old.stack, ∀ a b, a < b → r.1 ≤ a → b < r.2 → s'.Pending a b) :
    s'.Inv vec := by
  have hJ0 := hJ
  obtain ⟨h1, h2, _, _, _, h6⟩ := hJ
  refine System.Inv.update vec s s' i old new hw hws hJ0 (by rw [harr]; exact h1)
    (by rw [harr]; exact h2) hcover hq hnew ?_
  intro a b hab hb
  rcases h6 a b hab hb with h | h
  · left
    rw [harr]
    exact h
  · right
    exact System.Pending.transfer s s' i old new a b hw hws
      (fun job hjob h1 h2 => hqp job hjob a b hab h1 h2)
      (fun r hr h1 h2 => holdp r hr a b hab h1 h2) h

/-- After a partition pass of a worker the vector is in order except inside the
pending ranges, the two parts of the partitioned range among them. -/
theorem System.Inv.partition_sorted (vec : List Int) (s s' : System) (i : Nat) (event : Event)
    (start end_ : Nat) (stack : List (Nat × Nat)) (new : Worker) (arr' : List Int) (mid : Nat)
    (hw : s.workers[i]? = some (.sorting event ((start, end_) :: stack)))
    (hws : s'.workers = s.workers.set i new)
    (hJ : s.Inv vec) (hend : end_ ≤ vec.length)
    (hre : Rearranged s.arr arr' start end_)
    (hleft : ∀ k, start ≤ k → k < mid → arr'.getD k 0 < arr'.getD mid 0)
    (hright : ∀ k, mid < k → k < end_ → arr'.getD mid 0 ≤ arr'.getD k 0)
    (harr : s'.arr = arr')
    (hqueue : ∀ job ∈ s.Jobs.dq_, job ∈ s'.Jobs.dq_)
    (hstack : ∀ r ∈ stack, r ∈ new.stack)
    (hlo : ∀ a b, start ≤ a → b < mid → s'.Pending a b)
    (hhi : ∀ a b, mid + 1 ≤ a → b < end_ → s'.Pending a b) :
    ∀ a b, a < b → b < vec.length → s'.arr.getD a 0 ≤ s'.arr.getD b 0 ∨ s'.Pending a b := by
  intro a b hab hb
  rw [harr]
  obtain ⟨_, _, hc, _, _, hsorted⟩ := hJ
  have hnewmem : new ∈ s'.workers := by
    rw [hws]
    exact mem_set_self _ i _ new hw
  by_cases hboth : (start ≤ a ∧ a < end_) ∧ (start ≤ b ∧ b < end_)
  · obtain ⟨⟨ha1, ha2⟩, hb1, hb2⟩ := hboth
    by_cases hbm : b < mid
    · exact Or.inr (hlo a b ha1 hbm)
    · by_cases ham : mid < a
      · exact Or.inr (hhi a b (by omega) hb2)
      · left
        have h1 : arr'.getD a 0 ≤ arr'.getD mid 0 := by
          by_cases h : a = mid
          · rw [h]
          · exact le_of_lt (hleft a ha1 (by omega))
        have h2 : arr'.getD mid 0 ≤ arr'.getD b 0 := by
          by_cases h : b = mid
          · rw [h]
          · exact hright b (by omega) hb2
        exact le_trans h1 h2
  · have hsrc : ∀ k, ∃ k0, arr'.getD k 0 = s.arr.getD k0 0
        ∧ ((start ≤ k ∧ k < end_) → start ≤ k0 ∧ k0 < end_)
        ∧ (¬ (start ≤ k ∧ k < end_) → k0 = k) := by
      intro k
      by_cases hk : start ≤ k ∧ k < end_
      · obtain ⟨k0, h1, h2, h3⟩ := hre.2.2.2 k hk.1 hk.2
        exact ⟨k0, h3, fun _ => ⟨h1, h2⟩, fun h => absurd hk h⟩
      · exact ⟨k, hre.2.2.1 k (by omega), fun h => absurd h hk, fun _ => rfl⟩
    obtain ⟨a0, haeq, hain, haout⟩ := hsrc a
    obtain ⟨b0, hbeq, hbin, hbout⟩ := hsrc b
    have hab0 : a0 < b0 := by
      by_cases ha : start ≤ a ∧ a < end_
      · have hbn : ¬ (start ≤ b ∧ b < end_) := fun h => hboth ⟨ha, h⟩
        have := hain ha
        have := hbout hbn
        omega
      · have := haout ha
        by_cases hbP : start ≤ b ∧ b < end_
        · have := hbin hbP
          omega
        · have := hbout hbP
          omega
    have hb0 : b0 < vec.length := by
      by_cases hbP : start ≤ b ∧ b < end_
      · have := hbin hbP
        omega
      · have := hbout hbP
        omega
    rcases hsorted a0 b0 hab0 hb0 with h | h
    · left
      rw [haeq, hbeq]
      exact h
    · have hrange : ∃ r : Nat × Nat, r.1 ≤ a0 ∧ b0 < r.2
          ∧ ((∃ job ∈ s.Jobs.dq_, (job.«from», job.«to») = r) ∨ ∃ w ∈ s.workers, r ∈ w.stack) := by
        rcases h with ⟨job, hjob, h1, h2⟩ | ⟨w, hwmem, r, hr, h1, h2⟩
        · exact ⟨(job.«from», job.«to»), h1, h2, Or.inl ⟨job, hjob, rfl⟩⟩
        · exact ⟨r, h1, h2, Or.inr ⟨w, hwmem, hr⟩⟩
      obtain ⟨r, hr1, hr2, hpend⟩ := hrange
      by_cases ha : start ≤ a ∧ a < end_
      · have hbn : ¬ (start ≤ b ∧ b < end_) := fun h => hboth ⟨ha, h⟩
        have h1 := hain ha
        have h2 := hbout hbn
        have hne : r ≠ (start, end_) := by
          intro h
          rw [h] at hr2
          simp only at hr2
          omega
        have := cover_two s i a0 _ (start, end_) stack hw rfl ⟨h1.1, h1.2⟩ r
          ⟨hr1, by omega⟩ hne hpend
        have := hc a0
        omega
      · have h1 := haout ha
        by_cases hbP : start ≤ b ∧ b < end_
        · have h2 := hbin hbP
          have hne : r ≠ (start, end_) := by
            intro h
            rw [h] at hr1
            simp only at hr1
            omega
          have := cover_two s i b0 _ (start, end_) stack hw rfl ⟨h2.1, h2.2⟩ r
            ⟨by omega, hr2⟩ hne hpend
          have := hc b0
          omega
        · have h2 := hbout hbP
          subst h1
          subst h2
          right
          rcases hpend with ⟨job, hjob, rfl⟩ | ⟨w, hwmem, hrw⟩
          · exact Or.inl ⟨job, hqueue job hjob, hr1, hr2⟩
          · by_cases hww : w = .sorting event ((start, end_) :: stack)
            · subst hww
              rcases List.mem_cons.mp hrw with h | h
              · rw [h] at hr1 hr2
                simp only at hr1 hr2
                omega
              · exact Or.inr ⟨new, hnewmem, r, hstack r h, hr1, hr2⟩
            · exact Or.inr ⟨w, by rw [hws]; exact mem_set_of_ne _ i _ new w hw hwmem hww,
                r, hrw, hr1, hr2⟩

theorem holds_split (k start mid end_ : Nat) (hm1 : start ≤ mid) (hm2 : mid < end_) :
    holds k (start, mid) + holds k (mid + 1, end_) ≤ holds k (start, end_) := by
  unfold holds
  simp only
  split <;> split <;> split <;> omega

theorem holds_empty (k start : Nat) : holds k (start, start) = 0 := by
  unfold holds
  simp only
  split <;> omega

/-- Every turn of a worker keeps the invariant of the interleaved execution. -/
theorem System.stepWorker_inv (vec : List Int) (s s' : System) (i : Nat)
    (hstep : s.stepWorker i = some s') (hJ : s.Inv vec) : s'.Inv vec := by
  have hJ0 := hJ
  obtain ⟨hlen, hperm, hc, hqv, hsv, hsorted⟩ := hJ
  simp only [System.stepWorker] at hstep
  split at hstep
  · simp at hstep
  · rename_i event hw
    split at hstep
    · simp at hstep; subst hstep; exact hJ0
    · simp at hstep; subst hstep
      exact System.Inv.update_same vec s _ i _ .exited hw rfl hJ0 rfl
        (by intro k; simp [Worker.claims, Worker.stack]) hqv
        (by intro r hr; simp [Worker.stack] at hr)
        (fun job hjob a b _ h1 h2 => Or.inl ⟨job, hjob, h1, h2⟩)
        (by intro r hr; simp [Worker.stack] at hr)
    · rename_i job rest hdq
      simp at hstep; subst hstep
      have hdq1 := (WaitandDequeue_true _ _ _ _ hdq).1
      have hmem : Worker.sorting job [(job.«from», job.«to»)]
          ∈ s.workers.set i (.sorting job [(job.«from», job.«to»)]) :=
        mem_set_self _ i _ _ hw
      refine System.Inv.update_same vec s _ i _ (.sorting job [(job.«from», job.«to»)]) hw rfl
        hJ0 rfl ?_ ?_ ?_ ?_ ?_
      · intro k
        simp only [hdq1, Worker.claims, Worker.stack, List.map_cons, List.sum_cons,
          List.map_nil, List.sum_nil]
        omega
      · intro job1 hjob1
        exact hqv job1 (by rw [hdq1]; exact List.mem_cons_of_mem _ hjob1)
      · intro r hr
        simp only [Worker.stack, List.mem_singleton] at hr
        subst hr
        exact hqv job (by rw [hdq1]; exact List.mem_cons_self _ _)
      · intro job1 hjob1 a b _ h1 h2
        rw [hdq1] at hjob1
        rcases List.mem_cons.mp hjob1 with h | h
        · subst h
          exact Or.inr ⟨_, hmem, (job1.«from», job1.«to»), by simp [Worker.stack], h1, h2⟩
        · exact Or.inl ⟨job1, h, h1, h2⟩
      · intro r hr
        simp [Worker.stack] at hr
  · rename_i event hw
    simp at hstep; subst hstep
    exact System.Inv.update_same vec s _ i _ (.waiting event) hw rfl hJ0 rfl
      (by intro k; simp [Worker.claims, Worker.stack]) hqv
      (by intro r hr; simp [Worker.stack] at hr)
      (fun job hjob a b _ h1 h2 => Or.inl ⟨job, hjob, h1, h2⟩)
      (by intro r hr; simp [Worker.stack] at hr)
  · rename_i event start end_ stack hw
    have hwmem := mem_of_getElem_some _ i _ hw
    have hvalid := hsv _ hwmem
    simp only [Worker.stack] at hvalid
    have htop := hvalid (start, end_) (List.mem_cons_self _ _)
    simp only at htop
    split at hstep
    · rename_i heq
      simp at hstep; subst hstep
      subst heq
      have hmem : Worker.sorting event stack ∈ s.workers.set i (.sorting event stack) :=
        mem_set_self _ i _ _ hw
      refine System.Inv.update_same vec s _ i _ (.sorting event stack) hw rfl hJ0 rfl ?_ hqv
        ?_ (fun job hjob a b _ h1 h2 => Or.inl ⟨job, hjob, h1, h2⟩) ?_
      · intro k
        simp only [Worker.claims, Worker.stack, List.map_cons, List.sum_cons, holds_empty]
        omega
      · intro r hr
        exact hvalid r (List.mem_cons_of_mem _ hr)
      · intro r hr a b hab h1 h2
        simp only [Worker.stack] at hr
        rcases List.mem_cons.mp hr with h | h
        · subst h
          simp only at h1 h2
          omega
        · exact Or.inr ⟨_, hmem, r, h, h1, h2⟩
    · rename_i hne
      obtain ⟨arr1, mid1, hpp, hm1, hm2, hre, _, hleft, hright⟩ :=
        partitionPass_spec s.arr start end_ (by omega) (by omega)
      rw [hpp] at hstep
      simp only at hstep
      split at hstep
      · simp at hstep; subst hstep
        have hmem : Worker.enqueued event ((mid1 + 1, end_) :: stack)
            ∈ s.workers.set i (.enqueued event ((mid1 + 1, end_) :: stack)) :=
          mem_set_self _ i _ _ hw
        refine System.Inv.update vec s _ i _ (.enqueued event ((mid1 + 1, end_) :: stack)) hw rfl
          hJ0 (by rw [← hlen]; exact hre.1) (hre.2.1.trans hperm) ?_ ?_ ?_ ?_
        · intro k
          have := holds_split k start mid1 end_ hm1 hm2
          simp only [Queue.Enqueue, List.map_append, List.sum_append, Worker.claims, Worker.stack,
            List.map_cons, List.sum_cons, List.map_nil, List.sum_nil]
          omega
        · intro job hjob
          simp only [Queue.Enqueue, List.mem_append, List.mem_singleton] at hjob
          rcases hjob with h | h
          · exact hqv job h
          · subst h
            simp only
            omega
        · intro r hr
          simp only [Worker.stack] at hr
          rcases List.mem_cons.mp hr with h | h
          · subst h
            simp only
            omega
          · exact hvalid r (List.mem_cons_of_mem _ h)
        · refine System.Inv.partition_sorted vec s _ i event start end_ stack
            (.enqueued event ((mid1 + 1, end_) :: stack)) arr1 mid1 hw rfl hJ0 htop.2 hre hleft
            hright rfl ?_ ?_ ?_ ?_
          · intro job hjob
            simp only [Queue.Enqueue, List.mem_append]
            exact Or.inl hjob
          · intro r hr
            exact List.mem_cons_of_mem _ hr
          · intro a b h1 h2
            exact Or.inl ⟨⟨start, mid1⟩, by simp [Queue.Enqueue], h1, h2⟩
          · intro a b h1 h2
            exact Or.inr ⟨_, hmem, (mid1 + 1, end_), by simp [Worker.stack], h1, h2⟩
      · simp at hstep; subst hstep
        have hmem : Worker.sorting event ((start, mid1) :: (mid1 + 1, end_) :: stack)
            ∈ s.workers.set i (.sorting event ((start, mid1) :: (mid1 + 1, end_) :: stack)) :=
          mem_set_self _ i _ _ hw
        refine System.Inv.update vec s _ i _
          (.sorting event ((start, mid1) :: (mid1 + 1, end_) :: stack)) hw rfl
          hJ0 (by rw [← hlen]; exact hre.1) (hre.2.1.trans hperm) ?_ hqv ?_ ?_
        · intro k
          have := holds_split k start mid1 end_ hm1 hm2
          simp only [Worker.claims, Worker.stack, List.map_cons, List.sum_cons]
          omega
        · intro r hr
          simp only [Worker.stack] at hr
          rcases List.mem_cons.mp hr with h | h
          · subst h
            simp only
            omega
          · rcases List.mem_cons.mp h with h | h
            · subst h
              simp only
              omega
            · exact hvalid r (List.mem_cons_of_mem _ h)
        · refine System.Inv.partition_sorted vec s _ i event start end_ stack
            (.sorting event ((start, mid1) :: (mid1 + 1, end_) :: stack)) arr1 mid1 hw rfl hJ0
            htop.2 hre hleft hright rfl (fun job hjob => hjob) ?_ ?_ ?_
          · intro r hr
            exact List.mem_cons_of_mem _ (List.mem_cons_of_mem _ hr)
          · intro a b h1 h2
            exact Or.inr ⟨_, hmem, (start, mid1), by simp [Worker.stack], h1, h2⟩
          · intro a b h1 h2
            exact Or.inr ⟨_, hmem, (mid1 + 1, end_), by simp [Worker.stack], h1, h2⟩
  · rename_i event stack hw
    simp at hstep; subst hstep
    have hwmem := mem_of_getElem_some _ i _ hw
    have hmem : Worker.sorting event stack ∈ s.workers.set i (.sorting event stack) :=
      mem_set_self _ i _ _ hw
    exact System.Inv.update_same vec s _ i _ (.sorting event stack) hw rfl hJ0 rfl
      (by intro k; simp [Worker.claims, Worker.stack]) hqv
      (fun r hr => hsv _ hwmem r hr)
      (fun job hjob a b _ h1 h2 => Or.inl ⟨job, hjob, h1, h2⟩)
      (fun r hr a b _ h1 h2 => Or.inr ⟨_, hmem, r, hr, h1, h2⟩)
  · simp at hstep

theorem System.init_inv (vec : List Int) (n : Nat) : (System.init vec n).Inv vec := by
  have h0 : ∀ k, ((List.replicate n (Worker.waiting default)).map (Worker.claims k)).sum = 0 :=
    fun k => sum_map_replicate_zero (Worker.claims k) (Worker.waiting default) n rfl
  refine ⟨rfl, List.Perm.refl _, ?_, ?_, ?_, ?_⟩
  · intro k
    simp only [System.cover, System.init, Queue.Enqueue, Queue.empty, List.nil_append,
      List.map_cons, List.map_nil, List.sum_cons, List.sum_nil, h0]
    unfold holds
    split <;> omega
  · intro job hjob
    simp only [System.init, Queue.Enqueue, Queue.empty, List.nil_append,
      List.mem_singleton] at hjob
    subst hjob
    simp
  · intro w hw r hr
    simp only [System.init] at hw
    rw [List.eq_of_mem_replicate hw] at hr
    simp [Worker.stack] at hr
  · intro a b _ hb
    exact Or.inr (Or.inl ⟨⟨0, vec.length⟩, by simp [System.init, Queue.Enqueue, Queue.empty],
      Nat.zero_le _, hb⟩)

theorem System.Inv.close (vec : List Int) (s : System) (hJ : s.Inv vec) :
    System.Inv vec { s with Jobs := s.Jobs.Close } := hJ

theorem System.step_inv (vec : List Int) (s s' : System) (t : Thread)
    (hstep : s.step t = some s') (hJ : s.Inv vec) : s'.Inv vec := by
  cases t with
  | main =>
    simp only [System.step, System.stepMain] at hstep
    split at hstep
    · simp at hstep
    · split at hstep
      · simp at hstep; subst hstep; exact hJ
      · simp at hstep; subst hstep; exact System.Inv.close vec s hJ
  | worker i => exact System.stepWorker_inv vec s s' i hstep hJ

theorem System.stepEarly_inv (vec : List Int) (s s' : System) (t : Thread)
    (hstep : s.stepEarly t = some s') (hJ : s.Inv vec) : s'.Inv vec := by
  cases t with
  | main =>
    simp only [System.stepEarly] at hstep
    split at hstep
    · simp at hstep
    · simp at hstep; subst hstep; exact System.Inv.close vec s hJ
  | worker i => exact System.stepWorker_inv vec s s' i hstep hJ

theorem System.run_inv (vec : List Int) (schedule : List Thread) : ∀ (s s' : System),
    s.run schedule = some s' → s.Inv vec → s'.Inv vec := by
  induction schedule with
  | nil =>
    intro s s' hrun hJ
    simp [System.run] at hrun
    subst hrun
    exact hJ
  | cons t schedule ih =>
    intro s s' hrun hJ
    simp only [System.run] at hrun
    cases hstep : s.step t with
    | none => simp [hstep] at hrun
    | some s1 =>
      simp only [hstep] at hrun
      exact ih s1 s' hrun (System.step_inv vec s s1 t hstep hJ)

/-- What holds of every state an execution with `Close` at any point can reach
when it holds at the start and every turn keeps it. -/
theorem System.runEarly_induct (P : System → Prop)
    (hP : ∀ s s' t, s.stepEarly t = some s' → P s → P s') (schedule : List Thread) :
    ∀ (s s' : System), s.runEarly schedule = some s' → P s → P s' := by
  induction schedule with
  | nil =>
    intro s s' hrun h
    simp [System.runEarly] at hrun
    subst hrun
    exact h
  | cons t schedule ih =>
    intro s s' hrun h
    simp only [System.runEarly] at hrun
    cases hstep : s.stepEarly t with
    | none => simp [hstep] at hrun
    | some s1 =>
      simp only [hstep] at hrun
      exact ih s1 s' hrun (hP s s1 t hstep h)

theorem System.stepEarly_credit (s s' : System) (t : Thread) (hstep : s.stepEarly t = some s')
    (hinv : s.ct = s.Jobs.dq_.length + (s.workers.map Worker.credit).sum) :
    s'.ct = s'.Jobs.dq_.length + (s'.workers.map Worker.credit).sum := by
  cases t with
  | main =>
    simp only [System.stepEarly] at hstep
    split at hstep
    · simp at hstep
    · simp at hstep; subst hstep; simpa [Queue.Close] using hinv
  | worker i => exact System.step_credit s s' (.worker i) hstep hinv

theorem WaitandDequeue_false {T : Type} (q rest : Queue T) (value out : T)
    (h : q.WaitandDequeue value = some (false, out, rest)) : q.dq_ = [] := by
  obtain ⟨dq, c⟩ := q
  cases dq with
  | nil => rfl
  | cons x xs => simp [WaitandDequeue_cons] at h

/-- A turn of a worker after which every worker has exited leaves the queue
empty: the turn is a `WaitandDequeue` that returned `false`. -/
theorem System.stepWorker_exited (s s' : System) (i : Nat) (hstep : s.stepWorker i = some s')
    (hall : ∀ w ∈ s'.workers, w = .exited) : s'.Jobs.dq_ = [] := by
  simp only [System.stepWorker] at hstep
  split at hstep
  · simp at hstep
  · rename_i event hw
    split at hstep
    · simp at hstep; subst hstep
      have := hall _ (mem_of_getElem_some _ i _ hw)
      cases this
    · rename_i out rest hdq
      simp at hstep; subst hstep
      exact WaitandDequeue_false _ _ _ _ hdq
    · simp at hstep; subst hstep
      have := hall _ (mem_set_self _ i _ _ hw)
      cases this
  · rename_i event hw
    simp at hstep; subst hstep
    have := hall _ (mem_set_self _ i _ _ hw)
    cases this
  · rename_i event start end_ stack hw
    split at hstep
    · simp at hstep; subst hstep
      have := hall _ (mem_set_self _ i _ _ hw)
      cases this
    · split at hstep
      · simp at hstep
      · split at hstep
        · simp at hstep; subst hstep
          have := hall _ (mem_set_self _ i _ _ hw)
          cases this
        · simp at hstep; subst hstep
          have := hall _ (mem_set_self _ i _ _ hw)
          cases this
  · rename_i event stack hw
    simp at hstep; subst hstep
    have := hall _ (mem_set_self _ i _ _ hw)
    cases this
  · simp at hstep

theorem System.stepEarly_exited (s s' : System) (t : Thread) (hstep : s.stepEarly t = some s')
    (h : (∀ w ∈ s.workers, w = .exited) → s.Jobs.dq_ = []) :
    (∀ w ∈ s'.workers, w = .exited) → s'.Jobs.dq_ = [] := by
  intro hall
  cases t with
  | main =>
    simp only [System.stepEarly] at hstep
    split at hstep
    · simp at hstep
    · simp at hstep; subst hstep; exact h hall
  | worker i => exact System.stepWorker_exited s s' i hstep hall

theorem sum_map_exited (f : Worker → Int) (h : f .exited = 0) (ws : List Worker)
    (hall : ∀ w ∈ ws, w = .exited) : (ws.map f).sum = 0 := by
  induction ws with
  | nil => rfl
  | cons w ws ih =>
    have hw := hall w (List.mem_cons_self _ _)
    subst hw
    simp only [List.map_cons, List.sum_cons, h, zero_add]
    exact ih fun w hw => hall w (List.mem_cons_of_mem _ hw)

/-- In a valid call whose first partition pass hands the left part over, the
accesses after the `Enqueue` are those of the loop on `[mid+1, end)`. -/
theorem quick_sort_accesses_after_enqueue (fuel : Nat) (t : Shared) (start end_ : Nat)
    (arr1 : List Int) (mid : Nat) (hse : start < end_) (hend : end_ ≤ t.arr.length)
    (hfuel : end_ - start < fuel + 1) (hpp : partitionPass t.arr start end_ = .ok (arr1, mid))
    (hbig : mid - start > 10) :
    ∃ accP S accRest, partitionPass_accesses t.arr start end_ = .ok (arr1, mid, accP)
      ∧ quick_sort_accesses fuel (({ t with arr := arr1 }.enqueue ⟨start, mid⟩).increment)
          (mid + 1) end_ = .ok (S, accRest)
      ∧ quick_sort_accesses (fuel + 1) t start end_ = .ok (S, accP ++ accRest)
      ∧ (∀ k ∈ accP, start ≤ k ∧ k < end_)
      ∧ ∀ k ∈ accRest, mid < k ∧ k < end_ := by
  obtain ⟨arr2, mid2, accP, hppa, hpp2, hin⟩ := partitionPass_accesses_spec t.arr start end_ hse hend
  rw [hpp] at hpp2
  simp only [Except.ok.injEq, Prod.mk.injEq] at hpp2
  obtain ⟨rfl, rfl⟩ := hpp2
  obtain ⟨arr3, mid3, hpp3, _, hm2, hre, _⟩ := partitionPass_spec t.arr start end_ hse hend
  rw [hpp] at hpp3
  simp only [Except.ok.injEq, Prod.mk.injEq] at hpp3
  obtain ⟨rfl, rfl⟩ := hpp3
  have hlen : end_ ≤ (({ t with arr := arr1 }.enqueue ⟨start, mid⟩).increment).arr.length := by
    simp only [Shared.enqueue, Shared.increment]
    rw [hre.1]
    exact hend
  obtain ⟨arr', new, hrun, _⟩ :=
    quick_sort_spec fuel (({ t with arr := arr1 }.enqueue ⟨start, mid⟩).increment) (mid + 1) end_
      (by omega) hlen (by omega)
  have herase := quick_sort_accesses_erase fuel
    (({ t with arr := arr1 }.enqueue ⟨start, mid⟩).increment) (mid + 1) end_
  rw [hrun] at herase
  obtain ⟨r, hr, _⟩ := map_eq_ok _ _ _ herase
  obtain ⟨S, accRest⟩ := r
  have hwithin := (quick_sort_accesses_within fuel _ S (mid + 1) end_ accRest (by omega) hlen
    (by omega) hr).2
  refine ⟨accP, S, accRest, hppa, hr, ?_, hin, ?_⟩
  · simp only [quick_sort_accesses, if_neg (show start ≠ end_ by omega), hppa, if_pos hbig, hr]
  · intro k hk
    have := hwithin k hk
    omega

/-- C24. Pending and live work never overlap.  In every state a run of the
quicksort pool reaches from the seed state (any vector, any number of workers,
any schedule), every index lies in at most one range, counting the ranges of the
queued jobs and the ranges the in-flight `quick_sort` calls still have to work
on; so no index lies both in a queued job and in a range of an in-flight call,
and no index lies in ranges of two workers.  And a valid call of `quick_sort`
whose partition pass gives `mid - start > 10` accesses, after its
`Enqueue({start, mid})`, only indices `k` with `mid < k < end`. -/
theorem pending_and_live_ranges_disjoint (vec : List Int) (n : Nat) (schedule : List Thread)
    (s : System) (hrun : (System.init vec n).run schedule = some s) :
    (∀ k, s.cover k ≤ 1)
    ∧ (∀ job ∈ s.Jobs.dq_, ∀ w ∈ s.workers, ∀ r ∈ w.stack, ∀ k,
        ¬ ((job.«from» ≤ k ∧ k < job.«to») ∧ (r.1 ≤ k ∧ k < r.2)))
    ∧ (∀ (i j : Nat) (w1 w2 : Worker), i ≠ j → s.workers[i]? = some w1 → s.workers[j]? = some w2 →
        ∀ r1 ∈ w1.stack, ∀ r2 ∈ w2.stack, ∀ k,
          ¬ ((r1.1 ≤ k ∧ k < r1.2) ∧ (r2.1 ≤ k ∧ k < r2.2)))
    ∧ ∀ (fuel : Nat) (t : Shared) (start end_ : Nat) (arr1 : List Int) (mid : Nat),
        start < end_ → end_ ≤ t.arr.length → end_ - start < fuel + 1 →
        partitionPass t.arr start end_ = .ok (arr1, mid) → mid - start > 10 →
        ∃ accP S accRest, partitionPass_accesses t.arr start end_ = .ok (arr1, mid, accP)
          ∧ quick_sort_accesses fuel (({ t with arr := arr1 }.enqueue ⟨start, mid⟩).increment)
              (mid + 1) end_ = .ok (S, accRest)
          ∧ quick_sort_accesses (fuel + 1) t start end_ = .ok (S, accP ++ accRest)
          ∧ (∀ k ∈ accP, start ≤ k ∧ k < end_)
          ∧ ∀ k ∈ accRest, mid < k ∧ k < end_ := by
  have hJ := System.run_inv vec schedule _ s hrun (System.init_inv vec n)
  obtain ⟨_, _, hc, _, _, _⟩ := hJ
  refine ⟨hc, ?_, ?_, ?_⟩
  · intro job hjob w hw r hr k hk
    have h1 := le_sum_of_mem (fun job : Event => holds k (job.«from», job.«to»))
      (fun job => holds_nonneg k (job.«from», job.«to»)) s.Jobs.dq_ job hjob
    have h2 := le_sum_of_mem (Worker.claims k) (claims_nonneg k) s.workers w hw
    have h3 := le_sum_of_mem (holds k) (holds_nonneg k) w.stack r hr
    have h4 : w.claims k = (w.stack.map (holds k)).sum := rfl
    have h5 : holds k (job.«from», job.«to») = 1 := by simp [holds, hk.1]
    have h6 : holds k r = 1 := by simp [holds, hk.2]
    have h7 := hc k
    unfold System.cover at h7
    simp only at h1
    omega
  · intro i j w1 w2 hij hw1 hw2 r1 hr1 r2 hr2 k hk
    have hq := sum_nonneg_of_nonneg (fun job : Event => holds k (job.«from», job.«to»))
      (fun job => holds_nonneg k _) s.Jobs.dq_
    have hsplit := sum_map_set (Worker.claims k) s.workers i w1 Worker.exited hw1
    have hexit : Worker.exited.claims k = 0 := rfl
    have hw2mem : w2 ∈ s.workers.set i Worker.exited :=
      List.mem_iff_getElem?.mpr ⟨j, by rw [List.getElem?_set_ne hij]; exact hw2⟩
    have h2 := le_sum_of_mem (Worker.claims k) (claims_nonneg k) _ w2 hw2mem
    have h3 := le_sum_of_mem (holds k) (holds_nonneg k) w1.stack r1 hr1
    have h4 := le_sum_of_mem (holds k) (holds_nonneg k) w2.stack r2 hr2
    have h5 : w1.claims k = (w1.stack.map (holds k)).sum := rfl
    have h6 : w2.claims k = (w2.stack.map (holds k)).sum := rfl
    have h7 : holds k r1 = 1 := by simp [holds, hk.1]
    have h8 : holds k r2 = 1 := by simp [holds, hk.2]
    have h9 := hc k
    unfold System.cover at h9
    omega
  · intro fuel t start end_ arr1 mid hse hend hfuel hpp hbig
    exact quick_sort_accesses_after_enqueue fuel t start end_ arr1 mid hse hend hfuel hpp hbig

/-- C25. Premature close cannot strand work.  In the interleaved execution of
`Quick_Sort_with_Simple_Thread_Pool` with at least one worker, in which `main`
may call `Close` at any point (also while `ct` is not `0`), every reachable
state in which all workers have exited has an empty queue, `ct = 0` and a
vector that is sorted and a rearrangement of the input. -/
theorem premature_close_strands_no_work (vec : List Int) (n : Nat) (hn : 1 ≤ n)
    (schedule : List Thread) (s : System)
    (hrun : (System.init vec n).runEarly schedule = some s)
    (hall : ∀ w ∈ s.workers, w = .exited) :
    s.Jobs.dq_ = [] ∧ s.ct = 0 ∧ s.arr.Sorted (· ≤ ·) ∧ s.arr.Perm vec := by
  have hempty : s.Jobs.dq_ = [] := by
    refine System.runEarly_induct
      (fun s => (∀ w ∈ s.workers, w = .exited) → s.Jobs.dq_ = [])
      System.stepEarly_exited schedule _ s hrun ?_ hall
    intro h
    have hmem : Worker.waiting default ∈ (System.init vec n).workers := by
      simp only [System.init, List.mem_replicate]
      exact ⟨by omega, trivial⟩
    have := h _ hmem
    cases this
  have hcredit : s.ct = s.Jobs.dq_.length + (s.workers.map Worker.credit).sum := by
    refine System.runEarly_induct
      (fun s => s.ct = s.Jobs.dq_.length + (s.workers.map Worker.credit).sum)
      System.stepEarly_credit schedule _ s hrun ?_
    have h0 := sum_map_replicate_zero Worker.credit (Worker.waiting default) n rfl
    simp only [System.init, h0]
    rfl
  have hJ : s.Inv vec :=
    System.runEarly_induct (fun s => s.Inv vec) (System.stepEarly_inv vec) schedule _ s hrun
      (System.init_inv vec n)
  obtain ⟨hlen, hperm, _, _, _, hsorted⟩ := hJ
  refine ⟨hempty, ?_, ?_, hperm⟩
  · rw [hcredit, hempty, sum_map_exited Worker.credit rfl s.workers hall]
    rfl
  · rw [List.Sorted, List.pairwise_iff_getElem]
    intro i j hi hj hij
    rcases hsorted i j hij (by omega) with h | h
    · rwa [getD_eq_getElem s.arr i hi, getD_eq_getElem s.arr j hj] at h
    · rcases h with ⟨job, hjob, _⟩ | ⟨w, hw, r, hr, _⟩
      · rw [hempty] at hjob
        simp at hjob
      · rw [hall w hw] at hr
        simp [Worker.stack] at hr

theorem pending_and_live_ranges_disjoint_witness :
    (System.init handoverInput 2).run [.worker 0, .worker 0] = some handoverState
    ∧ ((∀ k, handoverState.cover k ≤ 1)
      ∧ (∀ job ∈ handoverState.Jobs.dq_, ∀ w ∈ handoverState.workers, ∀ r ∈ w.stack, ∀ k,
          ¬ ((job.«from» ≤ k ∧ k < job.«to») ∧ (r.1 ≤ k ∧ k < r.2)))
      ∧ (∀ (i j : Nat) (w1 w2 : Worker), i ≠ j → handoverState.workers[i]? = some w1 →
          handoverState.workers[j]? = some w2 →
          ∀ r1 ∈ w1.stack, ∀ r2 ∈ w2.stack, ∀ k,
            ¬ ((r1.1 ≤ k ∧ k < r1.2) ∧ (r2.1 ≤ k ∧ k < r2.2)))
      ∧ ∀ (fuel : Nat) (t : Shared) (start end_ : Nat) (arr1 : List Int) (mid : Nat),
          start < end_ → end_ ≤ t.arr.length → end_ - start < fuel + 1 →
          partitionPass t.arr start end_ = .ok (arr1, mid) → mid - start > 10 →
          ∃ accP S accRest, partitionPass_accesses t.arr start end_ = .ok (arr1, mid, accP)
            ∧ quick_sort_accesses fuel (({ t with arr := arr1 }.enqueue ⟨start, mid⟩).increment)
                (mid + 1) end_ = .ok (S, accRest)
            ∧ quick_sort_accesses (fuel + 1) t start end_ = .ok (S, accP ++ accRest)
            ∧ (∀ k ∈ accP, start ≤ k ∧ k < end_)
            ∧ ∀ k ∈ accRest, mid < k ∧ k < end_) :=
  ⟨by decide,
    pending_and_live_ranges_disjoint handoverInput 2 [.worker 0, .worker 0] handoverState
      (by decide)⟩

theorem premature_close_strands_no_work_witness :
    1 ≤ 2
    ∧ (System.init handoverInput 2).runEarly
          ([.worker 0, .worker 0, .main] ++ List.replicate 33 (.worker 0) ++ [.worker 1])
        = some { arr := [1, 2, 3, 4, 5, 6, 7, 8, 9, 10, 11, 12, 13, 14],
                 Jobs := { dq_ := [], closed := true }, ct := 0,
                 workers := [.exited, .exited] }
    ∧ (∀ w ∈ ([.exited, .exited] : List Worker), w = .exited)
    ∧ (([] : List Event) = [] ∧ (0 : Int) = 0
      ∧ ([1, 2, 3, 4, 5, 6, 7, 8, 9, 10, 11, 12, 13, 14] : List Int).Sorted (· ≤ ·)
      ∧ ([1, 2, 3, 4, 5, 6, 7, 8, 9, 10, 11, 12, 13, 14] : List Int).Perm handoverInput) :=
  ⟨by decide, by decide, by decide,
    premature_close_strands_no_work handoverInput 2 (by decide)
      ([.worker 0, .worker 0, .main] ++ List.replicate 33 (.worker 0) ++ [.worker 1])
      { arr := [1, 2, 3, 4, 5, 6, 7, 8, 9, 10, 11, 12, 13, 14],
        Jobs := { dq_ := [], closed := true }, ct := 0,
        workers := [.exited, .exited] } (by decide) (by decide)⟩

end Pool
